import Mathlib

/-! Surface demons registration (`src/igl/surface_demons.cpp`).

A shallow embedding of the spherical demons registration tool: the gradient
sanitiser `fix_grad`, the face-to-vertex averager `face_to_vertex`, the
adjacency smoother built in `main`, `smooth_grad`, the feature normalisation,
the correspondence search, the registration loop and the control flow of
`main`; and of the table reader `igl::readCSV` (`src/3rd_party/csv/readCSV.cpp`).

Numbers.  A C++ `double` is embedded as `Dbl K`: either a finite value of an ordered
field `K`, or one of the IEEE-754 special values `+Inf`, `-Inf`, `NaN`.
The operations `+`, `*`, `/` of `Dbl K` are those of exact arithmetic on finite
values (no rounding, no overflow); the special values follow IEEE-754
(`0/0 = NaN`, `x/0 = ±Inf`, `Inf - Inf = NaN`, `0 * Inf = NaN`, every
comparison with `NaN` is false).  The sign of zero is not tracked: a zero
divisor is taken to be `+0`.  The square root of a finite non-negative value
is delegated to a function `sqrt : K → K` passed explicitly; theorems that
need it assume it is exact (`ExactSqrt`).

The machine rounds.  `round64` is the rounding of binary64 (to nearest, ties
to even, gradual underflow, overflow to infinity) on the rationals, `fl64` its
extension to `Dbl ℚ`, and `sqrt64` the correctly rounded square root.  The
operators whose algebraic properties depend on rounding are defined a second
time with every arithmetic result passed through a rounding function `rnd`
(`face_to_vertex_rounded`, `smoothing_matrix_rounded`, `smooth_rounded`,
`normalize_feature_rounded`): `rnd := fl64` is the program as the machine runs
it, `rnd := id` is the exact operator of the same name.  A property stated "in
exact arithmetic" is one of the exact operators; where the rounded operators
break it, a concrete input shows it.
-/

namespace Falcon

/-- A `double`: a finite value, or an IEEE-754 special value. -/
inductive Dbl (K : Type) where
  | fin (x : K)
  | pinf
  | ninf
  | nan
  deriving DecidableEq

namespace Dbl

variable {K : Type} [LinearOrderedField K]

/-- The infinity that has the sign of a finite value, `NaN` when that value is zero. -/
def infOfSign (a : K) : Dbl K :=
  if a = 0 then nan else if 0 < a then pinf else ninf

/-- Addition in exact arithmetic: the exact sum of two finite values, the IEEE
rules on the special values.  The machine's addition is `fl64 (a + b)`. -/
def add : Dbl K → Dbl K → Dbl K
  | fin a, fin b => fin (a + b)
  | nan, _ => nan
  | _, nan => nan
  | pinf, ninf => nan
  | ninf, pinf => nan
  | pinf, _ => pinf
  | _, pinf => pinf
  | ninf, _ => ninf
  | _, ninf => ninf

/-- IEEE negation. -/
def neg : Dbl K → Dbl K
  | fin a => fin (-a)
  | pinf => ninf
  | ninf => pinf
  | nan => nan

/-- Multiplication in exact arithmetic: the exact product of two finite values,
the IEEE rules on the special values.  The machine's product is `fl64 (a * b)`. -/
def mul : Dbl K → Dbl K → Dbl K
  | fin a, fin b => fin (a * b)
  | nan, _ => nan
  | _, nan => nan
  | fin a, pinf => infOfSign a
  | fin a, ninf => infOfSign (-a)
  | pinf, fin b => infOfSign b
  | ninf, fin b => infOfSign (-b)
  | pinf, pinf => pinf
  | ninf, ninf => pinf
  | pinf, ninf => ninf
  | ninf, pinf => ninf

/-- Division in exact arithmetic: the exact quotient of two finite values, the
IEEE rules on the special values and on a zero divisor, which counts as `+0`.
The machine's quotient is `fl64 (a / b)`. -/
def div : Dbl K → Dbl K → Dbl K
  | fin a, fin b => if b = 0 then infOfSign a else fin (a / b)
  | nan, _ => nan
  | _, nan => nan
  | fin _, pinf => fin 0
  | fin _, ninf => fin 0
  | pinf, fin b => if 0 ≤ b then pinf else ninf
  | ninf, fin b => if 0 ≤ b then ninf else pinf
  | pinf, pinf => nan
  | pinf, ninf => nan
  | ninf, pinf => nan
  | ninf, ninf => nan

instance : Zero (Dbl K) := ⟨fin 0⟩
instance : One (Dbl K) := ⟨fin 1⟩
instance : Add (Dbl K) := ⟨add⟩
instance : Neg (Dbl K) := ⟨neg⟩
instance : Sub (Dbl K) := ⟨fun a b => add a (neg b)⟩
instance : Mul (Dbl K) := ⟨mul⟩
instance : Div (Dbl K) := ⟨div⟩

/-- The C++ comparison `a < b` on doubles: false whenever an operand is `NaN`. -/
def lt : Dbl K → Dbl K → Bool
  | fin a, fin b => decide (a < b)
  | nan, _ => false
  | _, nan => false
  | ninf, fin _ => true
  | ninf, pinf => true
  | fin _, pinf => true
  | _, _ => false

/-- The function `std::isfinite`. -/
def isFinite : Dbl K → Bool
  | fin _ => true
  | _ => false

/-- The function `std::sqrt`, given the square root on finite non-negative values. -/
def sqrt (sqrtK : K → K) : Dbl K → Dbl K
  | fin a => if a < 0 then nan else fin (sqrtK a)
  | pinf => pinf
  | ninf => nan
  | nan => nan

/-- The expression `x.pow(2)`. -/
def sq (x : Dbl K) : Dbl K := x * x

/-- The C++ comparison `a <= b` on doubles: false whenever an operand is `NaN`. -/
def le : Dbl K → Dbl K → Bool
  | fin a, fin b => decide (a ≤ b)
  | nan, _ => false
  | _, nan => false
  | ninf, _ => true
  | _, pinf => true
  | _, _ => false

instance : AddCommMonoid (Dbl K) where
  add := (· + ·)
  zero := 0
  nsmul := nsmulRec
  add_assoc a b c := by
    cases a <;> cases b <;> cases c <;>
      first | rfl | exact congrArg fin (add_assoc _ _ _)
  zero_add a := by
    cases a <;> first | rfl | exact congrArg fin (zero_add _)
  add_zero a := by
    cases a <;> first | rfl | exact congrArg fin (add_zero _)
  add_comm a b := by
    cases a <;> cases b <;> first | rfl | exact congrArg fin (add_comm _ _)

end Dbl

open Dbl

/-- A square-root function that is exact on the non-negative values of `K`. -/
def ExactSqrt {K : Type} [LinearOrderedField K] (sqrtK : K → K) : Prop :=
  ∀ x, 0 ≤ x → 0 ≤ sqrtK x ∧ sqrtK x * sqrtK x = x

/-! ## Rounding to binary64

A finite `double` is a rational `n * 2^e` with `|n| < 2^53` and
`-1074 ≤ e ≤ 971`.  Every arithmetic operation of the machine returns the
value of that form nearest to the exact result, the one with even `n` at a
tie, and an infinity when the rounded magnitude reaches `2^1024`. -/

section Rounding

/-- The floor of the binary logarithm of a positive natural number, by repeated
halving; the first argument bounds the number of halvings. -/
def log2Nat : ℕ → ℕ → ℕ
  | 0, _ => 0
  | fuel + 1, n => if n < 2 then 0 else log2Nat fuel (n / 2) + 1

/-- The power of two with an integer exponent. -/
def pow2 (e : ℤ) : ℚ :=
  if 0 ≤ e then ((2 ^ e.toNat : ℕ) : ℚ) else 1 / ((2 ^ (-e).toNat : ℕ) : ℚ)

/-- The binade of a positive rational `x`: the integer `e` with
`2^e ≤ x < 2^(e+1)`.  With `2^a ≤ num < 2^(a+1)` and `2^b ≤ den < 2^(b+1)` it is
`a - b` or `a - b - 1`. -/
def binade (x : ℚ) : ℤ :=
  let a : ℤ := log2Nat x.num.natAbs x.num.natAbs
  let b : ℤ := log2Nat x.den x.den
  if pow2 (a - b) ≤ x then a - b else a - b - 1

/-- The integer nearest to a rational, the even one of the two at a tie. -/
def roundEven (q : ℚ) : ℤ :=
  let f := ⌊q⌋
  if q - f < 1 / 2 then f
  else if 1 / 2 < q - f then f + 1
  else if f % 2 = 0 then f else f + 1

/-- The `double` that the machine returns for the exact result `x`: the nearest
multiple of the spacing `2^(e-52)` of the binade `e` of `|x|` (of the spacing
`2^(-1074)` below `2^(-1022)`), ties to even, and an infinity from `2^1024` on. -/
def round64 (x : ℚ) : Dbl ℚ :=
  if x = 0 then fin 0 else
    let ulp := pow2 (max (binade |x|) (-1022) - 52)
    let y := (roundEven (x / ulp) : ℚ) * ulp
    if pow2 1024 ≤ |y| then (if 0 < y then pinf else ninf) else fin y

/-- Rounding of a result of exact arithmetic: a finite value is rounded, a
special value is already a `double`. -/
def fl64 : Dbl ℚ → Dbl ℚ
  | fin x => round64 x
  | d => d

/-- The floor of the square root of a natural number, two bits at a time:
`⌊√n⌋` is `2⌊√(n/4)⌋` or that plus one. -/
def sqrtNat : ℕ → ℕ → ℕ
  | 0, _ => 0
  | fuel + 1, n =>
    if n < 2 then n
    else
      let r := 2 * sqrtNat fuel (n / 4)
      if (r + 1) * (r + 1) ≤ n then r + 1 else r

/-- The function `std::sqrt` on a finite non-negative `double`: the `double`
nearest to the exact square root.  The root of a value of binade `e` has binade
`⌊e/2⌋`, which is never subnormal and never overflows. -/
def sqrt64 (x : ℚ) : ℚ :=
  if x ≤ 0 then 0 else
    let ulp := pow2 (binade x / 2 - 52)
    let t := x / (ulp * ulp)
    let r : ℕ := sqrtNat ⌊t⌋.toNat ⌊t⌋.toNat
    let half : ℚ := (r : ℚ) + 1 / 2
    if t < half * half then (r : ℚ) * ulp
    else if half * half < t then ((r : ℚ) + 1) * ulp
    else if r % 2 = 0 then (r : ℚ) * ulp else ((r : ℚ) + 1) * ulp

end Rounding

/-! ## Matrices

Dimensions are carried in the types, so every product below is one whose sizes
Eigen accepts.  A sparse matrix maps a position to `some v` when the position
is stored with value `v` and to `none` when it is not stored; a stored
position may hold any double, zero included. -/

/-- A dense column vector (`Eigen::VectorXd`) with `n` rows. -/
abbrev VectorXd (K : Type) (n : ℕ) := Fin n → Dbl K

/-- A dense matrix (`Eigen::MatrixXd`) with `n` rows and three columns. -/
abbrev MatrixX3d (K : Type) (n : ℕ) := Fin n → Fin 3 → Dbl K

/-- A sparse matrix (`Eigen::SparseMatrix<double>`) with `m` rows and `n` columns. -/
abbrev SparseMatrix (K : Type) (m n : ℕ) := Fin m → Fin n → Option (Dbl K)

/-- The face list of a triangle mesh (`Eigen::MatrixXi`, one row of three
vertex indices per face) over `nV` vertices. -/
abbrev Faces (nF nV : ℕ) := Fin nF → Fin 3 → Fin nV

/-- One `Eigen::Triplet<double>`. -/
structure Triplet (K : Type) (m n : ℕ) where
  row : Fin m
  col : Fin n
  value : Dbl K

section Matrices

variable {K : Type} [LinearOrderedField K] {m n k : ℕ}

/-- The read access `A.coeff(i, j)`: the stored value, zero where nothing is stored. -/
def SparseMatrix.coeff (A : SparseMatrix K m n) (i : Fin m) (j : Fin n) : Dbl K :=
  (A i j).getD 0

/-- The contribution of one position of a sparse row to a product: nothing
(the additive identity) where the position is not stored. -/
def storedTimes (a : Option (Dbl K)) (x : Dbl K) : Dbl K :=
  match a with
  | some v => v * x
  | none => 0

/-- The product sparse matrix times dense vector, a sum over the stored entries of each row. -/
def SparseMatrix.mulVec (A : SparseMatrix K m n) (x : VectorXd K n) : VectorXd K m :=
  fun i => ∑ j, storedTimes (A i j) (x j)

/-- The product sparse matrix times dense three-column matrix. -/
def SparseMatrix.mulDense (A : SparseMatrix K m n) (X : MatrixX3d K n) : MatrixX3d K m :=
  fun i c => ∑ j, storedTimes (A i j) (X j c)

/-- The product of two sparse matrices: position `(i, j)` is stored when some
`l` has both `A(i,l)` and `B(l,j)` stored, and holds the sum of those products. -/
def SparseMatrix.mul (A : SparseMatrix K m k) (B : SparseMatrix K k n) : SparseMatrix K m n :=
  fun i j =>
    if ∃ l, (A i l).isSome = true ∧ (B l j).isSome = true then
      some (∑ l, match A i l, B l j with
        | some a, some b => a * b
        | _, _ => 0)
    else none

/-- The method `setFromTriplets`: a position is stored when a triplet names it,
and holds the sum of the values of the triplets that name it. -/
def setFromTriplets (ts : List (Triplet K m n)) : SparseMatrix K m n :=
  fun i j =>
    let hits := ts.filter (fun t => decide (t.row = i ∧ t.col = j))
    if hits.isEmpty then none else some (hits.map (fun t => t.value)).sum

/-- The vector `VectorXd::Ones(n)`. -/
def ones (n : ℕ) : VectorXd K n := fun _ => 1

/-- The method `cwiseInverse`: `1/x` entry by entry. -/
def cwiseInverse (x : VectorXd K n) : VectorXd K n := fun i => 1 / x i

/-- The sparse matrix `SparseMatrix<double>(d.asDiagonal())`: the `n` diagonal
positions are stored, whatever their value. -/
def asDiagonal (d : VectorXd K n) : SparseMatrix K n n :=
  fun i j => if i = j then some (d i) else none

/-- The expression `SparseMatrix<double>((M * Ones(M.cols())).cwiseInverse().asDiagonal()) * M`
that `face_to_vertex` and `main` use to scale every row by the inverse of its sum. -/
def normalize_rows (M : SparseMatrix K m n) : SparseMatrix K m n :=
  (asDiagonal (cwiseInverse (M.mulVec (ones n)))).mul M

/-- The function `fix_grad`: every stored entry that is below `-threshold`,
above `threshold` or not finite is overwritten with `0.0`; the iteration
visits each stored entry once and `coeffRef` at a stored position is that entry. -/
def fix_grad (G : SparseMatrix K m n) (threshold : Dbl K) : SparseMatrix K m n :=
  fun i j => (G i j).map (fun v =>
    if Dbl.lt v (-threshold) || Dbl.lt threshold v || !Dbl.isFinite v then 0 else v)

/-- The triplets that `face_to_vertex` collects: `(F(f,d), f, 1.0)` for every
face `f` and corner `d`. -/
def face_triplets {nF nV : ℕ} (F : Faces nF nV) : List (Triplet K nV nF) :=
  (List.finRange nF).flatMap (fun f => (List.finRange 3).map (fun d => ⟨F f d, f, 1⟩))

/-- The function `face_to_vertex`; `V` enters only through its row count `nV`. -/
def face_to_vertex {nF nV : ℕ} (F : Faces nF nV) : SparseMatrix K nV nF :=
  normalize_rows (setFromTriplets (face_triplets F))

/-- The call `face_to_vertex(F, V, M)` as `main` sees it.  The function is
`void`, holds no `throw`, no check of its input and no status code, so every
call hands back the operator. -/
def face_to_vertex_call {nF nV : ℕ} (F : Faces nF nV) :
    Except String (SparseMatrix K nV nF) :=
  Except.ok (face_to_vertex F)

/-- Modelled from the spec: `igl::adjacency_matrix` (libigl, absent from src/),
the binary face-adjacency matrix.  For every face and every pair of corners
`j < k` it collects the triplets `(F(f,j), F(f,k), 1)` and `(F(f,k), F(f,j), 1)`. -/
def adjacency_triplets {nF nV : ℕ} (F : Faces nF nV) : List (Triplet K nV nV) :=
  (List.finRange nF).flatMap (fun f =>
    (List.finRange 3).flatMap (fun j =>
      ((List.finRange 3).filter (fun l => decide (j < l))).flatMap (fun l =>
        [⟨F f j, F f l, 1⟩, ⟨F f l, F f j, 1⟩])))

/-- Modelled from the spec: `igl::adjacency_matrix` (libigl, absent from src/):
the triplets are summed by `setFromTriplets` and every stored entry is then
forced to one.  libigl sizes the matrix by the largest vertex index plus one;
`main` multiplies it with matrices of `V.rows()` rows, so the two agree. -/
def adjacency_matrix {nF nV : ℕ} (F : Faces nF nV) : SparseMatrix K nV nV :=
  fun i j => (setFromTriplets (adjacency_triplets F : List (Triplet K nV nV)) i j).map (fun _ => 1)

/-- The smoothing matrix of `main` (`Lsource`, `Ltarget`): the adjacency
matrix with every row scaled by the inverse of its sum. -/
def smoothing_matrix {nF nV : ℕ} (F : Faces nF nV) : SparseMatrix K nV nV :=
  normalize_rows (adjacency_matrix F)

/-- The loop `for(int i=0;i<iter;++i) X = (S * X).eval();` of `smooth_grad`
and of the update smoothing in `main`. -/
def smooth (S : SparseMatrix K n n) (iter : ℤ) (X : MatrixX3d K n) : MatrixX3d K n :=
  (fun Y => S.mulDense Y)^[iter.toNat] X

/-- The function `smooth_grad`.  `G * Fun` has `3 * nF` rows; the column-major
map to `nF × 3` reads entry `(f, c)` at index `f + nF * c`. -/
def smooth_grad {nF : ℕ} (Fun : VectorXd K n) (G : SparseMatrix K (3 * nF) n)
    (F2V : SparseMatrix K n nF) (S : SparseMatrix K n n) (iter : ℤ) : MatrixX3d K n :=
  let GFun : VectorXd K (3 * nF) := G.mulVec Fun
  let fgFun : MatrixX3d K nF := fun f c => GFun (finProdFinEquiv (c, f))
  smooth S iter (F2V.mulDense fgFun)

/-! ## Feature normalisation and the registration loop -/

/-- The method `mean()`: the sum of the entries divided by their number. -/
def mean (x : VectorXd K n) : Dbl K := (∑ i, x i) / fin (n : K)

/-- The sample variance of a vector: the sum of the squared deviations from
the mean, divided by `n - 1`. -/
def sampleVariance (x : VectorXd K n) : Dbl K :=
  (∑ i, sq (x i - mean x)) / fin ((n : K) - 1)

/-- The feature normalisation of `main`:
`dp.array() -= dp.mean(); dp.array() /= sqrt(dp.array().pow(2).sum() / (dp.size()-1));`. -/
def normalize_feature (sqrtK : K → K) (dp : VectorXd K n) : VectorXd K n :=
  let mu := mean dp
  let centred : VectorXd K n := fun i => dp i - mu
  let sd := Dbl.sqrt sqrtK ((∑ i, sq (centred i)) / fin ((n : K) - 1))
  fun i => centred i / sd

/-- The Euclidean norm of one row (`norm()`, and `stableNorm()`, which differs
from it only in how it avoids overflow). -/
def rowNorm (sqrtK : K → K) (r : Fin 3 → Dbl K) : Dbl K :=
  Dbl.sqrt sqrtK (∑ c, sq (r c))

/-- The update `sph1 + dX1 * demons_step`. -/
def update_embedding (sph1 dX1 : MatrixX3d K n) (demons_step : Dbl K) : MatrixX3d K n :=
  fun i c => sph1 i c + dX1 i c * demons_step

/-- The method `rowwise().normalize()`: every row is divided, entry by entry,
by its Euclidean norm. -/
def rowwise_normalize (sqrtK : K → K) (X : MatrixX3d K n) : MatrixX3d K n :=
  fun i c => X i c / rowNorm sqrtK (X i)

/-- The damped step scale of one vertex:
`diff1 / (normg1 + diff1.pow(2) * lambda)`. -/
def scale1 (diff normg lambda : Dbl K) : Dbl K :=
  diff / (normg + sq diff * lambda)

end Matrices

/-! ## The operators as the machine computes them

The definitions of this section follow the same statements as the operators
above and round every arithmetic result with a function `rnd`.  Sums are taken
in the order of the loops of Eigen: a product of a sparse matrix with a dense
one starts every result at zero and adds the products of the stored entries of
a row in the order of their columns; a dense reduction adds the entries in the
order of their index. -/

section RoundedOperators

variable {K : Type} [LinearOrderedField K] {m n k : ℕ}

/-- The product sparse matrix times dense vector, `res(i) += A(i,j) * x(j)`
over the stored entries, every product and every sum rounded. -/
def SparseMatrix.mulVec_rounded (rnd : Dbl K → Dbl K) (A : SparseMatrix K m n)
    (x : VectorXd K n) : VectorXd K m :=
  fun i => (List.finRange n).foldl (fun res j =>
    match A i j with
    | some v => rnd (res + rnd (v * x j))
    | none => res) 0

/-- The product sparse matrix times dense three-column matrix, every product
and every sum rounded. -/
def SparseMatrix.mulDense_rounded (rnd : Dbl K → Dbl K) (A : SparseMatrix K m n)
    (X : MatrixX3d K n) : MatrixX3d K m :=
  fun i c => (List.finRange n).foldl (fun res j =>
    match A i j with
    | some v => rnd (res + rnd (v * X j c))
    | none => res) 0

/-- The product of two sparse matrices, every product and every sum rounded:
the first pair of stored entries `A(i,l)`, `B(l,j)` sets position `(i, j)`,
every further pair adds to it. -/
def SparseMatrix.mul_rounded (rnd : Dbl K → Dbl K) (A : SparseMatrix K m k)
    (B : SparseMatrix K k n) : SparseMatrix K m n :=
  fun i j => (List.finRange k).foldl (fun (res : Option (Dbl K)) l =>
    match A i l, B l j with
    | some a, some b =>
      (match res with
        | none => some (rnd (a * b))
        | some r => some (rnd (r + rnd (a * b))))
    | _, _ => res) none

/-- The method `setFromTriplets`, every sum rounded: the first triplet that
names a position sets it, every further one adds its value. -/
def setFromTriplets_rounded (rnd : Dbl K → Dbl K) (ts : List (Triplet K m n)) :
    SparseMatrix K m n :=
  fun i j =>
    match ts.filter (fun t => decide (t.row = i ∧ t.col = j)) with
    | [] => none
    | t :: rest => some (rest.foldl (fun res u => rnd (res + u.value)) t.value)

/-- The method `cwiseInverse`, every quotient rounded. -/
def cwiseInverse_rounded (rnd : Dbl K → Dbl K) (x : VectorXd K n) : VectorXd K n :=
  fun i => rnd (1 / x i)

/-- The row scaling of `face_to_vertex` and of `main`, every result rounded. -/
def normalize_rows_rounded (rnd : Dbl K → Dbl K) (M : SparseMatrix K m n) :
    SparseMatrix K m n :=
  (asDiagonal (cwiseInverse_rounded rnd (M.mulVec_rounded rnd (ones n)))).mul_rounded rnd M

/-- The function `face_to_vertex`, every result rounded. -/
def face_to_vertex_rounded {nF nV : ℕ} (rnd : Dbl K → Dbl K) (F : Faces nF nV) :
    SparseMatrix K nV nF :=
  normalize_rows_rounded rnd (setFromTriplets_rounded rnd (face_triplets F))

/-- The smoothing matrix of `main`, every result rounded.  The adjacency matrix
holds the value one at every stored position, whatever the arithmetic. -/
def smoothing_matrix_rounded {nF nV : ℕ} (rnd : Dbl K → Dbl K) (F : Faces nF nV) :
    SparseMatrix K nV nV :=
  normalize_rows_rounded rnd (adjacency_matrix F)

/-- The loop `for(int i=0;i<iter;++i) X = (S * X).eval();`, every result rounded. -/
def smooth_rounded (rnd : Dbl K → Dbl K) (S : SparseMatrix K n n) (iter : ℤ)
    (X : MatrixX3d K n) : MatrixX3d K n :=
  (fun Y => S.mulDense_rounded rnd Y)^[iter.toNat] X

/-- The reduction `sum()` of a dense vector, every sum rounded: the first entry,
then every further entry added in the order of the index.  This is the order
of Eigen for a vector of two or three entries and for every reduction that is
not vectorised; a vectorised reduction of four or more entries adds them in
another order. -/
def sum_rounded (rnd : Dbl K → Dbl K) (x : VectorXd K n) : Dbl K :=
  match (List.finRange n).map x with
  | [] => 0
  | a :: rest => rest.foldl (fun res b => rnd (res + b)) a

/-- The method `mean()`, every result rounded. -/
def mean_rounded (rnd : Dbl K → Dbl K) (x : VectorXd K n) : Dbl K :=
  rnd (sum_rounded rnd x / fin (n : K))

/-- The sample variance of a vector as the machine evaluates it. -/
def sampleVariance_rounded (rnd : Dbl K → Dbl K) (x : VectorXd K n) : Dbl K :=
  rnd (sum_rounded rnd (fun i => rnd (sq (rnd (x i - mean_rounded rnd x)))) / fin ((n : K) - 1))

/-- The feature normalisation of `main`, every result rounded; `sqrtK` is the
square root of the machine. -/
def normalize_feature_rounded (rnd : Dbl K → Dbl K) (sqrtK : K → K) (dp : VectorXd K n) :
    VectorXd K n :=
  let mu := mean_rounded rnd dp
  let centred : VectorXd K n := fun i => rnd (dp i - mu)
  let sd := Dbl.sqrt sqrtK
    (rnd (sum_rounded rnd (fun i => rnd (sq (centred i))) / fin ((n : K) - 1)))
  fun i => rnd (centred i / sd)

end RoundedOperators

/-- What the loop takes from outside this file: the square root, `igl::grad`
and the nearest-neighbour query of the nanoflann k-d tree. -/
structure External (K : Type) (nF2 n2 : ℕ) where
  sqrtK : K → K
  grad : MatrixX3d K n2 → Faces nF2 n2 → SparseMatrix K (3 * nF2) n2
  findNeighbors : MatrixX3d K n2 → (Fin 3 → Dbl K) → Fin n2

/-- The registration parameters of `main`: the options `step`, `lambda`,
`iter` and the constants set before the loop. -/
structure Params (K : Type) where
  demons_step : Dbl K
  lambda : Dbl K
  demons_iter : ℤ
  smooth_partial_grad : ℤ
  smooth_update : ℤ
  conv_tol : Dbl K
  conv_iter : ℤ
  grad_update_iter : ℤ

/-- One line of the loop's output: `i`, `cost_fw` and `dX1.rowwise().norm().mean()`. -/
structure LogRecord (K : Type) where
  iter : ℤ
  cost_fw : Dbl K
  update : Dbl K

/-- The variables of `main` that the loop reads or writes, and its output. -/
structure Workspace (K : Type) (nF1 n1 nF2 n2 : ℕ) where
  F1 : Faces nF1 n1
  F2 : Faces nF2 n2
  sph1 : MatrixX3d K n1
  sph2 : MatrixX3d K n2
  C1s : VectorXd K n1
  C2s : VectorXd K n2
  Lsource : SparseMatrix K n1 n1
  Ltarget : SparseMatrix K n2 n2
  F2V1 : SparseMatrix K n1 nF1
  F2V2 : SparseMatrix K n2 nF2
  Gtarget : SparseMatrix K (3 * nF2) n2
  dC2s : MatrixX3d K n2
  match1 : Fin n1 → Fin n2
  out : List (LogRecord K)

section Loop

variable {K : Type} [LinearOrderedField K] {nF1 n1 nF2 n2 : ℕ}

/-- The default values of the parameters: `step=0.1`, `lambda=1.0`,
`iter=1000` and the constants of `main`. -/
def Params.default : Params K where
  demons_step := fin (1 / 10)
  lambda := fin 1
  demons_iter := 1000
  smooth_partial_grad := 20
  smooth_update := 20
  conv_tol := fin (1 / 100000)
  conv_iter := 10
  grad_update_iter := 40

/-- The function `find_correspondence`: one nearest-neighbour query on the
target points for every source row. -/
def find_correspondence (ext : External K nF2 n2) (src : MatrixX3d K n1)
    (trg : MatrixX3d K n2) : Fin n1 → Fin n2 :=
  fun i => ext.findNeighbors trg (src i)

/-- The residual `diff1`: `C1s(r) - C2s(match1(r))`. -/
def residual (C1s : VectorXd K n1) (C2s : VectorXd K n2) (match1 : Fin n1 → Fin n2) :
    VectorXd K n1 :=
  fun r => C1s r - C2s (match1 r)

/-- The cost `sqrt(diff1.squaredNorm() / diff1.rows())`. -/
def cost (sqrtK : K → K) (diff1 : VectorXd K n1) : Dbl K :=
  Dbl.sqrt sqrtK ((∑ r, sq (diff1 r)) / fin (n1 : K))

/-- The squared Euclidean distance of two points, the sum of `(a - b)^2` over
the three coordinates. -/
def dist2 (a b : Fin 3 → Dbl K) : Dbl K := ∑ c, sq (a c - b c)

/-- Modelled from the spec: the nearest-neighbour query of the nanoflann k-d
tree (absent from src/), "the nearest target vertex index": a linear scan that
keeps the first target point at the smallest squared distance. -/
def linear_nearest {n : ℕ} (trg : MatrixX3d K (n + 1)) (q : Fin 3 → Dbl K) : Fin (n + 1) :=
  (List.finRange (n + 1)).foldl
    (fun best j => if Dbl.lt (dist2 q (trg j)) (dist2 q (trg best)) then j else best) 0

/-- The update direction before smoothing: the gathered gradient
`avg_grad1(r,c) = dC2s(match1(r), c)`, each row times its `scale1`. -/
def update_direction (sqrtK : K → K) (lambda : Dbl K) (diff1 : VectorXd K n1)
    (dC2s : MatrixX3d K n2) (match1 : Fin n1 → Fin n2) : MatrixX3d K n1 :=
  let avg_grad1 : MatrixX3d K n1 := fun r c => dC2s (match1 r) c
  let normg1 : VectorXd K n1 := fun r => rowNorm sqrtK (avg_grad1 r)
  let scale : VectorXd K n1 := fun r => scale1 (diff1 r) (normg1 r) lambda
  fun r c => avg_grad1 r c * scale r

/-- The body of the registration loop of `main`, at counter `i`. -/
def demons_body (ext : External K nF2 n2) (par : Params K) (i : ℤ)
    (w : Workspace K nF1 n1 nF2 n2) : Workspace K nF1 n1 nF2 n2 :=
  let Gtarget := fix_grad (ext.grad w.sph2 w.F2) (fin 1000000)
  let dC2s := smooth_grad w.C2s Gtarget w.F2V2 w.Ltarget par.smooth_partial_grad
  let match1 := find_correspondence ext w.sph1 w.sph2
  let diff1 := residual w.C1s w.C2s match1
  let cost_fw := cost ext.sqrtK diff1
  let dX1 := smooth w.Lsource par.smooth_update
    (update_direction ext.sqrtK par.lambda diff1 dC2s match1)
  let sph1 := rowwise_normalize ext.sqrtK (update_embedding w.sph1 dX1 par.demons_step)
  let shown : LogRecord K :=
    ⟨i, cost_fw, (∑ r, rowNorm ext.sqrtK (dX1 r)) / fin (n1 : K)⟩
  { w with Gtarget := Gtarget, dC2s := dC2s, match1 := match1, sph1 := sph1,
           out := w.out ++ [shown] }

/-- The loop `for(int i=0; i<demons_iter; ++i) { ... }` of `main`, entered
with the counter at `i`. -/
def demons_loop (ext : External K nF2 n2) (par : Params K) (i : ℤ)
    (w : Workspace K nF1 n1 nF2 n2) : Workspace K nF1 n1 nF2 n2 :=
  if i < par.demons_iter then
    demons_loop ext par (i + 1) (demons_body ext par i w)
  else w
termination_by (par.demons_iter - i).toNat
decreasing_by omega

end Loop

/-! ## The gradient sanitiser on compressed storage

`fix_grad` above gives the value of every position after the call.  The
definitions below follow the code of `fix_grad` statement by statement on the
compressed column-major storage of `Eigen::SparseMatrix<double>`, where
`coeffRef` inserts a zero entry when the position it is asked for is not
stored. -/

/-- One column of a sparse matrix in compressed storage: the stored entries
(row index, value) in storage order. -/
abbrev SparseColumn (K : Type) := List (ℕ × Dbl K)

/-- A sparse matrix in compressed column-major storage: one list of stored
entries per column.  Eigen keeps the row indices of a column distinct. -/
abbrev CompressedMatrix (K : Type) := List (SparseColumn K)

section Compressed

variable {K : Type} [LinearOrderedField K] {m n : ℕ}

/-- What `fix_grad` leaves in an entry that held `v`. -/
def sanitize_value (threshold v : Dbl K) : Dbl K :=
  if Dbl.lt v (-threshold) || Dbl.lt threshold v || !Dbl.isFinite v then 0 else v

/-- The call `G.coeffRef(row, col)` on column `col`: the storage position the
returned reference points to, and the column after the call.  The position is
that of the stored entry with the row, or, when the column stores none, that
of a zero entry which the call inserts in row order. -/
def coeffRef (col : SparseColumn K) (row : ℕ) : ℕ × SparseColumn K :=
  let p := (col.map Prod.fst).indexOf row
  if p < col.length then (p, col)
  else
    let q := (col.takeWhile (fun e => decide (e.1 < row))).length
    (q, col.take q ++ (row, 0) :: col.drop q)

/-- The body of the inner loop of `fix_grad` with the iterator at storage
position `p` of a column: the entry is read through `coeffRef(it.row(),
it.col())` and overwritten through it when one of the three tests holds. -/
def fix_grad_at (threshold : Dbl K) (col : SparseColumn K) (p : ℕ) : SparseColumn K :=
  match col[p]? with
  | none => col
  | some e =>
    let ref := coeffRef col e.1
    let v := ((ref.2[ref.1]?).map Prod.snd).getD 0
    if Dbl.lt v (-threshold) || Dbl.lt threshold v || !Dbl.isFinite v then
      ref.2.set ref.1 (e.1, 0)
    else ref.2

/-- The inner loop of `fix_grad` over one column: the iterator visits the
storage positions of the column in order. -/
def fix_grad_column (threshold : Dbl K) (col : SparseColumn K) : SparseColumn K :=
  (List.range col.length).foldl (fix_grad_at threshold) col

/-- The function `fix_grad` on compressed storage: the outer loop over the columns. -/
def fix_grad_compressed (G : CompressedMatrix K) (threshold : Dbl K) : CompressedMatrix K :=
  G.map (fix_grad_column threshold)

/-- The entry of a compressed matrix at storage position `p` of column `j`. -/
def CompressedMatrix.entry (G : CompressedMatrix K) (j p : ℕ) : Option (ℕ × Dbl K) :=
  (G[j]?).bind (fun col => col[p]?)

/-- The stored positions of a compressed matrix: the row indices of every
column, in storage order. -/
def CompressedMatrix.pattern (G : CompressedMatrix K) : List (List ℕ) :=
  G.map (fun col => col.map Prod.fst)

/-- The invariant of compressed storage: no column stores a row twice. -/
def CompressedMatrix.WellFormed (G : CompressedMatrix K) : Prop :=
  ∀ col ∈ G, (col.map Prod.fst).Nodup

/-- The value of every position of a compressed matrix with `m` rows and `n` columns. -/
def CompressedMatrix.toSparse (G : CompressedMatrix K) (m n : ℕ) : SparseMatrix K m n :=
  fun i j => ((G.getD j []).find? (fun e => decide (e.1 = (i : ℕ)))).map Prod.snd

end Compressed

/-! ## The loop with the target gradient computed once -/

section Hoisted

variable {K : Type} [LinearOrderedField K] {nF1 n1 nF2 n2 : ℕ}

/-- The part of the workspace that is built before the loop: the face lists of
both meshes, the target embedding, both feature fields, both smoothing
operators and both face-to-vertex operators.  (The vertex coordinates `V1`,
`V2` of the meshes do not occur in the loop at all.) -/
def Workspace.fixed (w : Workspace K nF1 n1 nF2 n2) :
    Faces nF1 n1 × Faces nF2 n2 × MatrixX3d K n2 × VectorXd K n1 × VectorXd K n2 ×
      SparseMatrix K n1 n1 × SparseMatrix K n2 n2 × SparseMatrix K n1 nF1 ×
      SparseMatrix K n2 nF2 :=
  (w.F1, w.F2, w.sph2, w.C1s, w.C2s, w.Lsource, w.Ltarget, w.F2V1, w.F2V2)

/-- The sanitised target gradient operator that the loop body computes:
`igl::grad(sph2, F2, Gtarget); fix_grad(Gtarget, 1e6);`. -/
def target_gradient_operator (ext : External K nF2 n2) (w : Workspace K nF1 n1 nF2 n2) :
    SparseMatrix K (3 * nF2) n2 :=
  fix_grad (ext.grad w.sph2 w.F2) (fin 1000000)

/-- The smoothed per-vertex target gradient field that the loop body computes
from the operator above with `smooth_grad`. -/
def target_gradient_field (ext : External K nF2 n2) (par : Params K)
    (w : Workspace K nF1 n1 nF2 n2) : MatrixX3d K n2 :=
  smooth_grad w.C2s (target_gradient_operator ext w) w.F2V2 w.Ltarget par.smooth_partial_grad

/-- The workspace once the target gradient operator and field have been computed. -/
def with_target_gradient (ext : External K nF2 n2) (par : Params K)
    (w : Workspace K nF1 n1 nF2 n2) : Workspace K nF1 n1 nF2 n2 :=
  { w with Gtarget := target_gradient_operator ext w, dC2s := target_gradient_field ext par w }

/-- The loop body without its first two statements: the smoothed target
gradient field is read from the workspace instead of being recomputed. -/
def demons_body_given (ext : External K nF2 n2) (par : Params K) (i : ℤ)
    (w : Workspace K nF1 n1 nF2 n2) : Workspace K nF1 n1 nF2 n2 :=
  let match1 := find_correspondence ext w.sph1 w.sph2
  let diff1 := residual w.C1s w.C2s match1
  let cost_fw := cost ext.sqrtK diff1
  let dX1 := smooth w.Lsource par.smooth_update
    (update_direction ext.sqrtK par.lambda diff1 w.dC2s match1)
  let sph1 := rowwise_normalize ext.sqrtK (update_embedding w.sph1 dX1 par.demons_step)
  let shown : LogRecord K :=
    ⟨i, cost_fw, (∑ r, rowNorm ext.sqrtK (dX1 r)) / fin (n1 : K)⟩
  { w with match1 := match1, sph1 := sph1, out := w.out ++ [shown] }

/-- The loop over the shortened body, entered with the counter at `i`. -/
def demons_loop_given (ext : External K nF2 n2) (par : Params K) (i : ℤ)
    (w : Workspace K nF1 n1 nF2 n2) : Workspace K nF1 n1 nF2 n2 :=
  if i < par.demons_iter then
    demons_loop_given ext par (i + 1) (demons_body_given ext par i w)
  else w
termination_by (par.demons_iter - i).toNat
decreasing_by omega

/-- The variant of the loop that computes the smoothed target gradient field
once, before the first iteration, and then runs the shortened body. -/
def demons_loop_hoisted (ext : External K nF2 n2) (par : Params K)
    (w : Workspace K nF1 n1 nF2 n2) : Workspace K nF1 n1 nF2 n2 :=
  demons_loop_given ext par 0 (with_target_gradient ext par w)

end Hoisted

/-! ## The program

The function `main` with what it takes from outside made explicit: the file
system, the mesh reader and writer, the depth-potential solver and the
conversion of the data block to a spherical embedding are not under `src/`
and enter as the fields of `World`.  What `main` prints, reads, solves and
writes is recorded as a list of events, in order. -/

/-- The parsed command line. -/
structure Options (K : Type) where
  verbose : Bool
  source : Option String
  target : Option String
  input : Option String
  chess : Bool
  output : Option String
  alpha : Dbl K
  step : Dbl K
  lambda : Dbl K
  iter : ℤ
  SO3 : Bool
  clobber : Bool

/-- What `igl::readPLY` delivers for one file, for a mesh with at least one
vertex: the vertex and face counts, the face list, and the embedding that
`extract_psi_the` and `sph_to_xyz` obtain from the data block (`none` when
`extract_psi_the` fails).  The vertex coordinates enter the program only
through `depth_potential`. -/
structure PlyMesh (K : Type) where
  nF : ℕ
  nV : ℕ
  nV_pos : 0 < nV
  F : Faces nF nV
  sph : Option (MatrixX3d K nV)

/-- What `main` takes from outside this file. -/
structure World (K : Type) where
  access : String → Bool
  readPLY : String → Option (PlyMesh K)
  depth_potential : (mesh : PlyMesh K) → Dbl K → Option (VectorXd K mesh.nV)
  sqrtK : K → K
  grad : (nF n : ℕ) → MatrixX3d K n → Faces nF n → SparseMatrix K (3 * nF) n
  findNeighbors : (n : ℕ) → 0 < n → MatrixX3d K n → (Fin 3 → Dbl K) → Fin n

/-- One thing `main` does that is visible from outside. -/
inductive Event (K : Type) where
  | stderr (text : String)
  | stdout (text : String)
  | readPLY (path : String)
  | depth_potential (mesh : ℕ)
  | iteration (line : LogRecord K)
  | writePLY (path : String)

section Program

variable {K : Type} [LinearOrderedField K]

/-- The registration parameters as `main` reads them from the options
(`alpha` and `verbose` are read too and used outside the loop; no other
option is read) and the constants it sets before the loop. -/
def read_params (opt : Options K) : Params K where
  demons_step := opt.step
  lambda := opt.lambda
  demons_iter := opt.iter
  smooth_partial_grad := 20
  smooth_update := 20
  conv_tol := fin (1 / 100000)
  conv_iter := 10
  grad_update_iter := 40

/-- The part of `main` after both depth potentials have been solved: feature
normalisation, embedding, operators, the loop and the output file. -/
def register (world : World K) (opt : Options K) (output : String) (m1 m2 : PlyMesh K)
    (dp1 : VectorXd K m1.nV) (dp2 : VectorXd K m2.nV) (before : List (Event K)) :
    ℤ × List (Event K) :=
  match m1.sph, m2.sph with
  | some sph1, some sph2 =>
    let ext : External K m2.nF m2.nV :=
      ⟨world.sqrtK, world.grad m2.nF m2.nV, world.findNeighbors m2.nV m2.nV_pos⟩
    let before_loop : Workspace K m1.nF m1.nV m2.nF m2.nV :=
      { F1 := m1.F, F2 := m2.F, sph1 := sph1, sph2 := sph2,
        C1s := normalize_feature world.sqrtK dp1, C2s := normalize_feature world.sqrtK dp2,
        Lsource := smoothing_matrix m1.F, Ltarget := smoothing_matrix m2.F,
        F2V1 := face_to_vertex m1.F, F2V2 := face_to_vertex m2.F,
        Gtarget := fun _ _ => none, dC2s := fun _ _ => 0,
        match1 := fun _ => ⟨0, m2.nV_pos⟩, out := [] }
    let after_loop := demons_loop ext (read_params opt) 0 before_loop
    (0, before
      ++ (if opt.verbose then [Event.stdout "Average edge lengths (sphere):"] else [])
      ++ after_loop.out.map Event.iteration ++ [Event.writePLY output])
  | _, _ => (1, before ++ [Event.stderr "Can't get spherical coordinates!"])

/-- The function `main`: its exit code and what it did, in order.  The event
`stderr "usage"` stands for the usage text of `options.help`. -/
def main (world : World K) (opt : Options K) : ℤ × List (Event K) :=
  match opt.source, opt.target, opt.output with
  | some source, some target, some output =>
    if !opt.clobber && world.access output then
      (1, [Event.stderr (output ++ " Exists!")])
    else
      match world.readPLY source with
      | none => (1, [Event.readPLY source, Event.stderr ("Error reding ply:" ++ source)])
      | some m1 =>
        match world.readPLY target with
        | none => (1, [Event.readPLY source, Event.readPLY target,
            Event.stderr ("Error reding ply:" ++ target)])
        | some m2 =>
          let read : List (Event K) := [Event.readPLY source, Event.readPLY target]
            ++ (if opt.verbose then
                  [Event.stdout "Source Mesh 1:", Event.stdout "Reference Mesh 2:"] else [])
          match world.depth_potential m1 opt.alpha with
          | none => (1, read ++ [Event.depth_potential 1,
              Event.stderr "Solving failed for Mesh 1"])
          | some dp1 =>
            match world.depth_potential m2 opt.alpha with
            | none => (1, read ++ [Event.depth_potential 1, Event.depth_potential 2,
                Event.stderr "Solving failed for Mesh 2"])
            | some dp2 =>
              register world opt output m1 m2 dp1 dp2
                (read ++ [Event.depth_potential 1, Event.depth_potential 2])
  | _, _, _ => (1, [Event.stderr "usage"])

end Program

/-! ## The table reader (`src/3rd_party/csv/readCSV.cpp`)

The parser `rapidcsv::Document` is not under `src/`; it enters `readCSV` as
the function `open_document`, which either delivers a document or throws. -/

/-- Something thrown inside the `try` block of `readCSV`: an object of a
class derived from `std::exception`, with its `what()` text, or anything else. -/
inductive Thrown where
  | std_exception (what : String)
  | other

/-- A constructed `rapidcsv::Document`: its row and column counts, the cell
conversion `GetCell<Scalar>(column, row)`, which may throw, and its column names. -/
structure CsvDocument (K : Type) where
  rowCount : ℕ
  columnCount : ℕ
  getCell : ℕ → ℕ → Except Thrown (Dbl K)
  columnNames : List String

/-- A dense matrix with run-time sizes, the argument `M` of `readCSV`. -/
structure DynMatrix (K : Type) where
  rows : ℕ
  cols : ℕ
  coeff : ℕ → ℕ → Dbl K

/-- What a call of `readCSV` that returns leaves behind: the returned flag,
the two reference arguments `M` and `header`, and the lines written to `std::cerr`. -/
structure CsvOutcome (K : Type) where
  returned : Bool
  M : DynMatrix K
  header : List String
  err : List String

section TableReader

variable {K : Type} [LinearOrderedField K]

/-- The assignment `M(i,j) = v`. -/
def DynMatrix.assign (M : DynMatrix K) (i j : ℕ) (v : Dbl K) : DynMatrix K :=
  { M with coeff := fun a b => if a = i ∧ b = j then v else M.coeff a b }

/-- The cells in the order in which the two nested loops of `readCSV` visit
them: row by row, and column by column inside a row. -/
def cell_order (rows cols : ℕ) : List (ℕ × ℕ) :=
  (List.range rows).flatMap (fun i => (List.range cols).map (fun j => (i, j)))

/-- The two nested loops of `readCSV`, `M(i,j) = doc.GetCell<Scalar>(j,i)`, on
the cells still to visit: the matrix when the loops stop, and what was thrown
if a conversion threw. -/
def fill_cells (doc : CsvDocument K) : List (ℕ × ℕ) → DynMatrix K → DynMatrix K × Option Thrown
  | [], M => (M, none)
  | (i, j) :: rest, M =>
    match doc.getCell j i with
    | Except.ok v => fill_cells doc rest (M.assign i j v)
    | Except.error e => (M, some e)

/-- The handler `catch (const std::exception & e)` and the `return false`
after it: an exception of another kind is not caught. -/
def readCSV_catch (csv_file : String) (M : DynMatrix K) (header : List String) (e : Thrown) :
    Except Thrown (CsvOutcome K) :=
  match e with
  | Thrown.std_exception what =>
    Except.ok ⟨false, M, header, ["readCSV error: " ++ csv_file ++ " " ++ what]⟩
  | Thrown.other => Except.error Thrown.other

/-- The function `igl::readCSV`.  `open_document path i` is the construction
of the `rapidcsv::Document` with `LabelParams(i, -1)`; `fresh` is the content
of the storage that `M.resize` allocates.  The result is `Except.error` when
an exception leaves the function. -/
def readCSV (open_document : String → ℤ → Except Thrown (CsvDocument K))
    (fresh : ℕ → ℕ → Dbl K) (csv_file : String) (M : DynMatrix K) (header : List String)
    (skip_header : Bool) : Except Thrown (CsvOutcome K) :=
  match open_document csv_file (if skip_header then -1 else 0) with
  | Except.error e => readCSV_catch csv_file M header e
  | Except.ok doc =>
    match fill_cells doc (cell_order doc.rowCount doc.columnCount)
        ⟨doc.rowCount, doc.columnCount, fresh⟩ with
    | (M', some e) => readCSV_catch csv_file M' header e
    | (M', none) => Except.ok ⟨true, M', doc.columnNames, []⟩

end TableReader

/-! ## The two metrics of the correspondence search -/

section Metrics

variable {K : Type} [LinearOrderedField K] {n : ℕ}

/-- The scalar product of two points. -/
def dot3 (a b : Fin 3 → Dbl K) : Dbl K := ∑ c, a c * b c

end Metrics

/-! ## The gradient operator -/

section Gradient

variable {K : Type} [LinearOrderedField K] {nF n : ℕ}

/-- The vector product of two rows (`cross`). -/
def cross3 (a b : Fin 3 → Dbl K) : Fin 3 → Dbl K :=
  ![a 1 * b 2 - a 2 * b 1, a 2 * b 0 - a 0 * b 2, a 0 * b 1 - a 1 * b 0]

/-- Modelled from the spec: `igl::grad` (libigl, absent from src/), the
"area/edge-weighted discrete gradient" of a face.  With the corners
`i1, i2, i3` of the face, its edges `v32 = V(i3) - V(i2)`, `v13 = V(i1) - V(i3)`,
`v21 = V(i2) - V(i1)` and its normal `n = v32 × v13`, the gradient of the
linear interpolant of a field `u` on the face is
`(u(i2) - u(i1)) * eperp13 + (u(i3) - u(i1)) * eperp21`, where `eperp13` and
`eperp21` are the edges `v13` and `v21` turned by a right angle about the
normal and divided by twice the area of the face, `(n × v) / (n · n)`.  libigl
reaches the same two vectors through the unit normal and the lengths of the
edges.  The pair returned is `(eperp13, eperp21)`; on a face without area both
are `0/0`. -/
def grad_eperp (V : MatrixX3d K n) (F : Faces nF n) (f : Fin nF) :
    (Fin 3 → Dbl K) × (Fin 3 → Dbl K) :=
  let v32 : Fin 3 → Dbl K := fun c => V (F f 2) c - V (F f 1) c
  let v13 : Fin 3 → Dbl K := fun c => V (F f 0) c - V (F f 2) c
  let v21 : Fin 3 → Dbl K := fun c => V (F f 1) c - V (F f 0) c
  let nrm := cross3 v32 v13
  let nn := dot3 nrm nrm
  (fun c => cross3 nrm v13 c / nn, fun c => cross3 nrm v21 c / nn)

/-- Modelled from the spec: `igl::grad` (libigl, absent from src/), its
triplets.  Row `f + nF * d` holds component `d` of the gradient on face `f`:
`eperp13` in column `F(f,1)`, `-eperp13` in column `F(f,0)`, `eperp21` in column
`F(f,2)` and `-eperp21` in column `F(f,0)`. -/
def grad_triplets (V : MatrixX3d K n) (F : Faces nF n) : List (Triplet K (3 * nF) n) :=
  (List.finRange 3).flatMap (fun d =>
    (List.finRange nF).flatMap (fun f =>
      [⟨finProdFinEquiv (d, f), F f 1, (grad_eperp V F f).1 d⟩,
       ⟨finProdFinEquiv (d, f), F f 0, -(grad_eperp V F f).1 d⟩,
       ⟨finProdFinEquiv (d, f), F f 2, (grad_eperp V F f).2 d⟩,
       ⟨finProdFinEquiv (d, f), F f 0, -(grad_eperp V F f).2 d⟩]))

/-- Modelled from the spec: `igl::grad` (libigl, absent from src/), the sparse
map "taking a per-vertex scalar field to a 3-component gradient per face",
"rows index per-face 3-vector components, columns index vertices": the
triplets are summed by `setFromTriplets`. -/
def igl_grad (V : MatrixX3d K n) (F : Faces nF n) : SparseMatrix K (3 * nF) n :=
  setFromTriplets (grad_triplets V F)

end Gradient

/-! ## Mesh notions used to state the properties -/

section MeshNotions

variable {nF nV : ℕ}

/-- Face `f` is incident to vertex `v`: one of its corners is `v`. -/
def incident (F : Faces nF nV) (v : Fin nV) (f : Fin nF) : Prop := ∃ d, F f d = v

instance (F : Faces nF nV) (v : Fin nV) (f : Fin nF) : Decidable (incident F v f) :=
  inferInstanceAs (Decidable (∃ d, F f d = v))

/-- The number of faces incident to a vertex. -/
def faceDegree (F : Faces nF nV) (v : Fin nV) : ℕ :=
  (Finset.univ.filter (fun f => incident F v f)).card

/-- Vertices `v` and `w` share a face edge: they are two different corners of one face. -/
def adjacent (F : Faces nF nV) (v w : Fin nV) : Prop :=
  ∃ f j l, j ≠ l ∧ F f j = v ∧ F f l = w

instance (F : Faces nF nV) (v w : Fin nV) : Decidable (adjacent F v w) :=
  inferInstanceAs (Decidable (∃ f j l, j ≠ l ∧ F f j = v ∧ F f l = w))

/-- The number of distinct vertices adjacent to a vertex. -/
def vertexDegree (F : Faces nF nV) (v : Fin nV) : ℕ :=
  (Finset.univ.filter (fun w => adjacent F v w)).card

end MeshNotions

/-! ## Concrete inputs -/

section Examples

/-- A 2×2 matrix over the rationals that stores NaN, +Inf and 5 and leaves one
position empty. -/
def exampleG : SparseMatrix ℚ 2 2 := fun i j =>
  if i = 0 then (if j = 0 then some nan else some pinf)
  else (if j = 0 then some (fin 5) else none)

/-- The four faces of a tetrahedron on the vertices 0, 1, 2, 3. -/
def exampleTetra : Faces 4 4 := ![![0, 1, 2], ![0, 3, 1], ![0, 2, 3], ![1, 3, 2]]

/-- One triangle on the vertices 0, 1, 2 of a mesh with four vertices: vertex 3
belongs to no face. -/
def exampleIsolated : Faces 1 4 := ![![0, 1, 2]]

/-- A compressed matrix with two columns that stores NaN, 5, 2 and +Inf. -/
def exampleCompressed : CompressedMatrix ℚ :=
  [[(0, nan), (1, fin 5), (3, fin 2)], [(2, pinf)]]

/-- A world in which every path exists and nothing can be read or solved. -/
def exampleWorld {K : Type} : World K where
  access := fun _ => true
  readPLY := fun _ => none
  depth_potential := fun _ _ => none
  sqrtK := fun x => x
  grad := fun _ _ _ _ _ _ => none
  findNeighbors := fun _ h _ _ => ⟨0, h⟩

/-- A command line that names source, target and output and leaves every
other option at its default. -/
def exampleOptions {K : Type} [LinearOrderedField K] : Options K where
  verbose := false
  source := some "source.ply"
  target := some "target.ply"
  input := none
  chess := false
  output := some "out.ply"
  alpha := fin (3 / 100)
  step := fin (1 / 10)
  lambda := fin 1
  iter := 1000
  SO3 := false
  clobber := false

/-- A parser that delivers, for every path, a table with the columns `a`, `b`
and one data row `1, 2`. -/
def exampleParser : String → ℤ → Except Thrown (CsvDocument ℚ) := fun _ _ =>
  Except.ok ⟨1, 2, fun j _ => Except.ok (fin ((j : ℚ) + 1)), ["a", "b"]⟩

/-- A field on the four vertices of the tetrahedron with no constant column. -/
def exampleField : Fin 4 → Fin 3 → ℚ := fun v c => ((v : ℕ) : ℚ) - 2 * ((c : ℕ) : ℚ)

/-- One triangle on three vertices. -/
def exampleTriangle : Faces 1 3 := ![![0, 1, 2]]

section

variable {K : Type} [LinearOrderedField K]

/-- Three pairwise distinct unit vectors, the coordinate axes. -/
def exampleSph : MatrixX3d K 3 := fun i c => if i = c then fin 1 else fin 0

/-- A feature field of mean 0 and sample variance 1 on three vertices. -/
def exampleFeature : VectorXd K 3 := ![fin 1, fin 0, fin (-1)]

/-- The outside of the loop on one triangle: a square root, the gradient
operator of the mesh and the linear scan as nearest-neighbour query. -/
def exampleTriangleExt (sqrtK : K → K) : External K 1 3 where
  sqrtK := sqrtK
  grad := igl_grad
  findNeighbors := linear_nearest

/-- The identity scenario on one triangle: the source and the target are the
same mesh with the same embedding and the same feature field. -/
def exampleWorkspace : Workspace K 1 3 1 3 where
  F1 := exampleTriangle
  F2 := exampleTriangle
  sph1 := exampleSph
  sph2 := exampleSph
  C1s := exampleFeature
  C2s := exampleFeature
  Lsource := smoothing_matrix exampleTriangle
  Ltarget := smoothing_matrix exampleTriangle
  F2V1 := face_to_vertex exampleTriangle
  F2V2 := face_to_vertex exampleTriangle
  Gtarget := fun _ _ => none
  dC2s := fun _ _ => 0
  match1 := fun _ => 0
  out := []

end

/-- A fan of six triangles about vertex 0: the centre belongs to six faces and
has the six neighbours 1, ..., 6. -/
def exampleFan : Faces 6 7 :=
  ![![0, 1, 2], ![0, 2, 3], ![0, 3, 4], ![0, 4, 5], ![0, 5, 6], ![0, 6, 1]]

/-- The eight faces of an octahedron: vertices 0 and 1 are the poles, vertices
2, 3, 4, 5 go round the equator. -/
def exampleOcta : Faces 8 6 :=
  ![![0, 2, 3], ![0, 3, 4], ![0, 4, 5], ![0, 5, 2],
    ![1, 3, 2], ![1, 4, 3], ![1, 5, 4], ![1, 2, 5]]

/-- The embedding of the octahedron in the unit sphere: the poles `(0,0,±1)`
and the equator `(1,0,0)`, `(0,1,0)`, `(-1,0,0)`, `(0,-1,0)`. -/
def exampleOctaSph : MatrixX3d ℚ 6 :=
  ![![fin 0, fin 0, fin 1], ![fin 0, fin 0, fin (-1)], ![fin 1, fin 0, fin 0],
    ![fin 0, fin 1, fin 0], ![fin (-1), fin 0, fin 0], ![fin 0, fin (-1), fin 0]]

/-- A depth potential on the octahedron: 0 at the poles and 1, -1, 1, -1 round
the equator. -/
def exampleOctaDepth : VectorXd ℚ 6 :=
  ![fin 0, fin 0, fin 1, fin (-1), fin 1, fin (-1)]

/-- The feature field that the normalisation of `main` makes of that depth
potential on doubles: 0 at the poles and `a, -a, a, -a` round the equator,
with `a = 629397181890197 / 2^49`, the double `1.118033988749895`. -/
def exampleOctaFeature : VectorXd ℚ 6 :=
  ![fin 0, fin 0, fin (629397181890197 / 2 ^ 49), fin (-(629397181890197 / 2 ^ 49)),
    fin (629397181890197 / 2 ^ 49), fin (-(629397181890197 / 2 ^ 49))]

/-- The outside of the loop on doubles: the correctly rounded square root, the
gradient operator of the mesh and the linear scan as nearest-neighbour query. -/
def exampleOctaExt : External ℚ 8 6 where
  sqrtK := sqrt64
  grad := igl_grad
  findNeighbors := linear_nearest

/-- The identity scenario on the octahedron: the source and the target are the
same mesh with the same embedding and the same feature field, and the
operators are those that `main` builds before the loop. -/
def exampleOctaWorkspace : Workspace ℚ 8 6 8 6 where
  F1 := exampleOcta
  F2 := exampleOcta
  sph1 := exampleOctaSph
  sph2 := exampleOctaSph
  C1s := exampleOctaFeature
  C2s := exampleOctaFeature
  Lsource := smoothing_matrix exampleOcta
  Ltarget := smoothing_matrix exampleOcta
  F2V1 := face_to_vertex exampleOcta
  F2V2 := face_to_vertex exampleOcta
  Gtarget := fun _ _ => none
  dC2s := fun _ _ => 0
  match1 := fun _ => 0
  out := []

end Examples

/-! ## Arithmetic of doubles -/

namespace Dbl

variable {K : Type} [LinearOrderedField K]

theorem zero_eq_fin : (0 : Dbl K) = fin 0 := rfl

theorem one_eq_fin : (1 : Dbl K) = fin 1 := rfl

@[simp] theorem fin_add_fin (a b : K) : (fin a + fin b : Dbl K) = fin (a + b) := rfl

@[simp] theorem fin_mul_fin (a b : K) : (fin a * fin b : Dbl K) = fin (a * b) := rfl

@[simp] theorem neg_fin (a : K) : (-fin a : Dbl K) = fin (-a) := rfl

@[simp] theorem fin_sub_fin (a b : K) : (fin a - fin b : Dbl K) = fin (a - b) := by
  show add (fin a) (neg (fin b)) = fin (a - b)
  simp only [neg, add, sub_eq_add_neg]

@[simp] theorem sq_fin (a : K) : sq (fin a : Dbl K) = fin (a * a) := rfl

theorem fin_div_fin_eq (a b : K) :
    (fin a / fin b : Dbl K) = if b = 0 then infOfSign a else fin (a / b) := rfl

theorem fin_div_fin (a : K) {b : K} (hb : b ≠ 0) : (fin a / fin b : Dbl K) = fin (a / b) := by
  show div (fin a) (fin b) = fin (a / b)
  simp only [div, hb, if_false]

theorem infOfSign_zero : (infOfSign (0 : K) : Dbl K) = nan := by
  simp [infOfSign]

@[simp] theorem fin_mul_pinf (a : K) : (fin a * pinf : Dbl K) = infOfSign a := rfl

@[simp] theorem fin_mul_ninf (a : K) : (fin a * ninf : Dbl K) = infOfSign (-a) := rfl

theorem zero_div_zero : (fin 0 / fin 0 : Dbl K) = nan := by
  show div (fin 0) (fin 0) = nan
  simp [div, infOfSign]

@[simp] theorem nan_add (x : Dbl K) : (nan + x : Dbl K) = nan := by
  cases x <;> rfl

@[simp] theorem add_nan (x : Dbl K) : (x + nan : Dbl K) = nan := by
  cases x <;> rfl

@[simp] theorem nan_mul (x : Dbl K) : (nan * x : Dbl K) = nan := by
  cases x <;> rfl

@[simp] theorem mul_nan (x : Dbl K) : (x * nan : Dbl K) = nan := by
  cases x <;> rfl

@[simp] theorem div_nan (x : Dbl K) : (x / nan : Dbl K) = nan := by
  cases x <;> rfl

@[simp] theorem nan_div (x : Dbl K) : (nan / x : Dbl K) = nan := by
  cases x <;> rfl

@[simp] theorem sqrt_nan (sqrtK : K → K) : Dbl.sqrt sqrtK (nan : Dbl K) = nan := rfl

theorem sqrt_fin (sqrtK : K → K) {a : K} (ha : 0 ≤ a) :
    Dbl.sqrt sqrtK (fin a) = fin (sqrtK a) := by
  simp only [Dbl.sqrt, not_lt.mpr ha, if_false]

theorem sum_fin {ι : Type} (s : Finset ι) (f : ι → K) :
    (∑ i ∈ s, (fin (f i) : Dbl K)) = fin (∑ i ∈ s, f i) := by
  classical
  induction s using Finset.induction_on with
  | empty => simp [zero_eq_fin]
  | insert hi ih => rw [Finset.sum_insert hi, Finset.sum_insert hi, ih, fin_add_fin]

end Dbl

section SqrtFacts

variable {K : Type} [LinearOrderedField K]

theorem ExactSqrt.sqrt_zero {sqrtK : K → K} (hs : ExactSqrt sqrtK) : sqrtK 0 = 0 := by
  have h := (hs 0 le_rfl).2
  exact mul_self_eq_zero.mp h

theorem ExactSqrt.sqrt_one {sqrtK : K → K} (hs : ExactSqrt sqrtK) : sqrtK 1 = 1 := by
  obtain ⟨h0, h1⟩ := hs 1 zero_le_one
  have h2 : (sqrtK 1 - 1) * (sqrtK 1 + 1) = 0 := by ring_nf; rw [pow_two, h1]; ring
  rcases mul_eq_zero.mp h2 with h | h
  · linarith
  · linarith

theorem ExactSqrt.sqrt_pos {sqrtK : K → K} (hs : ExactSqrt sqrtK) {x : K} (hx : 0 < x) :
    0 < sqrtK x := by
  obtain ⟨h0, h1⟩ := hs x hx.le
  rcases h0.lt_or_eq with h | h
  · exact h
  · rw [← h] at h1; simp at h1; linarith

theorem exactSqrt_real : ExactSqrt Real.sqrt :=
  fun x hx => ⟨Real.sqrt_nonneg x, Real.mul_self_sqrt hx⟩

end SqrtFacts

/-! ## The gradient sanitiser -/

section FixGrad

variable {K : Type} [LinearOrderedField K] {m n : ℕ}

/-- C3: for every sparse matrix `G`, whose stored entries may be NaN, +Inf,
-Inf or finite, and every finite threshold `τ ≥ 0`, every stored entry of
`fix_grad G τ` is finite and lies in `[-τ, τ]`. -/
theorem fix_grad_entries_bounded (G : SparseMatrix K m n) (τ : K) (hτ : 0 ≤ τ)
    (i : Fin m) (j : Fin n) (v : Dbl K) (hv : fix_grad G (fin τ) i j = some v) :
    ∃ x : K, v = fin x ∧ -τ ≤ x ∧ x ≤ τ := by
  unfold fix_grad at hv
  cases hG : G i j with
  | none => rw [hG] at hv; simp at hv
  | some g =>
    rw [hG] at hv
    simp only [Option.map_some', Option.some.injEq] at hv
    cases g with
    | fin a =>
      by_cases h1 : a < -τ
      · refine ⟨0, ?_, by linarith, hτ⟩
        rw [← hv]; simp [Dbl.lt, h1, zero_eq_fin]
      · by_cases h2 : τ < a
        · refine ⟨0, ?_, by linarith, hτ⟩
          rw [← hv]; simp [Dbl.lt, h2, zero_eq_fin]
        · refine ⟨a, ?_, by linarith, by linarith⟩
          rw [← hv]; simp [Dbl.lt, h1, h2, Dbl.isFinite]
    | pinf =>
      refine ⟨0, ?_, by linarith, hτ⟩
      rw [← hv]; simp [Dbl.lt, Dbl.isFinite, zero_eq_fin]
    | ninf =>
      refine ⟨0, ?_, by linarith, hτ⟩
      rw [← hv]; simp [Dbl.lt, Dbl.isFinite, zero_eq_fin]
    | nan =>
      refine ⟨0, ?_, by linarith, hτ⟩
      rw [← hv]; simp [Dbl.lt, Dbl.isFinite, zero_eq_fin]

theorem fix_grad_exampleG :
    fix_grad exampleG (fin 3) 1 0 = some (fin 0) ∧ fix_grad exampleG (fin 3) 0 0 = some (fin 0) := by
  constructor
  · simp only [fix_grad, exampleG]
    norm_num [Dbl.lt, Dbl.isFinite]
    rfl
  · simp [fix_grad, exampleG, Dbl.lt, Dbl.isFinite, zero_eq_fin]

/-- The entry 5 of `exampleG` exceeds the threshold 3 and is overwritten with zero. -/
theorem fix_grad_entries_bounded_witness :
    (0 : ℚ) ≤ 3 ∧ fix_grad exampleG (fin 3) 1 0 = some (fin 0) ∧
    ∃ x : ℚ, (fin 0 : Dbl ℚ) = fin x ∧ -3 ≤ x ∧ x ≤ 3 :=
  ⟨by norm_num, fix_grad_exampleG.1,
   fix_grad_entries_bounded exampleG 3 (by norm_num) 1 0 (fin 0) fix_grad_exampleG.1⟩

end FixGrad

/-! ## The damped step scale -/

section Scale

variable {K : Type} [LinearOrderedField K]

theorem scale1_zero_zero (lambda : Dbl K) : scale1 (fin 0) (fin 0) lambda = (nan : Dbl K) := by
  unfold scale1
  cases lambda with
  | fin l => simp [zero_div_zero]
  | pinf => simp [infOfSign_zero]
  | ninf => simp [infOfSign_zero]
  | nan => simp

/-- C2: at a vertex whose gathered gradient norm and residual are both exactly
zero the step scale `diff1 / (normg1 + diff1.pow(2) * lambda)` is the quotient
`0/0`: the code computes NaN for every `lambda`, not zero. -/
theorem scale1_zero_zero_is_nan (lambda : Dbl K) :
    scale1 (fin 0) (fin 0) lambda = nan ∧ scale1 (fin 0) (fin 0) lambda ≠ (0 : Dbl K) := by
  have h := scale1_zero_zero lambda
  refine ⟨h, ?_⟩
  rw [h, zero_eq_fin]
  exact fun hc => Dbl.noConfusion hc

end Scale

/-! ## Re-projection on the sphere -/

section Normalize

variable {K : Type} [LinearOrderedField K] {n : ℕ}

theorem rowNorm_fin (sqrtK : K → K) (u : Fin 3 → K) :
    rowNorm sqrtK (fun c => fin (u c)) = fin (sqrtK (∑ c, u c * u c)) := by
  unfold rowNorm
  simp only [sq_fin, sum_fin]
  exact sqrt_fin sqrtK (Finset.sum_nonneg (fun c _ => mul_self_nonneg _))

/-- C1 (as the code has it): for every step size, every update `dX1` and every
embedding, a row of `sph1 + dX1*step` that is finite and not the zero vector
has Euclidean norm exactly 1 after the row-wise normalisation. -/
theorem normalized_row_unit_norm (sqrtK : K → K) (hs : ExactSqrt sqrtK)
    (sph1 dX1 : MatrixX3d K n) (step : Dbl K) (i : Fin n) (u : Fin 3 → K)
    (hu : ∀ c, update_embedding sph1 dX1 step i c = fin (u c)) (hne : ∃ c, u c ≠ 0) :
    rowNorm sqrtK (rowwise_normalize sqrtK (update_embedding sph1 dX1 step) i) = fin 1 := by
  have hrow : update_embedding sph1 dX1 step i = fun c => fin (u c) := funext hu
  have hz : 0 < ∑ c, u c * u c := by
    obtain ⟨c, hc⟩ := hne
    calc 0 < u c * u c := mul_self_pos.mpr hc
      _ ≤ ∑ c, u c * u c :=
        Finset.single_le_sum (f := fun c => u c * u c) (fun c _ => mul_self_nonneg _)
          (Finset.mem_univ c)
  have hspos := hs.sqrt_pos hz
  have hnorm : rowNorm sqrtK (update_embedding sph1 dX1 step i)
      = fin (sqrtK (∑ c, u c * u c)) := by
    rw [hrow]; exact rowNorm_fin sqrtK u
  have hres : rowwise_normalize sqrtK (update_embedding sph1 dX1 step) i
      = fun c => fin (u c / sqrtK (∑ c, u c * u c)) := by
    funext c
    unfold rowwise_normalize
    rw [hnorm, hu c]
    exact fin_div_fin _ hspos.ne'
  rw [hres, rowNorm_fin]
  have hterm : ∀ c, u c / sqrtK (∑ c, u c * u c) * (u c / sqrtK (∑ c, u c * u c))
      = (u c * u c) / (∑ c, u c * u c) := by
    intro c; rw [div_mul_div_comm, (hs _ hz.le).2]
  have hsum : ∑ c, u c / sqrtK (∑ c, u c * u c) * (u c / sqrtK (∑ c, u c * u c)) = 1 := by
    simp only [hterm, ← Finset.sum_div]; exact div_self hz.ne'
  rw [hsum, hs.sqrt_one]

/-- One vertex at `(1,0,0)` with update `(1,2,0)` and step 2 moves to `(3,4,0)`. -/
theorem normalized_row_unit_norm_witness :
    ExactSqrt Real.sqrt ∧ (∃ c, (![3, 4, 0] : Fin 3 → ℝ) c ≠ 0) ∧
    rowNorm Real.sqrt (rowwise_normalize Real.sqrt
      (update_embedding (fun _ => ![fin 1, fin 0, fin 0] : MatrixX3d ℝ 1)
        (fun _ => ![fin 1, fin 2, fin 0]) (fin 2)) 0) = fin 1 :=
  ⟨exactSqrt_real, ⟨0, by norm_num⟩,
   normalized_row_unit_norm Real.sqrt exactSqrt_real _ _ _ 0 ![3, 4, 0]
     (by intro c; fin_cases c <;> simp [update_embedding] <;> norm_num) ⟨0, by norm_num⟩⟩

/-- C1 (as stated) fails: the unit row `(1,0,0)` with update `(-1,0,0)` and
step 1 moves to the zero vector, whose norm is 0; the normalisation divides
`0/0` and every entry of the row, and its norm, is NaN. -/
theorem normalized_row_zero_counterexample :
    ExactSqrt Real.sqrt ∧
    rowNorm Real.sqrt (![fin 1, fin 0, fin 0] : Fin 3 → Dbl ℝ) = fin 1 ∧
    rowNorm Real.sqrt (rowwise_normalize Real.sqrt
      (update_embedding (fun _ => ![fin 1, fin 0, fin 0] : MatrixX3d ℝ 1)
        (fun _ => ![fin (-1), fin 0, fin 0]) (fin 1)) 0) = nan ∧
    rowNorm Real.sqrt (rowwise_normalize Real.sqrt
      (update_embedding (fun _ => ![fin 1, fin 0, fin 0] : MatrixX3d ℝ 1)
        (fun _ => ![fin (-1), fin 0, fin 0]) (fin 1)) 0) ≠ fin 1 := by
  have h1 : rowNorm Real.sqrt (![fin 1, fin 0, fin 0] : Fin 3 → Dbl ℝ) = fin 1 := by
    simp [rowNorm, Fin.sum_univ_succ, Dbl.sqrt]
  have h2 : rowNorm Real.sqrt (rowwise_normalize Real.sqrt
      (update_embedding (fun _ => ![fin 1, fin 0, fin 0] : MatrixX3d ℝ 1)
        (fun _ => ![fin (-1), fin 0, fin 0]) (fin 1)) 0) = nan := by
    simp [rowNorm, rowwise_normalize, update_embedding, Fin.sum_univ_succ, Dbl.sqrt,
      zero_div_zero, Dbl.sq]
  refine ⟨exactSqrt_real, h1, h2, ?_⟩
  rw [h2]
  exact fun hc => Dbl.noConfusion hc

end Normalize

/-! ## Feature normalisation -/

section Feature

variable {K : Type} [LinearOrderedField K] {n : ℕ}

theorem mean_fin (x : Fin n → K) (hn : n ≠ 0) :
    mean (fun i => fin (x i)) = fin ((∑ i, x i) / n) := by
  unfold mean
  rw [sum_fin]
  exact fin_div_fin _ (Nat.cast_ne_zero.mpr hn)

theorem sampleVariance_fin (y : Fin n → K) (hn : 2 ≤ n) :
    sampleVariance (fun i => fin (y i)) =
      fin ((∑ i, (y i - (∑ i, y i) / n) * (y i - (∑ i, y i) / n)) / ((n : K) - 1)) := by
  have hn1 : (n : K) - 1 ≠ 0 := by
    have : (2 : K) ≤ (n : K) := by exact_mod_cast hn
    intro h; linarith
  unfold sampleVariance
  rw [mean_fin y (by omega)]
  simp only [fin_sub_fin, sq_fin, sum_fin]
  exact fin_div_fin _ hn1

theorem normalize_feature_fin (sqrtK : K → K) (x : Fin n → K) (hn : 2 ≤ n)
    (hv : 0 < (∑ i, (x i - (∑ i, x i) / n) * (x i - (∑ i, x i) / n)) / ((n : K) - 1))
    (hs : sqrtK ((∑ i, (x i - (∑ i, x i) / n) * (x i - (∑ i, x i) / n)) / ((n : K) - 1)) ≠ 0) :
    normalize_feature sqrtK (fun i => fin (x i)) = fun i =>
      fin ((x i - (∑ i, x i) / n) /
        sqrtK ((∑ i, (x i - (∑ i, x i) / n) * (x i - (∑ i, x i) / n)) / ((n : K) - 1))) := by
  have hn1 : (n : K) - 1 ≠ 0 := by
    have : (2 : K) ≤ (n : K) := by exact_mod_cast hn
    intro h; linarith
  unfold normalize_feature
  simp only [mean_fin x (by omega : n ≠ 0), fin_sub_fin, sq_fin, sum_fin]
  rw [fin_div_fin _ hn1, sqrt_fin _ hv.le]
  funext i
  exact fin_div_fin _ hs

theorem centred_scaled_moments (x : Fin n → K) (mu s : K) (hn : 2 ≤ n)
    (hmu : mu = (∑ i, x i) / n) (hs : s * s = (∑ i, (x i - mu) * (x i - mu)) / ((n : K) - 1))
    (hs0 : s ≠ 0) :
    (∑ i, (x i - mu) / s) / (n : K) = 0 ∧
    (∑ i, ((x i - mu) / s - (∑ i, (x i - mu) / s) / n) *
      ((x i - mu) / s - (∑ i, (x i - mu) / s) / n)) / ((n : K) - 1) = 1 := by
  have hnK : (n : K) ≠ 0 := Nat.cast_ne_zero.mpr (by omega)
  have hsum0 : ∑ i, (x i - mu) / s = 0 := by
    rw [← Finset.sum_div, Finset.sum_sub_distrib, Finset.sum_const, Finset.card_univ,
      Fintype.card_fin, nsmul_eq_mul, hmu, mul_div_cancel₀ _ hnK, sub_self, zero_div]
  refine ⟨by rw [hsum0, zero_div], ?_⟩
  rw [hsum0, zero_div]
  have hterm : ∀ i, ((x i - mu) / s - 0) * ((x i - mu) / s - 0)
      = (x i - mu) * (x i - mu) / (s * s) := by
    intro i; rw [sub_zero, div_mul_div_comm]
  simp only [hterm, ← Finset.sum_div]
  have hn1 : (n : K) - 1 ≠ 0 := by
    have : (2 : K) ≤ (n : K) := by exact_mod_cast hn
    intro h; linarith
  have hQ : ∑ i, (x i - mu) * (x i - mu) = s * s * ((n : K) - 1) := by
    rw [hs]; field_simp
  rw [hQ]
  field_simp

/-- C10, for finite entries, in exact arithmetic with an exact square root: for
every feature vector with `n ≥ 2` finite entries that are not all equal,
`dp -= mean(dp); dp /= sqrt(sum(dp^2)/(n-1))` yields a vector whose mean is 0
and whose sample variance is 1.  An infinite entry, or the rounding of doubles,
breaks it. -/
theorem normalize_feature_mean_variance (sqrtK : K → K) (hs : ExactSqrt sqrtK)
    (x : Fin n → K) (hn : 2 ≤ n) (hx : ∃ i j, x i ≠ x j) :
    mean (normalize_feature sqrtK (fun i => fin (x i))) = fin 0 ∧
    sampleVariance (normalize_feature sqrtK (fun i => fin (x i))) = fin 1 := by
  have hn0 : n ≠ 0 := by omega
  have hn1 : (0 : K) < (n : K) - 1 := by
    have : (2 : K) ≤ (n : K) := by exact_mod_cast hn
    linarith
  have hQ : 0 < ∑ i, (x i - (∑ i, x i) / n) * (x i - (∑ i, x i) / n) := by
    obtain ⟨i, j, hij⟩ := hx
    have hex : ∃ l, x l - (∑ i, x i) / n ≠ 0 := by
      by_contra hall
      push_neg at hall
      exact hij ((sub_eq_zero.mp (hall i)).trans (sub_eq_zero.mp (hall j)).symm)
    obtain ⟨l, hl⟩ := hex
    calc 0 < (x l - (∑ i, x i) / n) * (x l - (∑ i, x i) / n) := mul_self_pos.mpr hl
      _ ≤ _ := Finset.single_le_sum
          (f := fun i => (x i - (∑ i, x i) / n) * (x i - (∑ i, x i) / n))
          (fun c _ => mul_self_nonneg _) (Finset.mem_univ l)
  have hv : 0 < (∑ i, (x i - (∑ i, x i) / n) * (x i - (∑ i, x i) / n)) / ((n : K) - 1) :=
    div_pos hQ hn1
  have hspos := hs.sqrt_pos hv
  have hmom := centred_scaled_moments x _ _ hn rfl (hs _ hv.le).2 hspos.ne'
  rw [normalize_feature_fin sqrtK x hn hv hspos.ne']
  constructor
  · rw [mean_fin _ hn0, hmom.1]
  · rw [sampleVariance_fin _ hn, hmom.2]

/-- The two-entry feature vector `(1, 3)`. -/
theorem normalize_feature_mean_variance_witness :
    ExactSqrt Real.sqrt ∧ 2 ≤ 2 ∧ (∃ i j, (![1, 3] : Fin 2 → ℝ) i ≠ ![1, 3] j) ∧
    mean (normalize_feature Real.sqrt (fun i => fin ((![1, 3] : Fin 2 → ℝ) i))) = fin 0 ∧
    sampleVariance (normalize_feature Real.sqrt (fun i => fin ((![1, 3] : Fin 2 → ℝ) i)))
      = fin 1 :=
  ⟨exactSqrt_real, le_rfl, ⟨0, 1, by norm_num⟩,
   normalize_feature_mean_variance Real.sqrt exactSqrt_real ![1, 3] le_rfl ⟨0, 1, by norm_num⟩⟩

end Feature

/-! ## Row normalisation of a sparse matrix -/

section Operators

variable {K : Type} [LinearOrderedField K] {m n nF nV : ℕ}

theorem sum_values_one (l : List (Triplet K m n)) (h : ∀ t ∈ l, t.value = 1) :
    (l.map (fun t => t.value)).sum = fin (l.length : K) := by
  induction l with
  | nil => simp [zero_eq_fin]
  | cons a l ih =>
    have ha : a.value = 1 := h a (List.mem_cons_self _ _)
    have hl := ih (fun t ht => h t (List.mem_cons_of_mem _ ht))
    simp only [List.map_cons, List.sum_cons, List.length_cons, ha, hl, one_eq_fin, fin_add_fin]
    congr 1
    push_cast
    ring

/-- Every stored entry of a row-normalised matrix is the entry of the matrix
times the inverse of its row sum, and the stored positions are the same. -/
theorem normalize_rows_apply (M : SparseMatrix K m n) (i : Fin m) (j : Fin n) :
    normalize_rows M i j = (M i j).map (fun a => (1 / M.mulVec (ones n) i) * a) := by
  unfold normalize_rows SparseMatrix.mul asDiagonal cwiseInverse
  cases hM : M i j with
  | none =>
    have : ¬ ∃ l, (if i = l then some (1 / M.mulVec (ones n) i) else none).isSome = true
        ∧ (M l j).isSome = true := by
      rintro ⟨l, h1, h2⟩
      by_cases hil : i = l
      · subst hil; rw [hM] at h2; simp at h2
      · simp [hil] at h1
    simp only [this, if_false, Option.map_none']
  | some a =>
    have : ∃ l, (if i = l then some (1 / M.mulVec (ones n) i) else none).isSome = true
        ∧ (M l j).isSome = true := ⟨i, by simp, by simp [hM]⟩
    simp only [this, if_true, Option.map_some', Option.some.injEq]
    rw [Finset.sum_eq_single i]
    · simp [hM]
    · intro l _ hl
      simp [Ne.symm hl]
    · intro h; exact absurd (Finset.mem_univ i) h

/-! ## The face-to-vertex averager -/

theorem face_triplets_value (F : Faces nF nV) (t : Triplet K nV nF)
    (ht : t ∈ (face_triplets F : List (Triplet K nV nF))) : t.value = 1 := by
  unfold face_triplets at ht
  simp only [List.mem_flatMap, List.mem_map] at ht
  obtain ⟨f, _, d, _, rfl⟩ := ht
  rfl

theorem face_hits_length (F : Faces nF nV) (v : Fin nV) (f : Fin nF) :
    ((face_triplets F : List (Triplet K nV nF)).filter
        (fun t => decide (t.row = v ∧ t.col = f))).length
      = ((List.finRange 3).filter (fun d => decide (F f d = v))).length := by
  unfold face_triplets
  rw [List.filter_flatMap, List.length_flatMap, ← Fin.sum_univ_def, Finset.sum_eq_single f]
  · simp only [Function.comp, List.filter_map, List.length_map]
    congr 1
    apply List.filter_congr
    intro d _
    simp
  · intro f' _ hne
    simp only [Function.comp, List.filter_map, List.length_map, List.length_eq_zero]
    apply List.filter_eq_nil_iff.mpr
    intro d _
    simp [hne]
  · intro h; exact absurd (Finset.mem_univ f) h

theorem corner_count_of_not_incident (F : Faces nF nV) (v : Fin nV) (f : Fin nF)
    (h : ¬ incident F v f) :
    ((List.finRange 3).filter (fun d => decide (F f d = v))).length = 0 := by
  rw [List.length_eq_zero]
  apply List.filter_eq_nil_iff.mpr
  intro d _ hd
  exact h ⟨d, by simpa using hd⟩

theorem corner_count_of_incident (F : Faces nF nV) (hF : ∀ f, Function.Injective (F f))
    (v : Fin nV) (f : Fin nF) (h : incident F v f) :
    ((List.finRange 3).filter (fun d => decide (F f d = v))).length = 1 := by
  obtain ⟨d0, hd0⟩ := h
  have hcongr : (List.finRange 3).filter (fun d => decide (F f d = v))
      = (List.finRange 3).filter (fun d => d == d0) := by
    apply List.filter_congr
    intro d _
    by_cases hd : d = d0
    · subst hd; simp [hd0]
    · have : F f d ≠ v := fun hc => hd (hF f (hc.trans hd0.symm))
      simp [hd, this]
  rw [hcongr, ← List.countP_eq_length_filter, ← List.count]
  exact List.count_eq_one_of_mem (List.nodup_finRange 3) (List.mem_finRange d0)

/-- The matrix assembled from the triplets of `face_to_vertex`, before its
rows are normalised: a position is stored exactly when the face is incident to
the vertex, and holds the number of corners of the face that are the vertex. -/
theorem face_matrix_apply (F : Faces nF nV) (v : Fin nV) (f : Fin nF) :
    (setFromTriplets (face_triplets F) : SparseMatrix K nV nF) v f
      = if incident F v f then
          some (fin (((List.finRange 3).filter (fun d => decide (F f d = v))).length : K))
        else none := by
  unfold setFromTriplets
  simp only []
  by_cases h : incident F v f
  · have hne : ((face_triplets F : List (Triplet K nV nF)).filter
        (fun t => decide (t.row = v ∧ t.col = f))).isEmpty = false := by
      rw [Bool.eq_false_iff]
      intro hc
      rw [List.isEmpty_iff] at hc
      have hl := face_hits_length (K := K) F v f
      rw [hc] at hl
      obtain ⟨d, hd⟩ := h
      have hmem : d ∈ (List.finRange 3).filter (fun d => decide (F f d = v)) :=
        List.mem_filter.mpr ⟨List.mem_finRange d, by simpa using hd⟩
      rw [List.eq_nil_of_length_eq_zero hl.symm] at hmem
      exact absurd hmem (List.not_mem_nil d)
    rw [hne, if_pos h]
    simp only [Bool.false_eq_true, if_false, Option.some.injEq]
    rw [sum_values_one _ (fun t ht => face_triplets_value F t (List.mem_of_mem_filter ht)),
      face_hits_length]
  · have he : ((face_triplets F : List (Triplet K nV nF)).filter
        (fun t => decide (t.row = v ∧ t.col = f))).isEmpty = true := by
      rw [List.isEmpty_iff]
      apply List.eq_nil_of_length_eq_zero
      rw [face_hits_length, corner_count_of_not_incident F v f h]
    rw [he, if_neg h]
    simp

/-- A vertex with no incident face has an empty row in the face-to-vertex
operator, whatever the rest of the mesh. -/
theorem face_to_vertex_row_of_isolated (F : Faces nF nV) (v : Fin nV)
    (hv : ∀ f, ¬ incident F v f) (f : Fin nF) :
    (face_to_vertex F : SparseMatrix K nV nF) v f = none := by
  unfold face_to_vertex
  rw [normalize_rows_apply, face_matrix_apply, if_neg (hv f)]
  rfl

theorem face_matrix_row_sum (F : Faces nF nV) (hF : ∀ f, Function.Injective (F f))
    (v : Fin nV) :
    (setFromTriplets (face_triplets F) : SparseMatrix K nV nF).mulVec (ones nF) v
      = fin (faceDegree F v : K) := by
  unfold SparseMatrix.mulVec
  have hterm : ∀ f, storedTimes ((setFromTriplets (face_triplets F) : SparseMatrix K nV nF) v f)
      (ones nF f) = fin (if incident F v f then (1 : K) else 0) := by
    intro f
    rw [face_matrix_apply]
    by_cases h : incident F v f
    · simp [h, storedTimes, ones, one_eq_fin, corner_count_of_incident F hF v f h]
    · simp [h, storedTimes, zero_eq_fin]
  simp only [hterm, sum_fin]
  congr 1
  rw [Finset.sum_boole]
  rfl

/-- The stored entries of the face-to-vertex operator on a mesh whose faces
have three distinct corners. -/
theorem face_to_vertex_apply (F : Faces nF nV) (hF : ∀ f, Function.Injective (F f))
    (v : Fin nV) (hdeg : 1 ≤ faceDegree F v) (f : Fin nF) :
    (face_to_vertex F : SparseMatrix K nV nF) v f
      = if incident F v f then some (fin (1 / (faceDegree F v : K))) else none := by
  have hd : (faceDegree F v : K) ≠ 0 := Nat.cast_ne_zero.mpr (by omega)
  unfold face_to_vertex
  rw [normalize_rows_apply, face_matrix_row_sum F hF, face_matrix_apply]
  by_cases h : incident F v f
  · simp only [h, if_true, Option.map_some', corner_count_of_incident F hF v f h,
      one_eq_fin, fin_div_fin _ hd, fin_mul_fin, Nat.cast_one, mul_one]
  · simp [h]

/-- C4, in exact arithmetic: on a mesh whose faces each have three distinct
(in-range) vertex indices, for every vertex `v` with at least one incident
face the operator built by `face_to_vertex` has `M(v,f) = 1/deg(v)` for every
face incident to `v` and `M(v,f) = 0` for every other face, and row `v` sums
to 1.  On doubles the weight is the double nearest to `1/deg(v)` and the row
sum can miss 1. -/
theorem face_to_vertex_weights (F : Faces nF nV) (hF : ∀ f, Function.Injective (F f))
    (v : Fin nV) (hdeg : 1 ≤ faceDegree F v) :
    (∀ f, incident F v f →
      (face_to_vertex F : SparseMatrix K nV nF).coeff v f = fin (1 / (faceDegree F v : K))) ∧
    (∀ f, ¬ incident F v f → (face_to_vertex F : SparseMatrix K nV nF).coeff v f = fin 0) ∧
    ∑ f, (face_to_vertex F : SparseMatrix K nV nF).coeff v f = fin 1 := by
  have hd : (faceDegree F v : K) ≠ 0 := Nat.cast_ne_zero.mpr (by omega)
  have hcoeff : ∀ f, (face_to_vertex F : SparseMatrix K nV nF).coeff v f
      = fin (if incident F v f then 1 / (faceDegree F v : K) else 0) := by
    intro f
    unfold SparseMatrix.coeff
    rw [face_to_vertex_apply F hF v hdeg]
    by_cases h : incident F v f
    · simp [h]
    · simp [h, zero_eq_fin]
  refine ⟨fun f h => by rw [hcoeff, if_pos h], fun f h => by rw [hcoeff, if_neg h], ?_⟩
  simp only [hcoeff, sum_fin]
  congr 1
  rw [← Finset.sum_filter, Finset.sum_const, nsmul_eq_mul]
  show (faceDegree F v : K) * (1 / (faceDegree F v : K)) = 1
  field_simp

/-! ## The smoothing operator -/

theorem mem_adjacency_triplets (F : Faces nF nV) (t : Triplet K nV nV) :
    t ∈ (adjacency_triplets F : List (Triplet K nV nV)) ↔
      ∃ f j l, j < l ∧ (t = ⟨F f j, F f l, 1⟩ ∨ t = ⟨F f l, F f j, 1⟩) := by
  unfold adjacency_triplets
  simp only [List.mem_flatMap, List.mem_filter, List.mem_finRange, true_and, decide_eq_true_eq,
    List.mem_cons, List.mem_singleton, List.not_mem_nil, or_false]

theorem adjacency_matrix_apply (F : Faces nF nV) (v w : Fin nV) :
    (adjacency_matrix F : SparseMatrix K nV nV) v w
      = if adjacent F v w then some 1 else none := by
  unfold adjacency_matrix setFromTriplets
  simp only []
  by_cases h : adjacent F v w
  · have hne : ((adjacency_triplets F : List (Triplet K nV nV)).filter
        (fun t => decide (t.row = v ∧ t.col = w))).isEmpty = false := by
      rw [Bool.eq_false_iff]
      intro hc
      rw [List.isEmpty_iff, List.filter_eq_nil_iff] at hc
      obtain ⟨f, j, l, hjl, hj, hl⟩ := h
      rcases lt_or_gt_of_ne hjl with hlt | hgt
      · exact hc ⟨F f j, F f l, 1⟩
          ((mem_adjacency_triplets F _).mpr ⟨f, j, l, hlt, Or.inl rfl⟩) (by simp [hj, hl])
      · exact hc ⟨F f j, F f l, 1⟩
          ((mem_adjacency_triplets F _).mpr ⟨f, l, j, hgt, Or.inr rfl⟩) (by simp [hj, hl])
    rw [hne, if_pos h]
    simp
  · have he : ((adjacency_triplets F : List (Triplet K nV nV)).filter
        (fun t => decide (t.row = v ∧ t.col = w))).isEmpty = true := by
      rw [List.isEmpty_iff, List.filter_eq_nil_iff]
      intro t ht hp
      simp only [decide_eq_true_eq] at hp
      obtain ⟨f, j, l, hjl, ht | ht⟩ := (mem_adjacency_triplets F t).mp ht
      · subst ht
        exact h ⟨f, j, l, hjl.ne, hp.1, hp.2⟩
      · subst ht
        exact h ⟨f, l, j, hjl.ne', hp.1, hp.2⟩
    rw [he, if_neg h]
    simp

theorem adjacency_row_sum (F : Faces nF nV) (v : Fin nV) :
    (adjacency_matrix F : SparseMatrix K nV nV).mulVec (ones nV) v
      = fin (vertexDegree F v : K) := by
  unfold SparseMatrix.mulVec
  have hterm : ∀ w, storedTimes ((adjacency_matrix F : SparseMatrix K nV nV) v w) (ones nV w)
      = fin (if adjacent F v w then (1 : K) else 0) := by
    intro w
    rw [adjacency_matrix_apply]
    by_cases h : adjacent F v w
    · simp [h, storedTimes, ones, one_eq_fin]
    · simp [h, storedTimes, zero_eq_fin]
  simp only [hterm, sum_fin]
  congr 1
  rw [Finset.sum_boole]
  rfl

theorem vertexDegree_pos_of_adjacent (F : Faces nF nV) {v w : Fin nV} (h : adjacent F v w) :
    1 ≤ vertexDegree F v := by
  unfold vertexDegree
  exact Finset.card_pos.mpr ⟨w, Finset.mem_filter.mpr ⟨Finset.mem_univ w, h⟩⟩

/-- The stored entries of the smoothing matrix, for every mesh: the positions
of adjacent pairs, each holding the inverse of the number of neighbours. -/
theorem smoothing_matrix_apply (F : Faces nF nV) (v w : Fin nV) :
    (smoothing_matrix F : SparseMatrix K nV nV) v w
      = if adjacent F v w then some (fin (1 / (vertexDegree F v : K))) else none := by
  unfold smoothing_matrix
  rw [normalize_rows_apply, adjacency_row_sum, adjacency_matrix_apply]
  by_cases h : adjacent F v w
  · have hd : (vertexDegree F v : K) ≠ 0 :=
      Nat.cast_ne_zero.mpr (by have := vertexDegree_pos_of_adjacent F h; omega)
    simp only [h, if_true, Option.map_some', one_eq_fin, fin_div_fin _ hd, fin_mul_fin, mul_one]
  · simp [h]

theorem smoothing_matrix_coeff (F : Faces nF nV) (v w : Fin nV) :
    (smoothing_matrix F : SparseMatrix K nV nV).coeff v w
      = fin (if adjacent F v w then 1 / (vertexDegree F v : K) else 0) := by
  unfold SparseMatrix.coeff
  rw [smoothing_matrix_apply]
  by_cases h : adjacent F v w
  · simp [h]
  · simp [h, zero_eq_fin]

theorem not_adjacent_self (F : Faces nF nV) (hF : ∀ f, Function.Injective (F f)) (v : Fin nV) :
    ¬ adjacent F v v := by
  rintro ⟨f, j, l, hjl, hj, hl⟩
  exact hjl (hF f (hj.trans hl.symm))

theorem adjacent_of_incident (F : Faces nF nV) {v : Fin nV} {f : Fin nF} (h : incident F v f) : ∃ w, adjacent F v w := by
  obtain ⟨d, hd⟩ := h
  obtain ⟨d', hd'⟩ : ∃ d' : Fin 3, d ≠ d' := by
    by_cases h0 : d = 0
    · exact ⟨1, by rw [h0]; decide⟩
    · exact ⟨0, h0⟩
  exact ⟨F f d', f, d, d', hd', hd, rfl⟩

/-- C5, in exact arithmetic: on a mesh whose faces have three distinct vertex
indices and in which every vertex belongs to a face, the smoothing operator
`L = diag(1/(W*1)) * W` has `L(v,w) = 1/deg(v)` when `w` shares a face edge
with `v`, `L(v,w) = 0` otherwise, `L(v,v) = 0`, and every row sums to 1.  On
doubles the weight is the double nearest to `1/deg(v)` and the row sum can
miss 1. -/
theorem smoothing_matrix_weights (F : Faces nF nV) (hF : ∀ f, Function.Injective (F f))
    (hcover : ∀ v, ∃ f, incident F v f) (v : Fin nV) :
    (∀ w, adjacent F v w →
      (smoothing_matrix F : SparseMatrix K nV nV).coeff v w
        = fin (1 / (vertexDegree F v : K))) ∧
    (∀ w, ¬ adjacent F v w →
      (smoothing_matrix F : SparseMatrix K nV nV).coeff v w = fin 0) ∧
    (smoothing_matrix F : SparseMatrix K nV nV).coeff v v = fin 0 ∧
    ∑ w, (smoothing_matrix F : SparseMatrix K nV nV).coeff v w = fin 1 := by
  refine ⟨fun w h => by rw [smoothing_matrix_coeff, if_pos h],
    fun w h => by rw [smoothing_matrix_coeff, if_neg h],
    by rw [smoothing_matrix_coeff, if_neg (not_adjacent_self F hF v)], ?_⟩
  obtain ⟨f, hf⟩ := hcover v
  obtain ⟨w, hw⟩ := adjacent_of_incident F hf
  have hd : (vertexDegree F v : K) ≠ 0 :=
    Nat.cast_ne_zero.mpr (by have := vertexDegree_pos_of_adjacent F hw; omega)
  simp only [smoothing_matrix_coeff, sum_fin]
  congr 1
  rw [← Finset.sum_filter, Finset.sum_const, nsmul_eq_mul]
  show (vertexDegree F v : K) * (1 / (vertexDegree F v : K)) = 1
  field_simp

/-! ## Smoothing a constant field -/

theorem nsmul_fin (d : ℕ) (a : K) : d • (fin a : Dbl K) = fin (d * a) := by
  induction d with
  | zero => simp [zero_eq_fin]
  | succ d ih =>
    rw [succ_nsmul, ih, fin_add_fin]
    congr 1
    push_cast
    ring

theorem succ_nsmul_pinf (d : ℕ) : (d + 1) • (pinf : Dbl K) = pinf := by
  induction d with
  | zero => simp
  | succ d ih => rw [succ_nsmul, ih]; rfl

theorem succ_nsmul_ninf (d : ℕ) : (d + 1) • (ninf : Dbl K) = ninf := by
  induction d with
  | zero => simp
  | succ d ih => rw [succ_nsmul, ih]; rfl

theorem succ_nsmul_nan (d : ℕ) : (d + 1) • (nan : Dbl K) = nan := by
  induction d with
  | zero => simp
  | succ d ih => rw [succ_nsmul, ih]; rfl

/-- Adding `d ≥ 1` copies of `(1/d) * x` gives `x` back, for every double `x`. -/
theorem nsmul_inv_mul (d : ℕ) (hd : 1 ≤ d) (x : Dbl K) :
    d • ((fin (1 / (d : K)) : Dbl K) * x) = x := by
  obtain ⟨e, rfl⟩ : ∃ e, d = e + 1 := ⟨d - 1, by omega⟩
  have hpos : (0 : K) < 1 / ((e + 1 : ℕ) : K) := by positivity
  cases x with
  | fin a =>
    rw [fin_mul_fin, nsmul_fin]
    congr 1
    field_simp
  | pinf =>
    rw [fin_mul_pinf]
    simp only [infOfSign, hpos.ne', hpos, if_false, if_true]
    exact succ_nsmul_pinf e
  | ninf =>
    rw [fin_mul_ninf]
    have hneg : ¬ (0 : K) < -(1 / ((e + 1 : ℕ) : K)) := by linarith
    have hne : -(1 / ((e + 1 : ℕ) : K)) ≠ 0 := by linarith
    simp only [infOfSign, hne, hneg, if_false]
    exact succ_nsmul_ninf e
  | nan =>
    rw [mul_nan]
    exact succ_nsmul_nan e

/-- One smoothing pass leaves a field with the same row at every vertex unchanged. -/
theorem smoothing_pass_const (F : Faces nF nV) (hadj : ∀ v, ∃ w, adjacent F v w)
    (c : Fin 3 → Dbl K) :
    (smoothing_matrix F : SparseMatrix K nV nV).mulDense (fun _ => c) = fun _ => c := by
  funext v col
  unfold SparseMatrix.mulDense
  have hterm : ∀ w, storedTimes ((smoothing_matrix F : SparseMatrix K nV nV) v w) (c col)
      = if adjacent F v w then (fin (1 / (vertexDegree F v : K)) : Dbl K) * c col else 0 := by
    intro w
    rw [smoothing_matrix_apply]
    by_cases h : adjacent F v w
    · simp [h, storedTimes]
    · simp [h, storedTimes]
  simp only [hterm]
  rw [← Finset.sum_filter, Finset.sum_const]
  obtain ⟨w, hw⟩ := hadj v
  exact nsmul_inv_mul _ (vertexDegree_pos_of_adjacent F hw) (c col)

/-- C6, in exact arithmetic: on every mesh in which every vertex has an
adjacent vertex, for every constant `c` (one value per column, any double) and
every number of passes `k ≥ 0`, the repeated left-multiplication `X = L * X`
applied `k` times to the field that is `c` at every vertex returns that field.
On doubles one pass can move a constant by a rounding error. -/
theorem smooth_const (F : Faces nF nV) (hadj : ∀ v, ∃ w, adjacent F v w)
    (c : Fin 3 → Dbl K) (k : ℕ) :
    smooth (smoothing_matrix F : SparseMatrix K nV nV) (k : ℤ) (fun _ => c) = fun _ => c := by
  unfold smooth
  exact Function.iterate_fixed (smoothing_pass_const F hadj c) _

/-- Vertex 0 of the tetrahedron, which lies on three of its four faces. -/
theorem face_to_vertex_weights_witness :
    (∀ f, Function.Injective (exampleTetra f)) ∧ 1 ≤ faceDegree exampleTetra 0 ∧
    (face_to_vertex exampleTetra : SparseMatrix ℚ 4 4).coeff 0 0
      = fin (1 / (faceDegree exampleTetra 0 : ℚ)) ∧
    (face_to_vertex exampleTetra : SparseMatrix ℚ 4 4).coeff 0 3 = fin 0 ∧
    ∑ f, (face_to_vertex exampleTetra : SparseMatrix ℚ 4 4).coeff 0 f = fin 1 :=
  have h := face_to_vertex_weights (K := ℚ) exampleTetra (by decide) 0 (by decide)
  ⟨by decide, by decide, h.1 0 (by decide), h.2.1 3 (by decide), h.2.2⟩

/-- Vertex 0 of the tetrahedron, adjacent to the three other vertices. -/
theorem smoothing_matrix_weights_witness :
    (∀ f, Function.Injective (exampleTetra f)) ∧ (∀ v, ∃ f, incident exampleTetra v f) ∧
    (smoothing_matrix exampleTetra : SparseMatrix ℚ 4 4).coeff 0 1
      = fin (1 / (vertexDegree exampleTetra 0 : ℚ)) ∧
    (smoothing_matrix exampleTetra : SparseMatrix ℚ 4 4).coeff 0 0 = fin 0 ∧
    ∑ w, (smoothing_matrix exampleTetra : SparseMatrix ℚ 4 4).coeff 0 w = fin 1 :=
  have h := smoothing_matrix_weights (K := ℚ) exampleTetra (by decide) (by decide) 0
  ⟨by decide, by decide, h.1 1 (by decide), h.2.2.1, h.2.2.2⟩

/-- Twenty passes over the tetrahedron on the field that is `(1, 2, 3)` at every vertex. -/
theorem smooth_const_witness :
    (∀ v, ∃ w, adjacent exampleTetra v w) ∧
    smooth (smoothing_matrix exampleTetra : SparseMatrix ℚ 4 4) ((20 : ℕ) : ℤ)
      (fun _ => ![fin 1, fin 2, fin 3]) = fun _ => ![fin 1, fin 2, fin 3] :=
  ⟨by decide, smooth_const exampleTetra (by decide) ![fin 1, fin 2, fin 3] 20⟩

/-! ## A vertex without a face -/

/-- C8 (as the code has it): for every mesh that contains a vertex with no
incident face, the call of `face_to_vertex` raises no error: it returns an
operator, whose row for that vertex stores no entry (reads as zero). -/
theorem face_to_vertex_call_of_isolated (F : Faces nF nV) (v : Fin nV)
    (hv : ∀ f, ¬ incident F v f) :
    ∃ M : SparseMatrix K nV nF, face_to_vertex_call F = Except.ok M ∧
      ∀ f, M v f = none ∧ M.coeff v f = fin 0 := by
  refine ⟨face_to_vertex F, rfl, fun f => ?_⟩
  have h := face_to_vertex_row_of_isolated (K := K) F v hv f
  refine ⟨h, ?_⟩
  unfold SparseMatrix.coeff
  rw [h]
  rfl

/-- Vertex 3 of the one-triangle mesh on four vertices. -/
theorem face_to_vertex_call_of_isolated_witness :
    (∀ f, ¬ incident exampleIsolated 3 f) ∧
    ∃ M : SparseMatrix ℚ 4 1, face_to_vertex_call exampleIsolated = Except.ok M ∧
      ∀ f, M 3 f = none ∧ M.coeff 3 f = fin 0 :=
  ⟨by decide, face_to_vertex_call_of_isolated exampleIsolated 3 (by decide)⟩

/-- C8 (as stated) fails: vertex 3 of the one-triangle mesh on four vertices
has no incident face, and the call of `face_to_vertex` ends in no error. -/
theorem face_to_vertex_call_isolated_counterexample :
    (∀ f, ¬ incident exampleIsolated 3 f) ∧
    ¬ ∃ e, (face_to_vertex_call exampleIsolated : Except String (SparseMatrix ℚ 4 1))
        = Except.error e := by
  refine ⟨by decide, ?_⟩
  rintro ⟨e, he⟩
  unfold face_to_vertex_call at he
  exact Except.noConfusion he

end Operators

/-! ## The number of iterations -/

section Iterations

variable {K : Type} [LinearOrderedField K] {nF1 n1 nF2 n2 : ℕ}

end Iterations

/-! ## The identity scenario -/

section Identity

variable {K : Type} [LinearOrderedField K] {nF n m : ℕ}

theorem sum_eq_nan_of_term {ι : Type} (s : Finset ι) (f : ι → Dbl K) {i : ι} (hi : i ∈ s)
    (h : f i = nan) : ∑ j ∈ s, f j = nan := by
  classical
  rw [← Finset.add_sum_erase s f hi, h, nan_add]

theorem adjacent_symm (F : Faces nF n) {u v : Fin n} (h : adjacent F u v) : adjacent F v u := by
  obtain ⟨f, j, l, hjl, hj, hl⟩ := h
  exact ⟨f, l, j, hjl.symm, hl, hj⟩

/-- A NaN at a vertex reaches every neighbour of the vertex in one smoothing pass. -/
theorem smoothing_pass_nan (F : Faces nF n) (X : MatrixX3d K n) {u v : Fin n} (c : Fin 3)
    (huv : adjacent F u v) (hX : X v c = nan) :
    (smoothing_matrix F : SparseMatrix K n n).mulDense X u c = nan := by
  unfold SparseMatrix.mulDense
  apply sum_eq_nan_of_term _ _ (Finset.mem_univ v)
  rw [smoothing_matrix_apply, if_pos huv, hX]
  simp [storedTimes]

/-- A NaN at a vertex that has a neighbour is back at the vertex after every
even number of smoothing passes. -/
theorem smooth_even_nan (F : Faces nF n) {r v : Fin n} (hadj : adjacent F r v) (c : Fin 3)
    (k : ℕ) : ∀ X : MatrixX3d K n, X r c = nan →
      smooth (smoothing_matrix F : SparseMatrix K n n) (2 * (k : ℤ)) X r c = nan := by
  induction k with
  | zero =>
    intro X hX
    simpa [smooth] using hX
  | succ k ih =>
    intro X hX
    have h2 : (2 * ((k + 1 : ℕ) : ℤ)).toNat = (2 * (k : ℤ)).toNat + 2 := by omega
    unfold smooth
    rw [h2, Function.iterate_add_apply]
    exact ih _ (smoothing_pass_nan F _ c hadj
      (smoothing_pass_nan F X c (adjacent_symm F hadj) hX))

/-- Where the residual and the gathered gradient are both zero, the update
direction is NaN in every coordinate. -/
theorem update_direction_nan (sqrtK : K → K) (hs0 : sqrtK 0 = 0) (lambda : Dbl K)
    (diff1 : VectorXd K m) (dC2s : MatrixX3d K n) (match1 : Fin m → Fin n) (r : Fin m)
    (hd : diff1 r = fin 0) (hg : ∀ c, dC2s (match1 r) c = fin 0) (c : Fin 3) :
    update_direction sqrtK lambda diff1 dC2s match1 r c = nan := by
  have hrow : (fun c => dC2s (match1 r) c) = fun c => fin ((fun _ => (0 : K)) c) := funext hg
  have hnorm : rowNorm sqrtK (fun c => dC2s (match1 r) c) = fin 0 := by
    rw [hrow, rowNorm_fin]
    simp [hs0]
  unfold update_direction
  simp only []
  rw [hd, hnorm, scale1_zero_zero, mul_nan]

/-- C9 fails on the code where the smoothed target gradient vanishes: in the
identity scenario, at a vertex `r` that the correspondence maps to itself and
where the smoothed target gradient is `(0,0,0)`, the residual is 0 but the
row of the source embedding after the iteration is NaN in every coordinate
(for an even number of update-smoothing passes, 20 in `main`), not unchanged. -/
theorem identity_iteration_nan (ext : External K nF n) (par : Params K) (i : ℤ)
    (w : Workspace K nF n nF n) (r : Fin n) (k : ℕ)
    (hs0 : ext.sqrtK 0 = 0) (hsph : w.sph1 = w.sph2) (hC : w.C1s = w.C2s)
    (hfin : ∃ a, w.C2s r = fin a)
    (hmatch : ext.findNeighbors w.sph2 (w.sph2 r) = r)
    (hgrad : ∀ c, smooth_grad w.C2s (fix_grad (ext.grad w.sph2 w.F2) (fin 1000000))
      w.F2V2 w.Ltarget par.smooth_partial_grad r c = fin 0)
    (hL : w.Lsource = smoothing_matrix w.F1) (hadj : ∃ v, adjacent w.F1 r v)
    (hk : par.smooth_update = 2 * (k : ℤ)) :
    (demons_body ext par i w).match1 r = r ∧
    residual w.C1s w.C2s (demons_body ext par i w).match1 r = fin 0 ∧
    ∀ c, (demons_body ext par i w).sph1 r c = nan := by
  have hm : find_correspondence ext w.sph1 w.sph2 r = r := by
    unfold find_correspondence
    rw [hsph]
    exact hmatch
  have hres : residual w.C1s w.C2s (find_correspondence ext w.sph1 w.sph2) r = fin 0 := by
    obtain ⟨a, ha⟩ := hfin
    unfold residual
    rw [hm, hC, ha, fin_sub_fin, sub_self]
  refine ⟨hm, hres, fun c => ?_⟩
  obtain ⟨v, hv⟩ := hadj
  have hdir := update_direction_nan ext.sqrtK hs0 par.lambda
    (residual w.C1s w.C2s (find_correspondence ext w.sph1 w.sph2))
    (smooth_grad w.C2s (fix_grad (ext.grad w.sph2 w.F2) (fin 1000000))
      w.F2V2 w.Ltarget par.smooth_partial_grad)
    (find_correspondence ext w.sph1 w.sph2) r hres (by rw [hm]; exact hgrad) c
  have hsm := smooth_even_nan w.F1 hv c k _ hdir
  show rowwise_normalize ext.sqrtK (update_embedding w.sph1
    (smooth w.Lsource par.smooth_update _) par.demons_step) r c = nan
  unfold rowwise_normalize update_embedding
  rw [hL, hk, hsm, nan_mul, add_nan, nan_div]

theorem mulDense_zero (A : SparseMatrix K m n) (hA : ∀ i j v, A i j = some v → ∃ a, v = fin a) :
    A.mulDense (fun _ _ => fin 0) = fun _ _ => fin 0 := by
  funext i c
  unfold SparseMatrix.mulDense
  apply Finset.sum_eq_zero
  intro j _
  cases h : A i j with
  | none => rfl
  | some v =>
    obtain ⟨a, rfl⟩ := hA i j v h
    simp [storedTimes, zero_eq_fin]

theorem mulVec_zero_entries (G : SparseMatrix K m n) (hG : ∀ i j v, G i j = some v → v = fin 0)
    (x : VectorXd K n) (hx : ∀ j, ∃ a, x j = fin a) : G.mulVec x = fun _ => fin 0 := by
  funext i
  unfold SparseMatrix.mulVec
  apply Finset.sum_eq_zero
  intro j _
  obtain ⟨a, ha⟩ := hx j
  cases h : G i j with
  | none => rfl
  | some v =>
    rw [hG i j v h, ha]
    simp [storedTimes, zero_eq_fin]

theorem fix_grad_nonfinite (G : SparseMatrix K m n) (t : Dbl K)
    (hG : ∀ i j v, G i j = some v → Dbl.isFinite v = false) :
    ∀ i j v, fix_grad G t i j = some v → v = fin 0 := by
  intro i j v hv
  unfold fix_grad at hv
  cases h : G i j with
  | none => rw [h] at hv; simp at hv
  | some g =>
    rw [h] at hv
    simp only [Option.map_some', hG i j g h, Bool.not_false, Bool.or_true, if_true,
      Option.some.injEq] at hv
    exact hv.symm

theorem smooth_zero (S : SparseMatrix K n n) (hS : ∀ i j v, S i j = some v → ∃ a, v = fin a)
    (iter : ℤ) : smooth S iter (fun _ _ => fin 0) = fun _ _ => fin 0 := by
  unfold smooth
  exact Function.iterate_fixed (mulDense_zero S hS) _

/-- A sanitised gradient operator whose stored entries are all zero gives the
zero field, whatever the finite feature field. -/
theorem smooth_grad_zero (Fun : VectorXd K n) (hFun : ∀ j, ∃ a, Fun j = fin a)
    (G : SparseMatrix K (3 * nF) n) (hG : ∀ i j v, G i j = some v → v = fin 0)
    (F2V : SparseMatrix K n nF) (hF2V : ∀ i j v, F2V i j = some v → ∃ a, v = fin a)
    (S : SparseMatrix K n n) (hS : ∀ i j v, S i j = some v → ∃ a, v = fin a) (iter : ℤ) :
    smooth_grad Fun G F2V S iter = fun _ _ => fin 0 := by
  unfold smooth_grad
  simp only [mulVec_zero_entries G hG Fun hFun]
  rw [mulDense_zero F2V hF2V, smooth_zero S hS]

theorem smoothing_matrix_finite (F : Faces nF n) :
    ∀ i j v, (smoothing_matrix F : SparseMatrix K n n) i j = some v → ∃ a, v = fin a := by
  intro i j v hv
  rw [smoothing_matrix_apply] at hv
  by_cases h : adjacent F i j
  · rw [if_pos h] at hv
    exact ⟨_, (Option.some.inj hv).symm⟩
  · rw [if_neg h] at hv
    simp at hv

theorem face_to_vertex_finite (F : Faces nF n) (hF : ∀ f, Function.Injective (F f)) :
    ∀ i j v, (face_to_vertex F : SparseMatrix K n nF) i j = some v → ∃ a, v = fin a := by
  intro i j v hv
  by_cases hinc : ∃ f, incident F i f
  · have hdeg : 1 ≤ faceDegree F i := by
      obtain ⟨f, hf⟩ := hinc
      exact Finset.card_pos.mpr ⟨f, Finset.mem_filter.mpr ⟨Finset.mem_univ f, hf⟩⟩
    rw [face_to_vertex_apply F hF i hdeg] at hv
    by_cases h : incident F i j
    · rw [if_pos h] at hv
      exact ⟨_, (Option.some.inj hv).symm⟩
    · rw [if_neg h] at hv
      simp at hv
  · rw [face_to_vertex_row_of_isolated F i (fun f hf => hinc ⟨f, hf⟩)] at hv
    simp at hv

theorem dist2_fin (a b : Fin 3 → K) :
    dist2 (fun c => fin (a c)) (fun c => fin (b c)) = fin (∑ c, (a c - b c) * (a c - b c)) := by
  unfold dist2
  simp only [fin_sub_fin, sq_fin, sum_fin]

theorem sum_sq_diff_pos {a b : Fin 3 → K} (h : a ≠ b) :
    0 < ∑ c, (a c - b c) * (a c - b c) := by
  obtain ⟨c, hc⟩ := Function.ne_iff.mp h
  calc 0 < (a c - b c) * (a c - b c) := mul_self_pos.mpr (sub_ne_zero.mpr hc)
    _ ≤ _ := Finset.single_le_sum (f := fun c => (a c - b c) * (a c - b c))
        (fun c _ => mul_self_nonneg _) (Finset.mem_univ c)

theorem nearest_scan_self (x : Fin (n + 1) → Fin 3 → K) (hx : Function.Injective x)
    (i : Fin (n + 1)) :
    ∀ (l : List (Fin (n + 1))) (b : Fin (n + 1)), (b = i ∨ i ∈ l) →
      l.foldl (fun best j =>
        if Dbl.lt (dist2 (fun c => fin (x i c)) (fun c => fin (x j c)))
            (dist2 (fun c => fin (x i c)) (fun c => fin (x best c))) then j else best) b = i := by
  intro l
  induction l with
  | nil =>
    intro b hb
    rcases hb with hb | hb
    · exact hb
    · exact absurd hb (List.not_mem_nil i)
  | cons j l ih =>
    intro b hb
    rw [List.foldl_cons]
    apply ih
    simp only [dist2_fin, Dbl.lt, decide_eq_true_eq]
    by_cases hbi : b = i
    · subst hbi
      left
      have hnot : ¬ (∑ c, (x b c - x j c) * (x b c - x j c) <
          ∑ c, (x b c - x b c) * (x b c - x b c)) := by
        simp only [sub_self, mul_zero, Finset.sum_const_zero, not_lt]
        exact Finset.sum_nonneg (fun c _ => mul_self_nonneg _)
      rw [if_neg hnot]
    · rcases hb with hb | hb
      · exact absurd hb hbi
      · rcases List.mem_cons.mp hb with hij | hil
        · subst hij
          left
          have hlt : ∑ c, (x i c - x i c) * (x i c - x i c) <
              ∑ c, (x i c - x b c) * (x i c - x b c) := by
            simp only [sub_self, mul_zero, Finset.sum_const_zero]
            exact sum_sq_diff_pos (fun h => hbi (hx h).symm)
          rw [if_pos hlt]
        · right
          exact hil

/-- On finite, pairwise distinct target points the linear scan maps every
target point to its own index. -/
theorem linear_nearest_self (x : Fin (n + 1) → Fin 3 → K) (hx : Function.Injective x)
    (i : Fin (n + 1)) :
    linear_nearest (fun j c => fin (x j c)) (fun c => fin (x i c)) = i := by
  unfold linear_nearest
  exact nearest_scan_self x hx i _ 0 (Or.inr (List.mem_finRange i))

theorem exampleSph_eq :
    (exampleSph : MatrixX3d ℝ 3)
      = fun j c => fin ((fun a b : Fin 3 => if a = b then (1 : ℝ) else 0) j c) := by
  funext j c
  unfold exampleSph
  by_cases h : j = c
  · simp [h]
  · simp [h]

theorem example_nearest_self (r : Fin 3) :
    linear_nearest (exampleSph : MatrixX3d ℝ 3) (exampleSph r) = r := by
  rw [exampleSph_eq]
  apply linear_nearest_self
  intro a b h
  have ha := congrFun h a
  by_contra hab
  simp [Ne.symm hab] at ha

/-- On the octahedron the linear scan maps every vertex to itself. -/
theorem exampleOcta_nearest_self :
    ∀ r : Fin 6, linear_nearest exampleOctaSph (exampleOctaSph r) = r := by
  decide!

/-- The feature field of the example is what the normalisation of `main`
returns on doubles for the depth potential `(0, 0, 1, -1, 1, -1)`.  Every
partial sum of that vector and of its squares is a small integer, so the order
of the additions does not matter. -/
theorem exampleOctaFeature_normalized :
    ∀ i, normalize_feature_rounded fl64 sqrt64 exampleOctaDepth i = exampleOctaFeature i := by
  decide!

/-- The gradient of the feature field of the octahedron, averaged over the
faces about each vertex: zero at the poles, and `(a,0,0)`, `(0,-a,0)`,
`(-a,0,0)`, `(0,a,0)` round the equator. -/
theorem exampleOcta_vertex_gradient :
    ∀ (v : Fin 6) (c : Fin 3),
      smooth_grad exampleOctaFeature
        (fix_grad (igl_grad exampleOctaSph exampleOcta) (fin 1000000))
        (face_to_vertex exampleOcta) (smoothing_matrix exampleOcta) 0 v c
      = fin ((![![0, 0, 0], ![0, 0, 0], ![629397181890197 / 2 ^ 49, 0, 0],
          ![0, -(629397181890197 / 2 ^ 49), 0], ![-(629397181890197 / 2 ^ 49), 0, 0],
          ![0, 629397181890197 / 2 ^ 49, 0]] : Fin 6 → Fin 3 → ℚ) v c) := by
  decide!

/-- The gradient operator of the octahedron stores only finite values of
magnitude at most 1, which `fix_grad` keeps. -/
theorem exampleOcta_grad_kept :
    ∀ (i : Fin (3 * 8)) (j : Fin 6),
      fix_grad (igl_grad exampleOctaSph exampleOcta) (fin 1000000) i j
        = igl_grad exampleOctaSph exampleOcta i j ∧
      ∀ v, igl_grad exampleOctaSph exampleOcta i j = some v →
        Dbl.isFinite v = true ∧ Dbl.le (fin (-1)) v = true ∧ Dbl.le v (fin 1) = true := by
  decide!

/-- One smoothing pass turns that field into the zero field: the four
neighbours of a pole carry gradients that cancel, and so do the two equator
neighbours of an equator vertex. -/
theorem exampleOcta_gradient_one_pass :
    ∀ (v : Fin 6) (c : Fin 3),
      smooth_grad exampleOctaFeature
        (fix_grad (igl_grad exampleOctaSph exampleOcta) (fin 1000000))
        (face_to_vertex exampleOcta) (smoothing_matrix exampleOcta) 1 v c = fin 0 := by
  decide!

/-- The smoothed target gradient of the octahedron vanishes at every vertex
after the 20 passes of `main`. -/
theorem exampleOcta_gradient_zero :
    smooth_grad exampleOctaWorkspace.C2s
      (fix_grad (exampleOctaExt.grad exampleOctaWorkspace.sph2 exampleOctaWorkspace.F2)
        (fin 1000000))
      exampleOctaWorkspace.F2V2 exampleOctaWorkspace.Ltarget
      (Params.default : Params ℚ).smooth_partial_grad = fun _ _ => fin 0 := by
  have h1 : smooth_grad exampleOctaFeature
      (fix_grad (igl_grad exampleOctaSph exampleOcta) (fin 1000000))
      (face_to_vertex exampleOcta) (smoothing_matrix exampleOcta) 1 = fun _ _ => fin 0 := by
    funext v c
    exact exampleOcta_gradient_one_pass v c
  have h20 : ((20 : ℤ)).toNat = 19 + 1 := by decide
  show (fun Y => (smoothing_matrix exampleOcta : SparseMatrix ℚ 6 6).mulDense Y)^[(20 : ℤ).toNat]
      ((face_to_vertex exampleOcta : SparseMatrix ℚ 6 8).mulDense (fun f c =>
        (fix_grad (igl_grad exampleOctaSph exampleOcta) (fin 1000000)).mulVec exampleOctaFeature
          (finProdFinEquiv (c, f)))) = _
  rw [h20, Function.iterate_add_apply]
  have h1x : (fun Y => (smoothing_matrix exampleOcta : SparseMatrix ℚ 6 6).mulDense Y)^[1]
      ((face_to_vertex exampleOcta : SparseMatrix ℚ 6 8).mulDense (fun f c =>
        (fix_grad (igl_grad exampleOctaSph exampleOcta) (fin 1000000)).mulVec exampleOctaFeature
          (finProdFinEquiv (c, f)))) = fun _ _ => fin 0 := h1
  rw [h1x]
  exact Function.iterate_fixed (mulDense_zero _ (smoothing_matrix_finite exampleOcta)) _

/-- The identity scenario on the octahedron with features 0 at the poles and
`a, -a, a, -a` round the equator: the smoothed target gradient vanishes, the
residual at the north pole is zero, and the row of the north pole becomes NaN. -/
theorem identity_iteration_nan_witness :
    exampleOctaWorkspace.sph1 = exampleOctaWorkspace.sph2 ∧
    exampleOctaWorkspace.C1s = exampleOctaWorkspace.C2s ∧
    (demons_body exampleOctaExt Params.default 0 exampleOctaWorkspace).match1 0 = 0 ∧
    residual exampleOctaWorkspace.C1s exampleOctaWorkspace.C2s
      (demons_body exampleOctaExt Params.default 0 exampleOctaWorkspace).match1 0 = fin 0 ∧
    ∀ c, (demons_body exampleOctaExt Params.default 0 exampleOctaWorkspace).sph1 0 c = nan :=
  ⟨rfl, rfl,
   identity_iteration_nan exampleOctaExt Params.default 0 exampleOctaWorkspace 0 10
     (by decide!) rfl rfl ⟨0, rfl⟩ (exampleOcta_nearest_self 0)
     (fun c => by rw [exampleOcta_gradient_zero]) rfl ⟨2, by decide⟩
     (by norm_num [Params.default])⟩

/-! ### The identity scenario away from vanishing gradients -/

/-- Where the residual is zero and the gathered gradient is finite and not the
zero vector, the update direction is zero in every coordinate. -/
theorem update_direction_zero (sqrtK : K → K) (hs : ExactSqrt sqrtK) (l : K)
    (diff1 : VectorXd K m) (dC2s : MatrixX3d K n) (match1 : Fin m → Fin n) (r : Fin m)
    (hd : diff1 r = fin 0) (g : Fin 3 → K) (hg : ∀ c, dC2s (match1 r) c = fin (g c))
    (hne : ∃ c, g c ≠ 0) (c : Fin 3) :
    update_direction sqrtK (fin l) diff1 dC2s match1 r c = fin 0 := by
  have hrow : (fun c => dC2s (match1 r) c) = fun c => fin (g c) := funext hg
  have hz : 0 < ∑ c, g c * g c := by
    obtain ⟨c, hc⟩ := hne
    calc 0 < g c * g c := mul_self_pos.mpr hc
      _ ≤ _ := Finset.single_le_sum (f := fun c => g c * g c) (fun c _ => mul_self_nonneg _)
          (Finset.mem_univ c)
  have hpos := hs.sqrt_pos hz
  have hden : sqrtK (∑ c, g c * g c) + 0 * 0 * l ≠ 0 := by
    rw [mul_zero, zero_mul, add_zero]; exact hpos.ne'
  unfold update_direction scale1
  simp only []
  rw [hd, hrow, rowNorm_fin, sq_fin, fin_mul_fin, fin_add_fin, fin_div_fin _ hden, hg c,
    fin_mul_fin, zero_div, mul_zero]

/-- In the identity scenario with finite data, an exact nearest-neighbour
query and a smoothed target gradient that vanishes at no vertex, one iteration
maps every vertex to itself, finds residual 0 and cost 0, a zero update, and
leaves the source embedding unchanged. -/
theorem identity_iteration_fixed (ext : External K nF n) (par : Params K) (i : ℤ)
    (w : Workspace K nF n nF n) (hs : ExactSqrt ext.sqrtK) (hn : 0 < n)
    (x : Fin n → Fin 3 → K) (hsph1 : w.sph1 = fun j c => fin (x j c))
    (hunit : ∀ j, ∑ c, x j c * x j c = 1) (hsph2 : w.sph2 = w.sph1)
    (feat : Fin n → K) (hC1 : w.C1s = fun j => fin (feat j)) (hC2 : w.C2s = w.C1s)
    (hmatch : ∀ r, ext.findNeighbors w.sph2 (w.sph2 r) = r)
    (g : Fin n → Fin 3 → K)
    (hg : smooth_grad w.C2s (fix_grad (ext.grad w.sph2 w.F2) (fin 1000000))
      w.F2V2 w.Ltarget par.smooth_partial_grad = fun j c => fin (g j c))
    (hgne : ∀ r, ∃ c, g r c ≠ 0)
    (l t : K) (hl : par.lambda = fin l) (ht : par.demons_step = fin t)
    (hL : ∀ a b v, w.Lsource a b = some v → ∃ y, v = fin y) :
    (∀ r, (demons_body ext par i w).match1 r = r) ∧
    (∀ r, residual w.C1s w.C2s (demons_body ext par i w).match1 r = fin 0) ∧
    (demons_body ext par i w).sph1 = w.sph1 ∧
    (demons_body ext par i w).out = w.out ++ [⟨i, fin 0, fin 0⟩] := by
  have hnK : (n : K) ≠ 0 := Nat.cast_ne_zero.mpr hn.ne'
  have hm : find_correspondence ext w.sph1 w.sph2 = fun r => r := by
    funext r
    unfold find_correspondence
    rw [← hsph2]
    exact hmatch r
  have hres : residual w.C1s w.C2s (fun r => r) = fun _ => fin 0 := by
    funext r
    unfold residual
    rw [hC2, hC1, fin_sub_fin, sub_self]
  have hdir : update_direction ext.sqrtK par.lambda (fun _ => fin 0)
      (smooth_grad w.C2s (fix_grad (ext.grad w.sph2 w.F2) (fin 1000000))
        w.F2V2 w.Ltarget par.smooth_partial_grad) (fun r => r) = fun _ _ => fin 0 := by
    funext r c
    rw [hl]
    exact update_direction_zero ext.sqrtK hs l _ _ _ r rfl (g r)
      (fun c => by rw [hg]) (hgne r) c
  have hcost : cost ext.sqrtK (fun _ : Fin n => (fin 0 : Dbl K)) = fin 0 := by
    unfold cost
    simp only [sq_fin, sum_fin, mul_zero, Finset.sum_const_zero]
    rw [fin_div_fin _ hnK, zero_div, sqrt_fin _ le_rfl, hs.sqrt_zero]
  have hzero_norm : rowNorm ext.sqrtK (fun _ : Fin 3 => (fin 0 : Dbl K)) = fin 0 := by
    have := rowNorm_fin ext.sqrtK (fun _ : Fin 3 => (0 : K))
    simp only [mul_zero, Finset.sum_const_zero, hs.sqrt_zero] at this
    exact this
  have hupd : (∑ _r : Fin n, rowNorm ext.sqrtK (fun _ : Fin 3 => (fin 0 : Dbl K)))
      / fin (n : K) = fin 0 := by
    simp only [hzero_norm, sum_fin, Finset.sum_const_zero]
    rw [fin_div_fin _ hnK, zero_div]
  have hsph : rowwise_normalize ext.sqrtK
      (update_embedding w.sph1 (fun _ _ => fin 0) par.demons_step) = w.sph1 := by
    have hu : update_embedding w.sph1 (fun _ _ => fin 0) par.demons_step
        = fun j c => fin (x j c) := by
      funext j c
      unfold update_embedding
      rw [hsph1, ht, fin_mul_fin, fin_add_fin, zero_mul, add_zero]
    rw [hu, hsph1]
    funext j c
    unfold rowwise_normalize
    rw [rowNorm_fin, hunit j, hs.sqrt_one, fin_div_fin _ one_ne_zero, div_one]
  have hbody_match : (demons_body ext par i w).match1 = fun r => r := hm
  refine ⟨fun r => by rw [hbody_match], fun r => by rw [hbody_match, hres], ?_, ?_⟩
  · show rowwise_normalize ext.sqrtK (update_embedding w.sph1
      (smooth w.Lsource par.smooth_update _) par.demons_step) = w.sph1
    rw [hm, hres, hdir, smooth_zero _ hL, hsph]
  · show w.out ++ [(⟨i, cost ext.sqrtK _, _⟩ : LogRecord K)] = _
    simp only [hm, hres, hdir, smooth_zero _ hL, hcost, hupd]

/-- The gradient operator of the triangle on the coordinate axes: `2/3` in
column `c` of row `c` and `-1/3` elsewhere. -/
theorem exampleTriangle_grad (c : Fin 3) (j : Fin 3) :
    igl_grad (exampleSph : MatrixX3d ℝ 3) exampleTriangle (finProdFinEquiv (c, (0 : Fin 1))) j
      = some (fin (if c = j then 2 / 3 else -1 / 3)) := by
  have h3 : List.finRange 3 = [0, 1, 2] := by decide
  have h1 : List.finRange 1 = [0] := by decide
  fin_cases c <;> fin_cases j <;>
    simp [igl_grad, setFromTriplets, grad_triplets, grad_eperp, cross3, dot3, exampleSph,
      exampleTriangle, h3, h1, Fin.sum_univ_succ, finProdFinEquiv, fin_sub_fin, fin_mul_fin,
      fin_add_fin, zero_eq_fin, one_eq_fin, fin_div_fin_eq, neg_fin] <;> norm_num

theorem exampleTriangle_fix_grad (c : Fin 3) (j : Fin 3) :
    fix_grad (igl_grad (exampleSph : MatrixX3d ℝ 3) exampleTriangle) (fin 1000000)
      (finProdFinEquiv (c, (0 : Fin 1))) j = some (fin (if c = j then 2 / 3 else -1 / 3)) := by
  unfold fix_grad
  rw [exampleTriangle_grad]
  by_cases h : c = j
  · simp [h, Dbl.lt, Dbl.isFinite, neg_fin]; norm_num
  · simp [h, Dbl.lt, Dbl.isFinite, neg_fin]; norm_num

/-- The gradient of the feature field `(1, 0, -1)` on the triangle is `(1, 0, -1)`. -/
theorem exampleTriangle_face_gradient (f : Fin 1) (c : Fin 3) :
    (fix_grad (igl_grad (exampleSph : MatrixX3d ℝ 3) exampleTriangle) (fin 1000000)).mulVec
      exampleFeature (finProdFinEquiv (c, f)) = fin ((![1, 0, -1] : Fin 3 → ℝ) c) := by
  fin_cases f
  unfold SparseMatrix.mulVec
  simp only [Fin.zero_eta, exampleTriangle_fix_grad, storedTimes]
  fin_cases c <;>
    simp [Fin.sum_univ_succ, exampleFeature, fin_mul_fin, fin_add_fin] <;> norm_num

theorem example_gradient_finite (sqrtK : ℝ → ℝ) :
    smooth_grad (exampleWorkspace : Workspace ℝ 1 3 1 3).C2s
      (fix_grad ((exampleTriangleExt sqrtK).grad (exampleWorkspace : Workspace ℝ 1 3 1 3).sph2
        (exampleWorkspace : Workspace ℝ 1 3 1 3).F2) (fin 1000000))
      (exampleWorkspace : Workspace ℝ 1 3 1 3).F2V2 (exampleWorkspace : Workspace ℝ 1 3 1 3).Ltarget
      (Params.default : Params ℝ).smooth_partial_grad
      = fun _ c => fin ((![1, 0, -1] : Fin 3 → ℝ) c) := by
  have hface : ∀ (v : Fin 3) (c : Fin 3),
      (face_to_vertex exampleTriangle : SparseMatrix ℝ 3 1).mulDense
        (fun _ c => fin ((![1, 0, -1] : Fin 3 → ℝ) c)) v c = fin ((![1, 0, -1] : Fin 3 → ℝ) c) := by
    intro v c
    have hdeg : faceDegree exampleTriangle v = 1 := by revert v; decide
    unfold SparseMatrix.mulDense
    rw [Fin.sum_univ_one, face_to_vertex_apply exampleTriangle (by decide) v (by omega),
      if_pos (by revert v; decide), hdeg]
    simp [storedTimes]
  have hG : ∀ (f : Fin 1) (c : Fin 3),
      (fix_grad ((exampleTriangleExt sqrtK).grad (exampleWorkspace : Workspace ℝ 1 3 1 3).sph2
        (exampleWorkspace : Workspace ℝ 1 3 1 3).F2) (fin 1000000)).mulVec
        (exampleWorkspace : Workspace ℝ 1 3 1 3).C2s (finProdFinEquiv (c, f))
        = fin ((![1, 0, -1] : Fin 3 → ℝ) c) := exampleTriangle_face_gradient
  unfold smooth_grad
  simp only [hG]
  have hfg : (face_to_vertex exampleTriangle : SparseMatrix ℝ 3 1).mulDense
      (fun _ c => fin ((![1, 0, -1] : Fin 3 → ℝ) c))
      = fun _ c => fin ((![1, 0, -1] : Fin 3 → ℝ) c) := by
    funext v c; exact hface v c
  show smooth (smoothing_matrix exampleTriangle) _
    ((face_to_vertex exampleTriangle : SparseMatrix ℝ 3 1).mulDense _) = _
  rw [hfg]
  unfold smooth
  exact Function.iterate_fixed
    (smoothing_pass_const exampleTriangle (by decide) (fun c => fin ((![1, 0, -1] : Fin 3 → ℝ) c))) _

/-- The identity scenario on one triangle, where the smoothed gradient
`(1, 0, -1)` vanishes at no vertex: the iteration changes nothing and reports
cost 0 and update 0. -/
theorem identity_iteration_fixed_example :
    (demons_body (exampleTriangleExt Real.sqrt) Params.default 0
      (exampleWorkspace : Workspace ℝ 1 3 1 3)).sph1 = exampleSph ∧
    (demons_body (exampleTriangleExt Real.sqrt) Params.default 0
      (exampleWorkspace : Workspace ℝ 1 3 1 3)).out = [⟨0, fin 0, fin 0⟩] := by
  have h := identity_iteration_fixed (exampleTriangleExt Real.sqrt) Params.default 0
    (exampleWorkspace : Workspace ℝ 1 3 1 3) exactSqrt_real (by norm_num)
    (fun a b => if a = b then 1 else 0) exampleSph_eq
    (by intro j; simp [Finset.sum_ite_eq]) rfl
    ![1, 0, -1] (by funext j; fin_cases j <;> rfl) rfl example_nearest_self
    (fun _ => ![1, 0, -1]) (example_gradient_finite Real.sqrt) (fun _ => ⟨0, by norm_num⟩)
    1 (1 / 10) rfl rfl (smoothing_matrix_finite exampleTriangle)
  exact ⟨h.2.2.1, h.2.2.2⟩

end Identity

/-! ## The gradient sanitiser, applied twice -/

section FixGradTwice

variable {K : Type} [LinearOrderedField K] {m n : ℕ}

/-- The value `fix_grad` leaves in a stored entry that held `v`. -/
theorem fix_grad_apply (G : SparseMatrix K m n) (t : Dbl K) (i : Fin m) (j : Fin n) :
    fix_grad G t i j = (G i j).map (fun v =>
      if Dbl.lt v (-t) || Dbl.lt t v || !Dbl.isFinite v then 0 else v) := rfl

theorem fix_value_idem (t v : Dbl K) :
    (fun v : Dbl K => if Dbl.lt v (-t) || Dbl.lt t v || !Dbl.isFinite v then 0 else v)
      ((fun v : Dbl K => if Dbl.lt v (-t) || Dbl.lt t v || !Dbl.isFinite v then 0 else v) v)
    = (fun v : Dbl K => if Dbl.lt v (-t) || Dbl.lt t v || !Dbl.isFinite v then 0 else v) v := by
  dsimp only
  by_cases h : (Dbl.lt v (-t) || Dbl.lt t v || !Dbl.isFinite v) = true
  · rw [if_pos h]
    split <;> rfl
  · rw [if_neg h, if_neg h]

/-- C11: `fix_grad` is idempotent: for every sparse matrix `G` and every
threshold `t` (finite or not), `fix_grad (fix_grad G t) t` equals
`fix_grad G t` entry for entry. -/
theorem fix_grad_idempotent (G : SparseMatrix K m n) (t : Dbl K) :
    fix_grad (fix_grad G t) t = fix_grad G t := by
  funext i j
  rw [fix_grad_apply (fix_grad G t), fix_grad_apply G]
  cases G i j with
  | none => rfl
  | some v =>
    simp only [Option.map_some', Option.some.injEq]
    exact fix_value_idem t v

end FixGradTwice

/-! ## What an iteration leaves alone -/

section Frame

variable {K : Type} [LinearOrderedField K] {nF1 n1 nF2 n2 : ℕ}

theorem demons_body_fixed (ext : External K nF2 n2) (par : Params K) (i : ℤ)
    (w : Workspace K nF1 n1 nF2 n2) : (demons_body ext par i w).fixed = w.fixed := rfl

theorem demons_loop_fixed (ext : External K nF2 n2) (par : Params K) :
    ∀ (d : ℕ) (i : ℤ) (w : Workspace K nF1 n1 nF2 n2), (par.demons_iter - i).toNat = d →
      (demons_loop ext par i w).fixed = w.fixed := by
  intro d
  induction d with
  | zero =>
    intro i w hd
    have hi : ¬ i < par.demons_iter := by omega
    rw [demons_loop, if_neg hi]
  | succ d ih =>
    intro i w hd
    have hi : i < par.demons_iter := by omega
    rw [demons_loop, if_pos hi, ih (i + 1) _ (by omega), demons_body_fixed]

/-- C13: each loop iteration mutates only the source embedding: the target
embedding `sph2`, both feature fields, both face lists, both smoothing
operators and both face-to-vertex operators have the same value after an
iteration as before it, and hence after the whole loop, entered at any
counter value.  The other variables an iteration assigns, `Gtarget`, `dC2s`
and `match1`, are written before they are read: what an iteration computes
does not depend on the values they hold when it starts. -/
theorem demons_iteration_frame (ext : External K nF2 n2) (par : Params K) (i : ℤ)
    (w : Workspace K nF1 n1 nF2 n2) :
    ((demons_body ext par i w).F1 = w.F1 ∧ (demons_body ext par i w).F2 = w.F2 ∧
      (demons_body ext par i w).sph2 = w.sph2 ∧ (demons_body ext par i w).C1s = w.C1s ∧
      (demons_body ext par i w).C2s = w.C2s ∧ (demons_body ext par i w).Lsource = w.Lsource ∧
      (demons_body ext par i w).Ltarget = w.Ltarget ∧ (demons_body ext par i w).F2V1 = w.F2V1 ∧
      (demons_body ext par i w).F2V2 = w.F2V2) ∧
    (demons_loop ext par i w).fixed = w.fixed ∧
    (∀ (G : SparseMatrix K (3 * nF2) n2) (D : MatrixX3d K n2) (M : Fin n1 → Fin n2),
      demons_body ext par i { w with Gtarget := G, dC2s := D, match1 := M }
        = demons_body ext par i w) :=
  ⟨⟨rfl, rfl, rfl, rfl, rfl, rfl, rfl, rfl, rfl⟩,
   demons_loop_fixed ext par (par.demons_iter - i).toNat i w rfl,
   fun _ _ _ => rfl⟩

end Frame

/-! ## Computing the target gradient once -/

section HoistedProofs

variable {K : Type} [LinearOrderedField K] {nF1 n1 nF2 n2 : ℕ}

theorem target_gradient_field_of_fixed (ext : External K nF2 n2) (par : Params K)
    (w w' : Workspace K nF1 n1 nF2 n2) (h : w'.fixed = w.fixed) :
    target_gradient_operator ext w' = target_gradient_operator ext w ∧
    target_gradient_field ext par w' = target_gradient_field ext par w := by
  simp only [Workspace.fixed, Prod.mk.injEq] at h
  obtain ⟨_, hF2, hsph2, _, hC2, _, hLt, _, hF2V2⟩ := h
  unfold target_gradient_field target_gradient_operator
  rw [hF2, hsph2, hC2, hLt, hF2V2]
  exact ⟨rfl, rfl⟩

theorem with_target_gradient_body (ext : External K nF2 n2) (par : Params K) (i : ℤ)
    (w : Workspace K nF1 n1 nF2 n2) :
    demons_body_given ext par i (with_target_gradient ext par w)
      = with_target_gradient ext par (demons_body ext par i w) := rfl

theorem demons_loop_given_eq (ext : External K nF2 n2) (par : Params K) :
    ∀ (d : ℕ) (i : ℤ) (w : Workspace K nF1 n1 nF2 n2), (par.demons_iter - i).toNat = d →
      demons_loop_given ext par i (with_target_gradient ext par w)
        = with_target_gradient ext par (demons_loop ext par i w) := by
  intro d
  induction d with
  | zero =>
    intro i w hd
    have hi : ¬ i < par.demons_iter := by omega
    rw [demons_loop_given, demons_loop, if_neg hi, if_neg hi]
  | succ d ih =>
    intro i w hd
    have hi : i < par.demons_iter := by omega
    rw [demons_loop_given, demons_loop, if_pos hi, if_pos hi, with_target_gradient_body]
    exact ih (i + 1) _ (by omega)

/-- C17: the smoothed target gradient field `dC2s` that the loop body computes
is the same in every iteration (it is the field computed from the workspace
the loop was entered with), and the loop that computes it once before the
first iteration ends, for every iteration count, with the same source
embedding, the same correspondence and the same output lines (cost and
update of every iteration) as the loop as written. -/
theorem demons_loop_hoisted_agrees (ext : External K nF2 n2) (par : Params K) (i : ℤ)
    (w : Workspace K nF1 n1 nF2 n2) :
    (demons_body ext par i w).dC2s = target_gradient_field ext par w ∧
    target_gradient_field ext par (demons_loop ext par i w) = target_gradient_field ext par w ∧
    (demons_loop_hoisted ext par w).sph1 = (demons_loop ext par 0 w).sph1 ∧
    (demons_loop_hoisted ext par w).match1 = (demons_loop ext par 0 w).match1 ∧
    (demons_loop_hoisted ext par w).out = (demons_loop ext par 0 w).out := by
  have hloop := demons_loop_given_eq ext par (par.demons_iter - 0).toNat 0 w rfl
  refine ⟨rfl, ?_, ?_, ?_, ?_⟩
  · exact (target_gradient_field_of_fixed ext par w _
      (demons_loop_fixed ext par (par.demons_iter - i).toNat i w rfl)).2
  · unfold demons_loop_hoisted; rw [hloop]; rfl
  · unfold demons_loop_hoisted; rw [hloop]; rfl
  · unfold demons_loop_hoisted; rw [hloop]; rfl

end HoistedProofs

/-! ## Smoothing stays within the range of its input -/

section Range

variable {K : Type} [LinearOrderedField K] {nF nV : ℕ}

/-- One smoothing pass on a finite field: every vertex receives the mean of
the values at its neighbours. -/
theorem smoothing_pass_fin (F : Faces nF nV) (x : Fin nV → Fin 3 → K) :
    (smoothing_matrix F : SparseMatrix K nV nV).mulDense (fun v c => fin (x v c))
      = fun v c => fin ((∑ w ∈ Finset.univ.filter (fun w => adjacent F v w), x w c)
          / (vertexDegree F v : K)) := by
  funext v c
  unfold SparseMatrix.mulDense
  have hterm : ∀ w, storedTimes ((smoothing_matrix F : SparseMatrix K nV nV) v w) (fin (x w c))
      = fin (if adjacent F v w then 1 / (vertexDegree F v : K) * x w c else 0) := by
    intro w
    rw [smoothing_matrix_apply]
    by_cases h : adjacent F v w
    · simp [h, storedTimes]
    · simp [h, storedTimes, zero_eq_fin]
  simp only [hterm, sum_fin]
  congr 1
  rw [← Finset.sum_filter, ← Finset.mul_sum]
  ring

theorem mean_within_bounds {ι : Type} (s : Finset ι) (hs : s.Nonempty) (f : ι → K) (lo hi : K)
    (h : ∀ i ∈ s, lo ≤ f i ∧ f i ≤ hi) :
    lo ≤ (∑ i ∈ s, f i) / (s.card : K) ∧ (∑ i ∈ s, f i) / (s.card : K) ≤ hi := by
  have hc : (0 : K) < (s.card : K) := by exact_mod_cast Finset.card_pos.mpr hs
  constructor
  · rw [le_div_iff₀ hc]
    have := Finset.card_nsmul_le_sum s f lo (fun i hi' => (h i hi').1)
    rw [nsmul_eq_mul] at this
    linarith
  · rw [div_le_iff₀ hc]
    have := Finset.sum_le_card_nsmul s f hi (fun i hi' => (h i hi').2)
    rw [nsmul_eq_mul] at this
    linarith

/-- Bounds that hold for every entry of a column of a finite field hold for
every entry of that column after any number of smoothing passes. -/
theorem smooth_passes_bounded (F : Faces nF nV) (hadj : ∀ v, ∃ w, adjacent F v w)
    (lo hi : Fin 3 → K) (k : ℕ) :
    ∀ x : Fin nV → Fin 3 → K, (∀ v c, lo c ≤ x v c ∧ x v c ≤ hi c) →
      ∃ y : Fin nV → Fin 3 → K,
        (fun Y => (smoothing_matrix F : SparseMatrix K nV nV).mulDense Y)^[k]
          (fun v c => fin (x v c)) = (fun v c => fin (y v c)) ∧
        ∀ v c, lo c ≤ y v c ∧ y v c ≤ hi c := by
  induction k with
  | zero => intro x hx; exact ⟨x, rfl, hx⟩
  | succ k ih =>
    intro x hx
    rw [Function.iterate_succ_apply, smoothing_pass_fin]
    apply ih
    intro v c
    obtain ⟨w, hw⟩ := hadj v
    exact mean_within_bounds _ ⟨w, Finset.mem_filter.mpr ⟨Finset.mem_univ w, hw⟩⟩
      (fun w => x w c) (lo c) (hi c) (fun w _ => hx w c)

/-- C18, for finite fields, in exact arithmetic: on every mesh in which every
vertex has an adjacent vertex, for every finite per-vertex field `x` (three
columns, each a scalar field) and every number of passes `k ≥ 0`, the field
`L^k x` is finite and each of its entries lies between two entries of the same
column of `x`, hence between the minimum and the maximum of that column.  An
infinite entry, or the rounding of doubles, breaks it. -/
theorem smooth_within_range (F : Faces nF nV) (hadj : ∀ v, ∃ w, adjacent F v w)
    (x : Fin nV → Fin 3 → K) (k : ℕ) :
    ∃ y : Fin nV → Fin 3 → K,
      smooth (smoothing_matrix F : SparseMatrix K nV nV) (k : ℤ) (fun v c => fin (x v c))
        = (fun v c => fin (y v c)) ∧
      ∀ v c, (∃ u, x u c ≤ y v c) ∧ (∃ u, y v c ≤ x u c) := by
  by_cases hne : Nonempty (Fin nV)
  · have hmin : ∀ c, ∃ u, ∀ v, x u c ≤ x v c := by
      intro c
      obtain ⟨u, _, hu⟩ := Finset.exists_min_image Finset.univ (fun v => x v c)
        ⟨hne.some, Finset.mem_univ _⟩
      exact ⟨u, fun v => hu v (Finset.mem_univ v)⟩
    have hmax : ∀ c, ∃ u, ∀ v, x v c ≤ x u c := by
      intro c
      obtain ⟨u, _, hu⟩ := Finset.exists_max_image Finset.univ (fun v => x v c)
        ⟨hne.some, Finset.mem_univ _⟩
      exact ⟨u, fun v => hu v (Finset.mem_univ v)⟩
    choose umin humin using hmin
    choose umax humax using hmax
    obtain ⟨y, hy, hb⟩ := smooth_passes_bounded F hadj (fun c => x (umin c) c)
      (fun c => x (umax c) c) k x (fun v c => ⟨humin c v, humax c v⟩)
    refine ⟨y, ?_, fun v c => ⟨⟨umin c, (hb v c).1⟩, ⟨umax c, (hb v c).2⟩⟩⟩
    unfold smooth
    simpa using hy
  · refine ⟨x, ?_, fun v => absurd ⟨v⟩ hne⟩
    funext v
    exact absurd ⟨v⟩ hne

/-- Three passes over the tetrahedron on a field whose columns are not constant. -/
theorem smooth_within_range_witness :
    (∀ v, ∃ w, adjacent exampleTetra v w) ∧
    ∃ y : Fin 4 → Fin 3 → ℚ,
      smooth (smoothing_matrix exampleTetra : SparseMatrix ℚ 4 4) ((3 : ℕ) : ℤ)
        (fun v c => fin (exampleField v c)) = (fun v c => fin (y v c)) ∧
      ∀ v c, (∃ u, exampleField u c ≤ y v c) ∧ (∃ u, y v c ≤ exampleField u c) :=
  ⟨by decide, smooth_within_range exampleTetra (by decide) exampleField 3⟩

end Range

/-! ## The gradient sanitiser on compressed storage -/

section CompressedProofs

variable {K : Type} [LinearOrderedField K]

theorem getElem?_some_lt {α : Type} {l : List α} {p : ℕ} {e : α} (he : l[p]? = some e) :
    ∃ hp : p < l.length, l[p] = e := by
  by_cases hp : p < l.length
  · rw [List.getElem?_eq_getElem hp] at he
    exact ⟨hp, Option.some.inj he⟩
  · rw [List.getElem?_eq_none (by omega)] at he
    exact absurd he (by simp)

/-- On a column that stores no row twice, `coeffRef` at the row of a stored
entry returns the position of that entry and inserts nothing. -/
theorem coeffRef_stored (col : SparseColumn K) (hnd : (col.map Prod.fst).Nodup) (p : ℕ)
    (e : ℕ × Dbl K) (he : col[p]? = some e) : coeffRef col e.1 = (p, col) := by
  obtain ⟨hp, hpe⟩ := getElem?_some_lt he
  have hidx : (col.map Prod.fst).indexOf e.1 = p := by
    have h := List.indexOf_getElem hnd p (by simpa using hp)
    simpa [hpe] using h
  unfold coeffRef
  simp only [hidx, hp, if_true]

theorem fix_grad_at_stored (t : Dbl K) (col : SparseColumn K)
    (hnd : (col.map Prod.fst).Nodup) (p : ℕ) (e : ℕ × Dbl K) (he : col[p]? = some e) :
    fix_grad_at t col p = col.set p (e.1, sanitize_value t e.2) := by
  unfold fix_grad_at
  rw [he]
  simp only [coeffRef_stored col hnd p e he, he, Option.map_some', Option.getD_some]
  unfold sanitize_value
  split
  · rfl
  · apply List.ext_getElem?
    intro q
    rw [List.getElem?_set]
    by_cases hq : p = q
    · subst hq
      obtain ⟨hp, _⟩ := getElem?_some_lt he
      simp [hp, he]
    · simp [hq]

/-- After the iterator has visited the first `k` storage positions of a
column, these hold their sanitised values and the others are untouched. -/
theorem fix_grad_visited (t : Dbl K) (col : SparseColumn K) (hnd : (col.map Prod.fst).Nodup) :
    ∀ k, k ≤ col.length → ∀ q,
      ((List.range k).foldl (fix_grad_at t) col)[q]?
        = if q < k then (col[q]?).map (fun e => (e.1, sanitize_value t e.2)) else col[q]? := by
  intro k
  induction k with
  | zero => intro _ q; simp
  | succ k ih =>
    intro hk q
    have ihk := ih (by omega)
    have hrows : (((List.range k).foldl (fix_grad_at t) col).map Prod.fst) = col.map Prod.fst := by
      apply List.ext_getElem?
      intro r
      rw [List.getElem?_map, List.getElem?_map, ihk r]
      split
      · cases col[r]? <;> rfl
      · rfl
    have hcur : ((List.range k).foldl (fix_grad_at t) col)[k]? = col[k]? := by
      rw [ihk k, if_neg (lt_irrefl k)]
    have hk' : k < col.length := by omega
    have hcol : col[k]? = some col[k] := List.getElem?_eq_getElem hk'
    rw [List.range_succ, List.foldl_append, List.foldl_cons, List.foldl_nil,
      fix_grad_at_stored t _ (hrows ▸ hnd) k col[k] (hcur.trans hcol), List.getElem?_set]
    have hlen : ((List.range k).foldl (fix_grad_at t) col).length = col.length := by
      have := congrArg List.length hrows
      simpa using this
    by_cases hq : k = q
    · subst hq
      simp [hlen, hk', hcol]
    · rw [if_neg hq, ihk q]
      by_cases hlt : q < k
      · rw [if_pos hlt, if_pos (by omega)]
      · rw [if_neg hlt, if_neg (by omega)]

/-- On a column that stores no row twice, the inner loop of `fix_grad`
replaces every stored value by its sanitised value and touches nothing else. -/
theorem fix_grad_column_eq (t : Dbl K) (col : SparseColumn K)
    (hnd : (col.map Prod.fst).Nodup) :
    fix_grad_column t col = col.map (fun e => (e.1, sanitize_value t e.2)) := by
  apply List.ext_getElem?
  intro q
  unfold fix_grad_column
  rw [fix_grad_visited t col hnd col.length le_rfl q, List.getElem?_map]
  by_cases hq : q < col.length
  · rw [if_pos hq]
  · rw [if_neg hq, List.getElem?_eq_none (by omega)]
    rfl

theorem fix_grad_compressed_eq (G : CompressedMatrix K) (hG : G.WellFormed) (t : Dbl K) :
    fix_grad_compressed G t = G.map (fun col => col.map (fun e => (e.1, sanitize_value t e.2))) := by
  unfold fix_grad_compressed
  apply List.map_congr_left
  intro col hcol
  exact fix_grad_column_eq t col (hG col hcol)

/-- The statement-by-statement model of `fix_grad` on well-formed compressed
storage computes the matrix that `fix_grad` describes position by position. -/
theorem fix_grad_compressed_toSparse (G : CompressedMatrix K) (hG : G.WellFormed) (t : Dbl K)
    (m n : ℕ) : (fix_grad_compressed G t).toSparse m n = fix_grad (G.toSparse m n) t := by
  funext i j
  rw [fix_grad_compressed_eq G hG t]
  unfold CompressedMatrix.toSparse fix_grad
  by_cases hj : (j : ℕ) < G.length
  · simp only [List.getD_eq_getElem?_getD, List.getElem?_map, List.getElem?_eq_getElem hj,
      Option.map_some', Option.getD_some, List.find?_map, Option.map_map]
    rfl
  · simp [List.getD_eq_getElem?_getD, List.getElem?_eq_none (by omega : G.length ≤ (j : ℕ))]

theorem sanitize_value_of_within (t v : Dbl K) (hfin : Dbl.isFinite v = true)
    (hlo : Dbl.le (-t) v = true) (hhi : Dbl.le v t = true) : sanitize_value t v = v := by
  unfold sanitize_value
  cases v with
  | fin a =>
    cases t with
    | fin b =>
      simp only [Dbl.le, neg_fin, decide_eq_true_eq] at hlo hhi
      have h1 : ¬ a < -b := not_lt.mpr hlo
      have h2 : ¬ b < a := not_lt.mpr hhi
      simp [Dbl.lt, Dbl.isFinite, h1, h2]
    | pinf => simp [Dbl.lt, Dbl.isFinite, Neg.neg, Dbl.neg]
    | ninf => simp [Dbl.le, Neg.neg, Dbl.neg] at hlo
    | nan => simp [Dbl.le] at hhi
  | pinf => simp [Dbl.isFinite] at hfin
  | ninf => simp [Dbl.isFinite] at hfin
  | nan => simp [Dbl.isFinite] at hfin

/-- C12: `fix_grad` changes values only: for every sparse matrix `G` in
compressed storage (no column stores a row twice) and every threshold `t`,
the stored (row, column) positions of `G` are the same, in the same storage
order, before and after `fix_grad(G, t)`; every stored entry that is finite
with `-t <= value <= t` keeps its value; and the matrix after the call is the
one that the position-by-position description `fix_grad` gives. -/
theorem fix_grad_changes_values_only (G : CompressedMatrix K) (hG : G.WellFormed) (t : Dbl K) :
    (fix_grad_compressed G t).pattern = G.pattern ∧
    (∀ j p r v, G.entry j p = some (r, v) → Dbl.isFinite v = true →
      Dbl.le (-t) v = true → Dbl.le v t = true →
      (fix_grad_compressed G t).entry j p = some (r, v)) ∧
    (∀ m n, (fix_grad_compressed G t).toSparse m n = fix_grad (G.toSparse m n) t) := by
  refine ⟨?_, ?_, fun m n => fix_grad_compressed_toSparse G hG t m n⟩
  · rw [fix_grad_compressed_eq G hG t]
    unfold CompressedMatrix.pattern
    rw [List.map_map]
    apply List.map_congr_left
    intro col _
    simp only [Function.comp, List.map_map]
    rfl
  · intro j p r v he hfin hlo hhi
    rw [fix_grad_compressed_eq G hG t]
    unfold CompressedMatrix.entry at he ⊢
    rw [List.getElem?_map]
    cases hj : G[j]? with
    | none => rw [hj] at he; simp at he
    | some col =>
      rw [hj] at he
      simp only [Option.some_bind] at he
      simp only [Option.map_some', Option.some_bind, List.getElem?_map, he,
        sanitize_value_of_within t v hfin hlo hhi]

theorem exampleCompressed_wellFormed : exampleCompressed.WellFormed := by
  unfold CompressedMatrix.WellFormed exampleCompressed
  decide

/-- The compressed example with threshold 3: the entry 2 in row 3 of column 0 is kept. -/
theorem fix_grad_changes_values_only_witness :
    exampleCompressed.WellFormed ∧
    (fix_grad_compressed exampleCompressed (fin 3)).pattern = exampleCompressed.pattern ∧
    (fix_grad_compressed exampleCompressed (fin 3)).entry 0 2 = some (3, fin 2) :=
  have h := fix_grad_changes_values_only exampleCompressed exampleCompressed_wellFormed (fin 3)
  ⟨exampleCompressed_wellFormed, h.1, h.2.1 0 2 3 (fin 2) rfl rfl (by simp [Dbl.le]; norm_num)
    (by simp [Dbl.le]; norm_num)⟩

end CompressedProofs

/-! ## The output file is not overwritten -/

section Clobber

variable {K : Type} [LinearOrderedField K]

/-- C15: when source, target and output are all given, the output path
exists and the clobber flag is not set, `main` returns exit code 1 and its
only effect is the diagnostic message: it has read no mesh, solved for no
feature and written no file. -/
theorem main_refuses_to_clobber (world : World K) (opt : Options K)
    (source target output : String) (hs : opt.source = some source)
    (ht : opt.target = some target) (ho : opt.output = some output)
    (hc : opt.clobber = false) (he : world.access output = true) :
    main world opt = (1, [Event.stderr (output ++ " Exists!")]) := by
  unfold main
  rw [hs, ht, ho]
  simp only [hc, he, Bool.not_false, Bool.and_self, if_true]

/-- The default command line in a world where the output path exists. -/
theorem main_refuses_to_clobber_witness :
    (exampleOptions : Options ℚ).source = some "source.ply" ∧
    (exampleOptions : Options ℚ).clobber = false ∧
    (exampleWorld : World ℚ).access "out.ply" = true ∧
    main (exampleWorld : World ℚ) exampleOptions
      = (1, [Event.stderr ("out.ply" ++ " Exists!")]) :=
  ⟨rfl, rfl, rfl,
   main_refuses_to_clobber (exampleWorld : World ℚ) exampleOptions "source.ply" "target.ply"
     "out.ply" rfl rfl rfl rfl rfl⟩

end Clobber

/-! ## The table reader -/

section TableReaderProofs

variable {K : Type}

theorem mem_cell_order (rows cols i j : ℕ) :
    (i, j) ∈ cell_order rows cols ↔ i < rows ∧ j < cols := by
  unfold cell_order
  simp only [List.mem_flatMap, List.mem_range, List.mem_map, Prod.mk.injEq]
  constructor
  · rintro ⟨a, ha, b, hb, rfl, rfl⟩
    exact ⟨ha, hb⟩
  · rintro ⟨hi, hj⟩
    exact ⟨i, hi, j, hj, rfl, rfl⟩

/-- When the loops run to their end, every visited cell was converted, the
sizes are untouched and `M` holds the converted value of every visited cell. -/
theorem fill_cells_done (doc : CsvDocument K) :
    ∀ (l : List (ℕ × ℕ)) (M M' : DynMatrix K), fill_cells doc l M = (M', none) →
      M'.rows = M.rows ∧ M'.cols = M.cols ∧
      (∀ c ∈ l, doc.getCell c.2 c.1 = Except.ok (M'.coeff c.1 c.2)) ∧
      (∀ a b, doc.getCell b a = Except.ok (M.coeff a b) →
        doc.getCell b a = Except.ok (M'.coeff a b)) := by
  intro l
  induction l with
  | nil =>
    intro M M' h
    simp only [fill_cells, Prod.mk.injEq, and_true] at h
    subst h
    exact ⟨rfl, rfl, fun c hc => absurd hc (List.not_mem_nil c), fun _ _ h => h⟩
  | cons c l ih =>
    intro M M' h
    obtain ⟨i, j⟩ := c
    unfold fill_cells at h
    cases hcell : doc.getCell j i with
    | error e => rw [hcell] at h; simp at h
    | ok v =>
      rw [hcell] at h
      obtain ⟨hr, hc, hl, hkeep⟩ := ih (M.assign i j v) M' h
      have hnew : doc.getCell j i = Except.ok (M'.coeff i j) := by
        apply hkeep
        rw [hcell]
        simp [DynMatrix.assign]
      refine ⟨hr, hc, ?_, ?_⟩
      · intro c hc'
        rcases List.mem_cons.mp hc' with rfl | hc'
        · exact hnew
        · exact hl c hc'
      · intro a b hab
        by_cases hab' : a = i ∧ b = j
        · obtain ⟨rfl, rfl⟩ := hab'
          exact hnew
        · apply hkeep
          rw [hab]
          simp [DynMatrix.assign, hab']

/-- The loops run to their end exactly when every cell to visit can be converted. -/
theorem fill_cells_none_iff (doc : CsvDocument K) :
    ∀ (l : List (ℕ × ℕ)) (M : DynMatrix K),
      (fill_cells doc l M).2 = none ↔ ∀ c ∈ l, ∃ v, doc.getCell c.2 c.1 = Except.ok v := by
  intro l
  induction l with
  | nil => intro M; simp [fill_cells]
  | cons c l ih =>
    intro M
    obtain ⟨i, j⟩ := c
    unfold fill_cells
    cases hcell : doc.getCell j i with
    | error e =>
      constructor
      · intro h
        exact absurd h (by simp)
      · intro hall
        obtain ⟨v, hv⟩ := hall (i, j) (List.mem_cons_self _ _)
        rw [hcell] at hv
        exact Except.noConfusion hv
    | ok v =>
      simp only [ih, List.mem_cons, forall_eq_or_imp, hcell, Except.ok.injEq, exists_eq', true_and]

/-- What stops the loops early was thrown by a cell conversion. -/
theorem fill_cells_thrown (doc : CsvDocument K) :
    ∀ (l : List (ℕ × ℕ)) (M : DynMatrix K) (e : Thrown), (fill_cells doc l M).2 = some e →
      ∃ i j, doc.getCell j i = Except.error e := by
  intro l
  induction l with
  | nil => intro M e h; simp [fill_cells] at h
  | cons c l ih =>
    intro M e h
    obtain ⟨i, j⟩ := c
    unfold fill_cells at h
    cases hcell : doc.getCell j i with
    | error e' =>
      rw [hcell] at h
      simp only [Option.some.injEq] at h
      exact ⟨i, j, by rw [hcell, h]⟩
    | ok v =>
      rw [hcell] at h
      exact ih _ e h

/-- C16: when the parser and the cell conversions throw nothing but
`std::exception`, `igl::readCSV` propagates no exception to its caller: it
returns, and it returns true exactly when the document was parsed and every
cell was converted; then `M` has one row per data row and one column per data
column, `M(i,j)` is the cell at row `i`, column `j`, and `header` holds the
column names; when it returns false, `header` is unchanged. -/
theorem readCSV_contract (open_document : String → ℤ → Except Thrown (CsvDocument K))
    (fresh : ℕ → ℕ → Dbl K) (csv_file : String) (M : DynMatrix K) (header : List String)
    (skip_header : Bool)
    (hopen : ∀ e, open_document csv_file (if skip_header then -1 else 0) = Except.error e →
      ∃ what, e = Thrown.std_exception what)
    (hcell : ∀ doc, open_document csv_file (if skip_header then -1 else 0) = Except.ok doc →
      ∀ i j e, doc.getCell j i = Except.error e → ∃ what, e = Thrown.std_exception what) :
    ∃ res, readCSV open_document fresh csv_file M header skip_header = Except.ok res ∧
      (res.returned = true ↔
        ∃ doc, open_document csv_file (if skip_header then -1 else 0) = Except.ok doc ∧
          ∀ i j, i < doc.rowCount → j < doc.columnCount → ∃ v, doc.getCell j i = Except.ok v) ∧
      (res.returned = true →
        ∀ doc, open_document csv_file (if skip_header then -1 else 0) = Except.ok doc →
          res.M.rows = doc.rowCount ∧ res.M.cols = doc.columnCount ∧
          (∀ i j, i < doc.rowCount → j < doc.columnCount →
            doc.getCell j i = Except.ok (res.M.coeff i j)) ∧
          res.header = doc.columnNames) ∧
      (res.returned = false → res.header = header) := by
  unfold readCSV
  cases hdoc : open_document csv_file (if skip_header then -1 else 0) with
  | error e =>
    obtain ⟨what, rfl⟩ := hopen e hdoc
    refine ⟨⟨false, M, header, _⟩, rfl, ?_, ?_, fun _ => rfl⟩
    · constructor
      · intro h; exact absurd h (by simp)
      · rintro ⟨doc, hd, _⟩; exact Except.noConfusion hd
    · intro h; exact absurd h (by simp)
  | ok doc =>
    dsimp only
    cases hfill : fill_cells doc (cell_order doc.rowCount doc.columnCount)
        ⟨doc.rowCount, doc.columnCount, fresh⟩ with
    | mk M' thrown =>
      cases thrown with
      | none =>
        obtain ⟨hr, hc, hl, _⟩ := fill_cells_done doc _ _ M' hfill
        have hall := (fill_cells_none_iff doc (cell_order doc.rowCount doc.columnCount)
          ⟨doc.rowCount, doc.columnCount, fresh⟩).mp (by rw [hfill])
        refine ⟨⟨true, M', doc.columnNames, []⟩, rfl, ?_, ?_, ?_⟩
        · constructor
          · intro _
            exact ⟨doc, rfl, fun i j hi hj =>
              hall (i, j) ((mem_cell_order _ _ i j).mpr ⟨hi, hj⟩)⟩
          · intro _; rfl
        · intro _ doc' hdoc'
          obtain rfl : doc = doc' := Except.ok.inj hdoc'
          exact ⟨hr, hc, fun i j hi hj => hl (i, j) ((mem_cell_order _ _ i j).mpr ⟨hi, hj⟩),
            rfl⟩
        · intro h; exact absurd h (by simp)
      | some e =>
        obtain ⟨i, j, hij⟩ := fill_cells_thrown doc _ _ e (by rw [hfill])
        obtain ⟨what, rfl⟩ := hcell doc hdoc i j e hij
        refine ⟨⟨false, M', header, _⟩, rfl, ?_, ?_, fun _ => rfl⟩
        · constructor
          · intro h; exact absurd h (by simp)
          · rintro ⟨doc', hdoc', hall⟩
            obtain rfl : doc = doc' := Except.ok.inj hdoc'
            have hnone := (fill_cells_none_iff doc (cell_order doc.rowCount doc.columnCount)
              ⟨doc.rowCount, doc.columnCount, fresh⟩).mpr
              (fun c hc => hall c.1 c.2 ((mem_cell_order _ _ c.1 c.2).mp hc).1
                ((mem_cell_order _ _ c.1 c.2).mp hc).2)
            rw [hfill] at hnone
            exact absurd hnone (by simp)
        · intro h; exact absurd h (by simp)

/-- A parser that throws nothing, on a table with one data row. -/
theorem readCSV_contract_witness :
    (∀ e, exampleParser "table.csv" (if false then -1 else 0) = Except.error e →
      ∃ what, e = Thrown.std_exception what) ∧
    ∃ res, readCSV exampleParser (fun _ _ => 0) "table.csv" ⟨0, 0, fun _ _ => 0⟩ [] false
        = Except.ok res ∧
      (res.returned = true ↔
        ∃ doc, exampleParser "table.csv" (if false then -1 else 0) = Except.ok doc ∧
          ∀ i j, i < doc.rowCount → j < doc.columnCount → ∃ v, doc.getCell j i = Except.ok v) ∧
      (res.returned = true →
        ∀ doc, exampleParser "table.csv" (if false then -1 else 0) = Except.ok doc →
          res.M.rows = doc.rowCount ∧ res.M.cols = doc.columnCount ∧
          (∀ i j, i < doc.rowCount → j < doc.columnCount →
            doc.getCell j i = Except.ok (res.M.coeff i j)) ∧
          res.header = doc.columnNames) ∧
      (res.returned = false → res.header = []) :=
  ⟨fun e h => Except.noConfusion h,
   readCSV_contract exampleParser (fun _ _ => 0) "table.csv" ⟨0, 0, fun _ _ => 0⟩ [] false
     (fun e h => Except.noConfusion h)
     (fun doc hdoc i j e h => by
       obtain rfl : _ = doc := Except.ok.inj hdoc
       exact Except.noConfusion h)⟩

end TableReaderProofs

/-! ## The metric of the correspondence search -/

section MetricProofs

variable {K : Type} [LinearOrderedField K] {n m nF : ℕ}

theorem main_ignores_SO3 (world : World K) (opt : Options K) (SO3 : Bool) :
    main world { opt with SO3 := SO3 } = main world opt := rfl

end MetricProofs

/-! ## The rounding of binary64 -/

section RoundingProofs

open Dbl

theorem log2Nat_spec : ∀ (fuel n : ℕ), 1 ≤ n → n ≤ fuel →
    2 ^ log2Nat fuel n ≤ n ∧ n < 2 ^ (log2Nat fuel n + 1) := by
  intro fuel
  induction fuel with
  | zero => intro n h1 h2; omega
  | succ fuel ih =>
    intro n h1 h2
    unfold log2Nat
    by_cases hn : n < 2
    · rw [if_pos hn]
      have : n = 1 := by omega
      subst this
      simp
    · rw [if_neg hn]
      obtain ⟨hlo, hhi⟩ := ih (n / 2) (by omega) (by omega)
      rw [pow_succ, pow_succ]
      generalize 2 ^ log2Nat fuel (n / 2) = a at hlo hhi
      rw [pow_succ] at hhi
      constructor <;> omega

theorem pow2_eq_zpow (e : ℤ) : pow2 e = (2 : ℚ) ^ e := by
  unfold pow2
  by_cases h : 0 ≤ e
  · rw [if_pos h]
    obtain ⟨k, rfl⟩ := Int.eq_ofNat_of_zero_le h
    simp
  · rw [if_neg h]
    obtain ⟨k, hk⟩ : ∃ k : ℕ, e = -(k : ℤ) := ⟨(-e).toNat, by omega⟩
    subst hk
    simp

theorem pow2_pos (e : ℤ) : 0 < pow2 e := by
  rw [pow2_eq_zpow]; positivity

/-- The binade of a positive rational brackets it between two powers of two. -/
theorem binade_spec (x : ℚ) (hx : 0 < x) :
    (2 : ℚ) ^ binade x ≤ x ∧ x < (2 : ℚ) ^ (binade x + 1) := by
  have hnum : 0 < x.num := Rat.num_pos.mpr hx
  have hden : 0 < x.den := x.den_pos
  obtain ⟨a, ha⟩ : ∃ a : ℕ, x.num.natAbs = a := ⟨_, rfl⟩
  have ha1 : 1 ≤ a := by omega
  have hxa : x = (a : ℚ) / (x.den : ℚ) := by
    have : (x.num : ℚ) = (a : ℚ) := by
      have : x.num = (a : ℤ) := by omega
      rw [this]; simp
    rw [← this]
    exact (Rat.num_div_den x).symm
  obtain ⟨alo, ahi⟩ := log2Nat_spec a a ha1 le_rfl
  obtain ⟨blo, bhi⟩ := log2Nat_spec x.den x.den hden le_rfl
  have hdq : (0 : ℚ) < (x.den : ℚ) := by exact_mod_cast hden
  have alo' : (2 : ℚ) ^ (log2Nat a a : ℤ) ≤ (a : ℚ) := by
    rw [zpow_natCast]; exact_mod_cast alo
  have ahi' : (a : ℚ) < (2 : ℚ) ^ ((log2Nat a a : ℤ) + 1) := by
    rw [show ((log2Nat a a : ℤ) + 1) = ((log2Nat a a + 1 : ℕ) : ℤ) by push_cast; ring, zpow_natCast]
    exact_mod_cast ahi
  have blo' : (2 : ℚ) ^ (log2Nat x.den x.den : ℤ) ≤ (x.den : ℚ) := by
    rw [zpow_natCast]; exact_mod_cast blo
  have bhi' : (x.den : ℚ) < (2 : ℚ) ^ ((log2Nat x.den x.den : ℤ) + 1) := by
    rw [show ((log2Nat x.den x.den : ℤ) + 1) = ((log2Nat x.den x.den + 1 : ℕ) : ℤ) by
      push_cast; ring, zpow_natCast]
    exact_mod_cast bhi
  have h2 : (2 : ℚ) ≠ 0 := by norm_num
  unfold binade
  simp only [ha, pow2_eq_zpow]
  generalize (log2Nat a a : ℤ) = A at alo' ahi'
  generalize (log2Nat x.den x.den : ℤ) = B at blo' bhi'
  have hB : (0 : ℚ) < (2 : ℚ) ^ B := by positivity
  have hB1 : (0 : ℚ) < (2 : ℚ) ^ (B + 1) := by positivity
  by_cases hc : (2 : ℚ) ^ (A - B) ≤ x
  · rw [if_pos hc]
    refine ⟨hc, ?_⟩
    rw [show A - B + 1 = (A + 1) - B by ring, zpow_sub₀ h2, hxa]
    calc (a : ℚ) / x.den ≤ (a : ℚ) / (2 : ℚ) ^ B := by
          apply div_le_div_of_nonneg_left (by positivity) hB blo'
      _ < (2 : ℚ) ^ (A + 1) / (2 : ℚ) ^ B := by
          apply div_lt_div_of_pos_right ahi' hB
  · rw [if_neg hc]
    refine ⟨?_, ?_⟩
    · rw [show A - B - 1 = A - (B + 1) by ring, zpow_sub₀ h2]
      conv_rhs => rw [hxa]
      calc (2 : ℚ) ^ A / (2 : ℚ) ^ (B + 1) ≤ (a : ℚ) / (2 : ℚ) ^ (B + 1) := by
            apply div_le_div_of_nonneg_right alo' hB1.le
        _ ≤ (a : ℚ) / x.den := by
            apply div_le_div_of_nonneg_left (by positivity) hdq bhi'.le
    · rw [show A - B - 1 + 1 = A - B by ring]
      exact not_le.mp hc

/-- The rounded integer is a nearest one: no integer is nearer. -/
theorem roundEven_nearest (q : ℚ) (j : ℤ) : |q - roundEven q| ≤ |q - j| := by
  have hf := Int.floor_le q
  have hf1 := Int.lt_floor_add_one q
  have hj : j ≤ ⌊q⌋ ∨ ⌊q⌋ + 1 ≤ j := by omega
  have hjq : (j : ℚ) ≤ (⌊q⌋ : ℚ) ∨ ((⌊q⌋ : ℚ) + 1 ≤ (j : ℚ)) := by
    rcases hj with h | h
    · left; exact_mod_cast h
    · right; exact_mod_cast h
  unfold roundEven
  simp only []
  split_ifs with h1 h2 h3
  · rw [abs_of_nonneg (by linarith)]
    rcases hjq with h | h
    · rw [abs_of_nonneg (by linarith)]; linarith
    · rw [abs_of_nonpos (by linarith)]; linarith
  · push_cast
    rw [abs_of_nonpos (by linarith)]
    rcases hjq with h | h
    · rw [abs_of_nonneg (by linarith)]; linarith
    · rw [abs_of_nonpos (by linarith)]; linarith
  · rw [abs_of_nonneg (by linarith)]
    rcases hjq with h | h
    · rw [abs_of_nonneg (by linarith)]; linarith
    · rw [abs_of_nonpos (by linarith)]; linarith
  · push_cast
    rw [abs_of_nonpos (by linarith)]
    rcases hjq with h | h
    · rw [abs_of_nonneg (by linarith)]; linarith
    · rw [abs_of_nonpos (by linarith)]; linarith

/-- At a tie the rounded integer is even. -/
theorem roundEven_tie (q : ℚ) (h : q - ⌊q⌋ = 1 / 2) : roundEven q % 2 = 0 := by
  unfold roundEven
  simp only [h, lt_irrefl, if_false]
  split_ifs with h3
  · exact h3
  · omega

/-- The rounding of binary64 returns a nearest value of the grid of the binade
of its argument, or an infinity when that value reaches `2^1024`. -/
theorem round64_spec (x : ℚ) (hx : x ≠ 0) :
    ∃ (e k : ℤ), (2 : ℚ) ^ e ≤ |x| ∧ |x| < (2 : ℚ) ^ (e + 1) ∧
      (∀ j : ℤ, |x - k * (2 : ℚ) ^ (max e (-1022) - 52)|
        ≤ |x - j * (2 : ℚ) ^ (max e (-1022) - 52)|) ∧
      round64 x = (if (2 : ℚ) ^ (1024 : ℤ) ≤ |(k : ℚ) * (2 : ℚ) ^ (max e (-1022) - 52)|
        then (if 0 < (k : ℚ) * (2 : ℚ) ^ (max e (-1022) - 52) then pinf else ninf)
        else fin (k * (2 : ℚ) ^ (max e (-1022) - 52))) := by
  have hpos : 0 < |x| := abs_pos.mpr hx
  obtain ⟨hlo, hhi⟩ := binade_spec |x| hpos
  refine ⟨binade |x|, roundEven (x / (2 : ℚ) ^ (max (binade |x|) (-1022) - 52)), hlo, hhi, ?_, ?_⟩
  · intro j
    have hu : (0 : ℚ) < (2 : ℚ) ^ (max (binade |x|) (-1022) - 52) := by positivity
    generalize (2 : ℚ) ^ (max (binade |x|) (-1022) - 52) = u at hu
    have h := roundEven_nearest (x / u) j
    have e1 : ∀ z : ℚ, |x - z * u| = |x / u - z| * u := by
      intro z
      rw [← abs_of_pos hu, ← abs_mul, abs_of_pos hu]
      congr 1
      field_simp
      ring
    rw [e1, e1]
    exact mul_le_mul_of_nonneg_right h hu.le
  · unfold round64
    simp only [hx, if_false, pow2_eq_zpow]

end RoundingProofs

section SqrtProofs

open Dbl

theorem sqrtNat_spec : ∀ (fuel n : ℕ), n ≤ fuel →
    sqrtNat fuel n * sqrtNat fuel n ≤ n ∧ n < (sqrtNat fuel n + 1) * (sqrtNat fuel n + 1) := by
  intro fuel
  induction fuel with
  | zero =>
    intro n hn
    have : n = 0 := by omega
    subst this
    simp [sqrtNat]
  | succ fuel ih =>
    intro n hn
    unfold sqrtNat
    by_cases h2 : n < 2
    · rw [if_pos h2]
      have : n = 0 ∨ n = 1 := by omega
      rcases this with rfl | rfl <;> simp
    · rw [if_neg h2]
      obtain ⟨hlo, hhi⟩ := ih (n / 4) (by omega)
      simp only []
      generalize sqrtNat fuel (n / 4) = s at hlo hhi
      have hq1 : 4 * (n / 4) ≤ n := by omega
      have hq2 : n ≤ 4 * (n / 4) + 3 := by omega
      generalize n / 4 = q at hlo hhi hq1 hq2
      have e1 : (s + 1) * (s + 1) = s * s + 2 * s + 1 := by ring
      have e2 : (2 * s + 1) * (2 * s + 1) = 4 * (s * s) + 4 * s + 1 := by ring
      have e3 : (2 * s + 1 + 1) * (2 * s + 1 + 1) = 4 * (s * s) + 8 * s + 4 := by ring
      have e4 : 2 * s * (2 * s) = 4 * (s * s) := by ring
      rw [e1] at hhi
      by_cases hc : (2 * s + 1) * (2 * s + 1) ≤ n
      · rw [if_pos hc]
        rw [e2] at hc
        rw [e2, e3]
        generalize s * s = t at *
        constructor <;> omega
      · rw [if_neg hc]
        rw [e2] at hc
        rw [e4, e2]
        generalize s * s = t at *
        constructor <;> omega

set_option maxRecDepth 100000 in
/-- The square root of the machine returns a nearest value of the grid of
53-bit significands: the exact root lies within half a spacing of it. -/
theorem sqrt64_spec (x : ℚ) (hx : 0 < x) :
    ∃ k : ℕ, 2 ^ 52 ≤ k ∧ k ≤ 2 ^ 53 ∧
      sqrt64 x = (k : ℚ) * (2 : ℚ) ^ (binade x / 2 - 52) ∧
      (((k : ℚ) - 1 / 2) * (2 : ℚ) ^ (binade x / 2 - 52)) ^ 2 ≤ x ∧
      x ≤ (((k : ℚ) + 1 / 2) * (2 : ℚ) ^ (binade x / 2 - 52)) ^ 2 := by
  obtain ⟨hlo, hhi⟩ := binade_spec x hx
  have h2 : (2 : ℚ) ≠ 0 := by norm_num
  have hdiv1 : 2 * (binade x / 2) ≤ binade x := by omega
  have hdiv2 : binade x + 1 ≤ 2 * (binade x / 2) + 2 := by omega
  unfold sqrt64
  rw [if_neg (not_le.mpr hx)]
  simp only [pow2_eq_zpow]
  generalize binade x = e at hlo hhi hdiv1 hdiv2 ⊢
  generalize e / 2 = h at hdiv1 hdiv2 ⊢
  have hu : (0 : ℚ) < (2 : ℚ) ^ (h - 52) := by positivity
  have huu : (2 : ℚ) ^ (h - 52) * (2 : ℚ) ^ (h - 52) * (2 : ℚ) ^ (104 : ℕ) = (2 : ℚ) ^ (2 * h) := by
    rw [← zpow_natCast, ← zpow_add₀ h2, ← zpow_add₀ h2]; congr 1; push_cast; ring
  have huu2 : (2 : ℚ) ^ (h - 52) * (2 : ℚ) ^ (h - 52) * (2 : ℚ) ^ (106 : ℕ)
      = (2 : ℚ) ^ (2 * h + 2) := by
    rw [← zpow_natCast, ← zpow_add₀ h2, ← zpow_add₀ h2]; congr 1; push_cast; ring
  have hx1 : (2 : ℚ) ^ (2 * h) ≤ x :=
    le_trans (zpow_le_zpow_right₀ (by norm_num) hdiv1) hlo
  have hx2 : x < (2 : ℚ) ^ (2 * h + 2) :=
    lt_of_lt_of_le hhi (zpow_le_zpow_right₀ (by norm_num) hdiv2)
  generalize (2 : ℚ) ^ (h - 52) = u at hu huu huu2 ⊢
  have huu0 : 0 < u * u := mul_pos hu hu
  obtain ⟨t, ht⟩ : ∃ t, x / (u * u) = t := ⟨_, rfl⟩
  have hxt : x = t * (u * u) := by rw [← ht]; field_simp
  have ht1 : (2 : ℚ) ^ (104 : ℕ) ≤ t := by
    rw [← ht, le_div_iff₀ huu0, mul_comm, huu]; exact hx1
  have ht2 : t < (2 : ℚ) ^ (106 : ℕ) := by
    rw [← ht, div_lt_iff₀ huu0, mul_comm, huu2]; exact hx2
  rw [ht]
  have ht0 : 0 ≤ t := le_trans (by positivity) ht1
  have hfl0 : 0 ≤ ⌊t⌋ := Int.floor_nonneg.mpr ht0
  obtain ⟨n, hn⟩ : ∃ n : ℕ, ⌊t⌋ = (n : ℤ) := Int.eq_ofNat_of_zero_le hfl0
  have hnt : (n : ℚ) ≤ t := by
    have := Int.floor_le t
    rw [hn] at this
    exact_mod_cast this
  have htn : t < (n : ℚ) + 1 := by
    have := Int.lt_floor_add_one t
    rw [hn] at this
    exact_mod_cast this
  have hn1 : 2 ^ 104 ≤ n := by
    have : ((2 ^ 104 : ℕ) : ℤ) ≤ ⌊t⌋ := by
      apply Int.le_floor.mpr
      push_cast
      exact ht1
    rw [hn] at this
    exact_mod_cast this
  have hn2 : n < 2 ^ 106 := by
    have : (n : ℚ) < ((2 ^ 106 : ℕ) : ℚ) := by
      push_cast
      exact lt_of_le_of_lt hnt ht2
    exact_mod_cast this
  rw [hn, Int.toNat_natCast]
  obtain ⟨hr1, hr2⟩ := sqrtNat_spec n n le_rfl
  generalize sqrtNat n n = r at hr1 hr2 ⊢
  have hrlo : 2 ^ 52 ≤ r := by
    by_contra hcon
    have hle : r + 1 ≤ 2 ^ 52 := by omega
    have : (r + 1) * (r + 1) ≤ 2 ^ 52 * 2 ^ 52 := Nat.mul_le_mul hle hle
    omega
  have hrhi : r < 2 ^ 53 := by
    by_contra hcon
    have hle : 2 ^ 53 ≤ r := by omega
    have : 2 ^ 53 * 2 ^ 53 ≤ r * r := Nat.mul_le_mul hle hle
    omega
  have hrq1 : (r : ℚ) * r ≤ t := by
    have : ((r * r : ℕ) : ℚ) ≤ (n : ℚ) := by exact_mod_cast hr1
    push_cast at this
    linarith
  have hrq2 : t < ((r : ℚ) + 1) * ((r : ℚ) + 1) := by
    have : ((n + 1 : ℕ) : ℚ) ≤ (((r + 1) * (r + 1) : ℕ) : ℚ) := by exact_mod_cast hr2
    push_cast at this
    linarith
  have hr1q : (1 : ℚ) ≤ (r : ℚ) := by
    have : 1 ≤ r := by omega
    exact_mod_cast this
  have key : ∀ k : ℚ, (k - 1 / 2) * (k - 1 / 2) ≤ t → t ≤ (k + 1 / 2) * (k + 1 / 2) →
      ((k - 1 / 2) * u) ^ 2 ≤ x ∧ x ≤ ((k + 1 / 2) * u) ^ 2 := by
    intro k h1 h2
    rw [hxt]
    constructor
    · calc ((k - 1 / 2) * u) ^ 2 = (k - 1 / 2) * (k - 1 / 2) * (u * u) := by ring
        _ ≤ t * (u * u) := mul_le_mul_of_nonneg_right h1 huu0.le
    · calc t * (u * u) ≤ (k + 1 / 2) * (k + 1 / 2) * (u * u) :=
            mul_le_mul_of_nonneg_right h2 huu0.le
        _ = ((k + 1 / 2) * u) ^ 2 := by ring
  have useR : ∀ (hle : t ≤ ((r : ℚ) + 1 / 2) * ((r : ℚ) + 1 / 2)),
      ∃ k : ℕ, 2 ^ 52 ≤ k ∧ k ≤ 2 ^ 53 ∧ (r : ℚ) * u = (k : ℚ) * u ∧
        (((k : ℚ) - 1 / 2) * u) ^ 2 ≤ x ∧ x ≤ (((k : ℚ) + 1 / 2) * u) ^ 2 := by
    intro hle
    refine ⟨r, hrlo, by omega, rfl, key r ?_ hle⟩
    have e : ((r : ℚ) - 1 / 2) * ((r : ℚ) - 1 / 2) = (r : ℚ) * r - r + 1 / 4 := by ring
    rw [e]
    linarith
  have useR1 : ∀ (hle : ((r : ℚ) + 1 / 2) * ((r : ℚ) + 1 / 2) ≤ t),
      ∃ k : ℕ, 2 ^ 52 ≤ k ∧ k ≤ 2 ^ 53 ∧ ((r : ℚ) + 1) * u = (k : ℚ) * u ∧
        (((k : ℚ) - 1 / 2) * u) ^ 2 ≤ x ∧ x ≤ (((k : ℚ) + 1 / 2) * u) ^ 2 := by
    intro hle
    refine ⟨r + 1, by omega, by omega, by push_cast; ring, ?_⟩
    push_cast
    apply key
    · have : (r : ℚ) + 1 - 1 / 2 = (r : ℚ) + 1 / 2 := by ring
      rw [this]; exact hle
    · have e : ((r : ℚ) + 1 + 1 / 2) * ((r : ℚ) + 1 + 1 / 2)
          = ((r : ℚ) + 1) * ((r : ℚ) + 1) + (r + 1) + 1 / 4 := by ring
      rw [e]
      linarith
  split_ifs with c1 c2 c3
  · exact useR c1.le
  · exact useR1 c2.le
  · exact useR (not_lt.mp c2)
  · exact useR1 (not_lt.mp c1)

end SqrtProofs

/-! ## The rounded operators without rounding -/

section RoundedExact

open Dbl

variable {K : Type} [LinearOrderedField K] {m n k : ℕ}

theorem foldl_add_eq_sum {α : Type} (g : α → Dbl K) (l : List α) (a : Dbl K) :
    l.foldl (fun res j => res + g j) a = a + (l.map g).sum := by
  induction l generalizing a with
  | nil => simp
  | cons x l ih => rw [List.foldl_cons, ih, List.map_cons, List.sum_cons, add_assoc]

theorem mulVec_rounded_id (A : SparseMatrix K m n) (x : VectorXd K n) :
    A.mulVec_rounded id x = A.mulVec x := by
  funext i
  unfold SparseMatrix.mulVec_rounded SparseMatrix.mulVec
  have hstep : (fun (res : Dbl K) j => match A i j with
      | some v => id (res + id (v * x j))
      | none => res) = fun res j => res + storedTimes (A i j) (x j) := by
    funext res j
    cases h : A i j with
    | none => simp [storedTimes]
    | some v => simp [storedTimes]
  rw [hstep, foldl_add_eq_sum, zero_add, Fin.sum_univ_def]

theorem mulDense_rounded_id (A : SparseMatrix K m n) (X : MatrixX3d K n) :
    A.mulDense_rounded id X = A.mulDense X := by
  funext i c
  exact congrFun (mulVec_rounded_id A (fun j => X j c)) i

theorem mul_rounded_scan (g : Fin k → Option (Dbl K)) (l : List (Fin k)) (res : Option (Dbl K)) :
    l.foldl (fun (res : Option (Dbl K)) j =>
      match g j with
      | some p => (match res with
          | none => some (id p)
          | some r => some (id (r + id p)))
      | none => res) res
    = if (∃ j ∈ l, (g j).isSome = true) ∨ res.isSome = true
      then some (res.getD 0 + (l.map (fun j => (g j).getD 0)).sum) else none := by
  induction l generalizing res with
  | nil => cases res <;> simp
  | cons x l ih =>
    rw [List.foldl_cons, ih]
    cases hg : g x with
    | none =>
      simp only [List.mem_cons, exists_eq_or_imp, hg, Option.isSome_none, Bool.false_eq_true,
        false_or, List.map_cons, Option.getD_none, List.sum_cons, zero_add]
    | some p =>
      cases res with
      | none =>
        simp only [List.mem_cons, exists_eq_or_imp, hg, Option.isSome_some, true_or, or_true,
          if_true, id, Option.getD_some, List.map_cons, List.sum_cons, Option.getD_none, zero_add]
      | some r =>
        simp only [List.mem_cons, exists_eq_or_imp, hg, Option.isSome_some, true_or, or_true,
          if_true, id, Option.getD_some, List.map_cons, List.sum_cons, add_assoc]

theorem mul_rounded_id (A : SparseMatrix K m k) (B : SparseMatrix K k n) :
    A.mul_rounded id B = A.mul B := by
  funext i j
  unfold SparseMatrix.mul_rounded SparseMatrix.mul
  have hstep : (fun (res : Option (Dbl K)) l =>
      match A i l, B l j with
      | some a, some b =>
        (match res with
          | none => some (id (a * b))
          | some r => some (id (r + id (a * b))))
      | _, _ => res)
      = fun (res : Option (Dbl K)) l =>
        match (match A i l, B l j with
          | some a, some b => some (a * b)
          | _, _ => none : Option (Dbl K)) with
        | some p => (match res with
            | none => some (id p)
            | some r => some (id (r + id p)))
        | none => res := by
    funext res l
    cases A i l <;> cases B l j <;> rfl
  rw [hstep, mul_rounded_scan]
  have hex : ((∃ l ∈ List.finRange k, (match A i l, B l j with
        | some a, some b => some (a * b)
        | _, _ => none : Option (Dbl K)).isSome = true) ∨ (none : Option (Dbl K)).isSome = true)
      ↔ ∃ l, (A i l).isSome = true ∧ (B l j).isSome = true := by
    constructor
    · rintro (⟨l, _, hl⟩ | h)
      · refine ⟨l, ?_⟩
        cases ha : A i l <;> cases hb : B l j <;> simp [ha, hb] at hl ⊢
      · simp at h
    · rintro ⟨l, ha, hb⟩
      left
      refine ⟨l, List.mem_finRange l, ?_⟩
      cases ha' : A i l <;> cases hb' : B l j <;> simp [ha', hb'] at ha hb ⊢
  have hsum : (List.map (fun l => (match A i l, B l j with
        | some a, some b => some (a * b)
        | _, _ => none : Option (Dbl K)).getD 0) (List.finRange k)).sum
      = ∑ l, (match A i l, B l j with
        | some a, some b => a * b
        | _, _ => 0) := by
    rw [Fin.sum_univ_def]
    congr 1
    apply List.map_congr_left
    intro l _
    cases A i l <;> cases B l j <;> rfl
  simp only [hex, hsum, Option.getD_none, zero_add]

theorem setFromTriplets_rounded_id (ts : List (Triplet K m n)) :
    setFromTriplets_rounded id ts = setFromTriplets ts := by
  funext i j
  unfold setFromTriplets_rounded setFromTriplets
  cases h : ts.filter (fun t => decide (t.row = i ∧ t.col = j)) with
  | nil => simp
  | cons t rest =>
    have hstep : (fun (res : Dbl K) (u : Triplet K m n) => id (res + u.value))
        = fun res u => res + (fun u : Triplet K m n => u.value) u := rfl
    simp only [hstep, foldl_add_eq_sum, List.isEmpty_cons, Bool.false_eq_true, if_false,
      List.map_cons, List.sum_cons]

theorem normalize_rows_rounded_id (M : SparseMatrix K m n) :
    normalize_rows_rounded id M = normalize_rows M := by
  unfold normalize_rows_rounded normalize_rows
  rw [mul_rounded_id, mulVec_rounded_id]
  rfl

/-- Without rounding the rounded averager is the exact one. -/
theorem face_to_vertex_rounded_id {nF nV : ℕ} (F : Faces nF nV) :
    (face_to_vertex_rounded id F : SparseMatrix K nV nF) = face_to_vertex F := by
  unfold face_to_vertex_rounded face_to_vertex
  rw [setFromTriplets_rounded_id, normalize_rows_rounded_id]

/-- Without rounding the rounded smoothing matrix is the exact one. -/
theorem smoothing_matrix_rounded_id {nF nV : ℕ} (F : Faces nF nV) :
    (smoothing_matrix_rounded id F : SparseMatrix K nV nV) = smoothing_matrix F := by
  unfold smoothing_matrix_rounded smoothing_matrix
  rw [normalize_rows_rounded_id]

/-- Without rounding the rounded smoothing loop is the exact one. -/
theorem smooth_rounded_id (S : SparseMatrix K n n) (iter : ℤ) (X : MatrixX3d K n) :
    smooth_rounded id S iter X = smooth S iter X := by
  unfold smooth_rounded smooth
  have h : (fun Y => S.mulDense_rounded id Y) = fun Y => S.mulDense Y := by
    funext Y
    exact mulDense_rounded_id S Y
  rw [h]

theorem sum_rounded_id (x : VectorXd K n) : sum_rounded id x = ∑ i, x i := by
  unfold sum_rounded
  rw [Fin.sum_univ_def]
  cases h : (List.finRange n).map x with
  | nil => rfl
  | cons a rest =>
    have h2 := foldl_add_eq_sum (fun b : Dbl K => b) rest a
    rw [List.map_id'] at h2
    show rest.foldl (fun res b => res + b) a = (a :: rest).sum
    rw [List.sum_cons]
    exact h2

theorem mean_rounded_id (x : VectorXd K n) : mean_rounded id x = mean x := by
  unfold mean_rounded mean
  rw [sum_rounded_id]
  rfl

theorem sampleVariance_rounded_id (x : VectorXd K n) :
    sampleVariance_rounded id x = sampleVariance x := by
  unfold sampleVariance_rounded sampleVariance
  rw [sum_rounded_id, mean_rounded_id]
  rfl

/-- Without rounding the rounded feature normalisation is the exact one. -/
theorem normalize_feature_rounded_id (sqrtK : K → K) (dp : VectorXd K n) :
    normalize_feature_rounded id sqrtK dp = normalize_feature sqrtK dp := by
  unfold normalize_feature_rounded normalize_feature
  simp only [sum_rounded_id, mean_rounded_id, id]

end RoundedExact

/-! ## The operators on doubles

The averaging and smoothing operators divide by a degree, and the feature
normalisation by a square root; the machine rounds both.  The inputs below show
where the rounded operators leave the algebra of the exact ones. -/

section RoundedProofs

/-- C4 (as stated) fails on doubles.  The centre of the fan of six triangles
has six incident faces.  `face_to_vertex` stores in each of the six columns of
its row the double nearest to `1/6`, which is `6004799503160661 / 2^55` and not
`1/6`; the six stored values sum to `1 - 2^-54`, and added as doubles in the
order of the columns, as the product `M * Ones` does, to `1 - 2^-53`: no weight
is `1/deg(v)` and the row does not sum to 1. -/
theorem face_to_vertex_rounded_counterexample :
    (∀ f, Function.Injective (exampleFan f)) ∧
    faceDegree exampleFan 0 = 6 ∧
    (∀ f, incident exampleFan 0 f) ∧
    (∀ f, face_to_vertex_rounded fl64 exampleFan 0 f
      = some (fin (6004799503160661 / 2 ^ 55))) ∧
    (∀ f, (face_to_vertex_rounded fl64 exampleFan).coeff 0 f
      ≠ fin (1 / (faceDegree exampleFan 0 : ℚ))) ∧
    ∑ f, (face_to_vertex_rounded fl64 exampleFan).coeff 0 f = fin (1 - 1 / 2 ^ 54) ∧
    ∑ f, (face_to_vertex_rounded fl64 exampleFan).coeff 0 f ≠ fin 1 ∧
    (face_to_vertex_rounded fl64 exampleFan).mulVec_rounded fl64 (ones 6) 0
      = fin (1 - 1 / 2 ^ 53) ∧
    (face_to_vertex_rounded fl64 exampleFan).mulVec_rounded fl64 (ones 6) 0 ≠ fin 1 := by
  refine ⟨by decide, by decide, by decide, by decide!, by decide!, by decide!, by decide!,
    by decide!, by decide!⟩

/-- C5 (as stated) fails on doubles.  The centre of the fan of six triangles
has the six neighbours 1, ..., 6.  The smoothing matrix of `main` stores in each
of these columns of its row the double nearest to `1/6`, which is
`6004799503160661 / 2^55` and not `1/6`; the six stored values sum to
`1 - 2^-54`, and added as doubles in the order of the columns to `1 - 2^-53`:
no weight is `1/deg(v)` and the row does not sum to 1. -/
theorem smoothing_matrix_rounded_counterexample :
    (∀ f, Function.Injective (exampleFan f)) ∧
    (∀ v, ∃ f, incident exampleFan v f) ∧
    vertexDegree exampleFan 0 = 6 ∧
    (∀ w, smoothing_matrix_rounded fl64 exampleFan 0 w
      = if adjacent exampleFan 0 w then some (fin (6004799503160661 / 2 ^ 55)) else none) ∧
    (∀ w, adjacent exampleFan 0 w → (smoothing_matrix_rounded fl64 exampleFan).coeff 0 w
      ≠ fin (1 / (vertexDegree exampleFan 0 : ℚ))) ∧
    ∑ w, (smoothing_matrix_rounded fl64 exampleFan).coeff 0 w = fin (1 - 1 / 2 ^ 54) ∧
    ∑ w, (smoothing_matrix_rounded fl64 exampleFan).coeff 0 w ≠ fin 1 ∧
    (smoothing_matrix_rounded fl64 exampleFan).mulVec_rounded fl64 (ones 7) 0
      = fin (1 - 1 / 2 ^ 53) ∧
    (smoothing_matrix_rounded fl64 exampleFan).mulVec_rounded fl64 (ones 7) 0 ≠ fin 1 := by
  refine ⟨by decide, by decide, by decide, by decide!, by decide!, by decide!, by decide!,
    by decide!, by decide!⟩

/-- C6 (as stated) fails on doubles.  On the fan of six triangles every vertex
has a neighbour; one smoothing pass over the field that is `1.0` at every
vertex returns `1 - 2^-53` at the centre, in each of the three columns: the
field returned is not the constant field. -/
theorem smooth_rounded_counterexample :
    (∀ v, ∃ w, adjacent exampleFan v w) ∧
    (∀ c, smooth_rounded fl64 (smoothing_matrix_rounded fl64 exampleFan) 1
      (fun _ _ => fin 1) 0 c = fin (1 - 1 / 2 ^ 53)) ∧
    smooth_rounded fl64 (smoothing_matrix_rounded fl64 exampleFan) 1 (fun _ _ => fin 1)
      ≠ fun _ _ => fin 1 := by
  have h : ∀ c, smooth_rounded fl64 (smoothing_matrix_rounded fl64 exampleFan) 1
      (fun _ _ => fin 1) 0 c = fin (1 - 1 / 2 ^ 53) := by decide!
  refine ⟨by decide, h, fun hconst => ?_⟩
  have h0 := h 0
  rw [hconst] at h0
  revert h0
  decide!

/-- C10 (as stated) fails on a vector with an infinite entry and on doubles.
In exact arithmetic the vector `(+Inf, 0)` has mean `+Inf`, so its first
centred entry is `Inf - Inf`: every entry of the result is NaN, and so is its
mean.  On doubles the vector `(1, 3)` is centred to `(-1, 1)` and divided by
the double nearest to `√2`; the result is `(-y, y)` with
`y = 1592262918131443 / 2^51`.  Its mean is 0, but its sample variance is
`2 y^2`, which is not 1, and evaluated on doubles `1 - 2^-52`.  On doubles the
vector `(0.1, 0.2, 0.4)` becomes a vector of mean `-2^-51 / 3`, not 0, which
evaluated on doubles is `-6004799503160661 / 2^105`. -/
theorem normalize_feature_counterexample :
    (∀ i, normalize_feature sqrt64 (![pinf, fin 0] : VectorXd ℚ 2) i = nan) ∧
    mean (normalize_feature sqrt64 (![pinf, fin 0] : VectorXd ℚ 2)) = nan ∧
    sqrt64 2 = 6369051672525773 / 2 ^ 52 ∧
    (∀ i, normalize_feature_rounded fl64 sqrt64 (![fin 1, fin 3] : VectorXd ℚ 2) i
      = (![fin (-(1592262918131443 / 2 ^ 51)), fin (1592262918131443 / 2 ^ 51)] :
          VectorXd ℚ 2) i) ∧
    mean (normalize_feature_rounded fl64 sqrt64 (![fin 1, fin 3] : VectorXd ℚ 2)) = fin 0 ∧
    sampleVariance (normalize_feature_rounded fl64 sqrt64 (![fin 1, fin 3] : VectorXd ℚ 2))
      = fin (2 * (1592262918131443 / 2 ^ 51) ^ 2) ∧
    sampleVariance (normalize_feature_rounded fl64 sqrt64 (![fin 1, fin 3] : VectorXd ℚ 2))
      ≠ fin 1 ∧
    sampleVariance_rounded fl64
      (normalize_feature_rounded fl64 sqrt64 (![fin 1, fin 3] : VectorXd ℚ 2))
      = fin (1 - 1 / 2 ^ 52) ∧
    sampleVariance_rounded fl64
      (normalize_feature_rounded fl64 sqrt64 (![fin 1, fin 3] : VectorXd ℚ 2)) ≠ fin 1 ∧
    mean (normalize_feature_rounded fl64 sqrt64 (![fin (3602879701896397 / 2 ^ 55),
      fin (3602879701896397 / 2 ^ 54), fin (3602879701896397 / 2 ^ 53)] : VectorXd ℚ 3))
      = fin (-(1 / (3 * 2 ^ 51))) ∧
    mean_rounded fl64 (normalize_feature_rounded fl64 sqrt64
      (![fin (3602879701896397 / 2 ^ 55), fin (3602879701896397 / 2 ^ 54),
        fin (3602879701896397 / 2 ^ 53)] : VectorXd ℚ 3))
      = fin (-(6004799503160661 / 2 ^ 105)) := by
  refine ⟨by decide!, by decide!, by decide!, by decide!, by decide!, by decide!, by decide!,
    by decide!, by decide!, by decide!, by decide!⟩

/-- C18 (as stated) fails on a field with infinite entries and on doubles.  In
exact arithmetic, on one triangle, one pass over the field `(+Inf, -Inf, 0)`
returns `Inf - Inf`, a NaN, at vertex 2, and a NaN is not above any entry of
the field.  On doubles, on the fan of six triangles, one pass over the field
that is `1.0` at every vertex returns `1 - 2^-53` at the centre, below the
minimum `1.0` of the field. -/
theorem smooth_range_counterexample :
    (∀ v, ∃ w, adjacent exampleTriangle v w) ∧
    smooth (smoothing_matrix exampleTriangle : SparseMatrix ℚ 3 3) 1
      (fun v _ => (![pinf, ninf, fin 0] : Fin 3 → Dbl ℚ) v) 2 0 = nan ∧
    (∀ u, Dbl.le ((![pinf, ninf, fin 0] : Fin 3 → Dbl ℚ) u) nan = false) ∧
    (∀ v, ∃ w, adjacent exampleFan v w) ∧
    smooth_rounded fl64 (smoothing_matrix_rounded fl64 exampleFan) 1
      (fun _ _ => fin 1) 0 0 = fin (1 - 1 / 2 ^ 53) ∧
    Dbl.le (fin 1) (fin (1 - 1 / 2 ^ 53) : Dbl ℚ) = false := by
  refine ⟨by decide, by decide!, by decide!, by decide, by decide!, by decide!⟩

end RoundedProofs

end Falcon
